import Mathlib

/-!
ContigMapping: contig placement, orientation and range.

A shallow embedding of `ContigMapping.go` (package `ContigMapping`).

Modelling conventions.

* `uint64` values are natural numbers; every `+` and `*` of the source that
  can wrap is followed by `% 2 ^ 64`.  Counters bounded by the length of a
  map (`tot++`) cannot wrap and are left as plain naturals.
* A Go `map[string]*Marker` is a `List Marker`; the order of the list is the
  order in which a `range` loop enumerates the map.  Go leaves that order
  unspecified, so statements are made for every list.
* A run-time panic (integer division by zero, index out of range, nil pointer
  dereference) is an `Except.error` carrying a `Fault`.
* `sort.Sort` is the in-place insertion sort that the Go library runs on
  slices of at most 12 elements (`insertionSort` in package `sort`): element
  `i` is swapped leftwards while `Less(j, j-1)` holds.  On longer slices the
  library runs a quicksort that is not stable, so there `goSort` gives the
  slice of the code only up to the order among elements that `Less` does not
  separate.  A statement that depends on that order is made for every sorted
  permutation of the input (`SortedByConPos`); the other statements are about
  slices whose elements `Less` separates, or about values that are the same
  for every sorted permutation.
-/

namespace ContigMapping

/-- The modulus of `uint64` arithmetic. -/
def U64 : Nat := 2 ^ 64

/-- Run-time panics of the Go program. -/
inductive Fault where
  | divideByZero
  | indexOutOfRange
  | nilDereference
deriving DecidableEq, Repr

/-- Source: `type Marker struct`. -/
structure Marker where
  Name : String
  ConPos : Nat
  GenPos : Nat
  Weight : Nat
  LG : String
  Contig : String
deriving DecidableEq, Repr

/-- Source: `type Contig struct`.  `Range` is `[2]*Marker`; a nil pointer is `none`. -/
structure Contig where
  Markers : List Marker
  Name : String
  GenPos : Nat
  AvgWeight : Nat
  Orientation : String
  Range : Option Marker × Option Marker
  LG : String
  Placeable : Bool
deriving DecidableEq, Repr

/-! ## sort.Sort -/

/-- Inner loop of `insertionSort`: `x` sits to the right of the already sorted
prefix, given here from right to left, and is swapped leftwards while
`Less(j, j-1)`. -/
def bubble {α : Type} (less : α → α → Bool) (x : α) : List α → List α
  | [] => [x]
  | y :: ys => if less x y then y :: bubble less x ys else x :: y :: ys

/-- Source: `sort.Sort(data)` for a `Less` given by `less`, as the library runs it
on slices of at most 12 elements.  It is stable; on longer slices the library
may order elements that `less` does not separate differently. -/
def goSort {α : Type} (less : α → α → Bool) (data : List α) : List α :=
  (data.foldl (fun revPrefix x => bubble less x revPrefix) []).reverse

/-- Source: `ByConPos.Less`. -/
def ByConPos (a b : Marker) : Bool := decide (a.ConPos < b.ConPos)

/-- Source: `ByGenPos.Less`. -/
def ByGenPos (a b : Marker) : Bool := decide (a.GenPos < b.GenPos)

/-! ## OrientMarkers -/

/-- Source: `func sign(x, y uint64) string`. -/
def sign (x y : Nat) : String :=
  if x < y then "-" else if x > y then "+" else ""

/-- The `for` loop of `OrientMarkers` over the sorted slice; `out` is the
strand found so far. -/
def orientLoop : String → List Marker → String × Bool
  | out, m1 :: m2 :: rest =>
    if sign m1.GenPos m2.GenPos = "" then orientLoop out (m2 :: rest)
    else
      let strand :=
        if sign m1.GenPos m2.GenPos = sign m1.ConPos m2.ConPos then "+" else "-"
      if out = "" then orientLoop strand (m2 :: rest)
      else if strand ≠ out then ("", false)
      else orientLoop out (m2 :: rest)
  | out, _ => (out, true)

/-- Source: `func OrientMarkers(data ...*Marker) (out string, ok bool)`. -/
def OrientMarkers (data : List Marker) : String × Bool :=
  orientLoop "" (goSort ByConPos data)

/-- What `sort.Sort(ByConPos(data))` guarantees of the slice it leaves, whichever
algorithm the library runs: a permutation of the input in ascending `ConPos`.
The order among markers of equal `ConPos` is left open. -/
def SortedByConPos (data sorted : List Marker) : Prop :=
  sorted.Perm data ∧ sorted.Pairwise (fun a b => a.ConPos ≤ b.ConPos)

/-! ## Methods on Contig -/

/-- Source: `func NewContig() *Contig`. -/
def NewContig : Contig :=
  { Markers := [], Name := "", GenPos := 0, AvgWeight := 0, Orientation := "",
    Range := (none, none), LG := "", Placeable := true }

/-- The map assignment `(*M)[m.Name] = m`: replace the entry with that key or
add a new one. -/
def mapSet : List Marker → Marker → List Marker
  | [], m => [m]
  | x :: xs, m => if x.Name = m.Name then m :: xs else x :: mapSet xs m

/-- Source: `func (c *Contig) AddMarkers(markers ...*Marker)`. -/
def Contig.AddMarkers (c : Contig) (markers : List Marker) : Contig :=
  { c with Markers := markers.foldl mapSet c.Markers }

/-- A contig as `parseMarkerInfo` builds it: `NewContig`, the name set, then
`AddMarkers`. -/
def freshContig (name : String) (markers : List Marker) : Contig :=
  Contig.AddMarkers { NewContig with Name := name } markers

/-- One iteration of the `switch` on `m.Weight` in `Top`; the state is
`(out, maxWeight)`. -/
def topStep (st : List Marker × Nat) (m : Marker) : List Marker × Nat :=
  if m.Weight > st.2 then ([m], m.Weight)
  else if m.Weight = st.2 then (st.1 ++ [m], st.2)
  else st

/-- Source: `func (c *Contig) Top() (out []*Marker)`. -/
def Contig.Top (c : Contig) : List Marker :=
  if c.LG = "" then
    (c.Markers.foldl topStep ([], 0)).1
  else
    (c.Markers.foldl (fun st m => if m.LG ≠ c.LG then st else topStep st m) ([], 0)).1

/-- The loop of `AssignLG` over the top markers; `none` is the early return
on a disagreement. -/
def assignLoop : String → List Marker → Option String
  | lg, [] => some lg
  | lg, m :: ms =>
    if lg = "" then assignLoop m.LG ms
    else if m.LG ≠ lg then none
    else assignLoop lg ms

/-- Source: `func (c *Contig) AssignLG() (lg string)`: the returned string and the
contig afterwards. -/
def Contig.AssignLG (c : Contig) : String × Contig :=
  if c.Placeable = false then ("-", { c with LG := "-" })
  else
    match assignLoop "" c.Top with
    | none => ("-", { c with Placeable := false, LG := "-" })
    | some lg => (lg, { c with Placeable := true, LG := lg })

/-- The guard `if c.LG == "" { c.AssignLG() }` opening several methods. -/
def Contig.ensureLG (c : Contig) : Contig :=
  if c.LG = "" then c.AssignLG.2 else c

/-- The accumulation `sum += m.Weight; tot++` of `CalculateAvgWeight` over the
markers whose `LG` is `lg`; the state is `(sum, tot)`. -/
def avgStep (lg : String) (st : Nat × Nat) (m : Marker) : Nat × Nat :=
  if m.LG = lg then ((st.1 + m.Weight) % U64, st.2 + 1) else st

/-- Source: `func (c *Contig) CalculateAvgWeight() uint64`. -/
def Contig.CalculateAvgWeight (c : Contig) : Except Fault (Nat × Contig) :=
  let c := c.ensureLG
  if c.Placeable = false then .ok (0, c)
  else
    let st := c.Markers.foldl (avgStep c.LG) (0, 0)
    if st.2 = 0 then .error .divideByZero
    else .ok (st.1 / st.2, { c with AvgWeight := st.1 / st.2 })

/-- The accumulation `sum += m.Weight * m.GenPos; weight += m.Weight` of
`CalculateMapPos`; the state is `(weight, sum)`. -/
def posStep (lg : String) (st : Nat × Nat) (m : Marker) : Nat × Nat :=
  if m.LG = lg then
    ((st.1 + m.Weight) % U64, (st.2 + (m.Weight * m.GenPos) % U64) % U64)
  else st

/-- Source: `func (c *Contig) CalculateMapPos() uint64`. -/
def Contig.CalculateMapPos (c : Contig) : Except Fault (Nat × Contig) :=
  let c := c.ensureLG
  if c.Placeable = false then .ok (0, c)
  else
    let st := c.Markers.foldl (posStep c.LG) (0, 0)
    if st.1 = 0 then .error .divideByZero
    else .ok (st.2 / st.1, { c with GenPos := st.2 / st.1 })

/-- The accumulation `sum += m.ConPos; tot++` of `CentrePos`. -/
def centreStep (lg : String) (st : Nat × Nat) (m : Marker) : Nat × Nat :=
  if m.LG = lg then ((st.1 + m.ConPos) % U64, st.2 + 1) else st

/-- Source: `func (c *Contig) CentrePos() uint64`. -/
def Contig.CentrePos (c : Contig) : Except Fault (Nat × Contig) :=
  let c := c.ensureLG
  if c.Placeable = false then .ok (0, c)
  else
    let st := c.Markers.foldl (centreStep c.LG) (0, 0)
    if st.2 = 0 then .error .divideByZero
    else .ok (st.1 / st.2, c)

/-- Source: `func (c *Contig) MaxWeight() (out uint64)`. -/
def Contig.MaxWeight (c : Contig) : Nat :=
  c.Markers.foldl (fun out m => if m.Weight > out then m.Weight else out) 0

/-- The number of keys of the `map[uint64]int` filled with the `GenPos` of the
given markers (`len(topPos)`). -/
def genPosCount (ms : List Marker) : Nat :=
  ((ms.map (fun m => m.GenPos)).dedup).length

/-- The guard `if c.GenPos == 0 { c.CalculateMapPos() }`. -/
def Contig.ensureMapPos (c : Contig) : Except Fault Contig :=
  if c.GenPos = 0 then
    match c.CalculateMapPos with
    | .ok r => .ok r.2
    | .error e => .error e
  else .ok c

/-- The synthetic marker `Marker{ConPos: ..., GenPos: ..., Weight: ...}`; the
fields not named are zero values. -/
def synthetic (conPos genPos weight : Nat) : Marker :=
  { Name := "", ConPos := conPos, GenPos := genPos, Weight := weight, LG := "",
    Contig := "" }

/-- Source: `func (c *Contig) Orient() (string, bool)`. -/
def Contig.Orient (c : Contig) : Except Fault ((String × Bool) × Contig) :=
  if c.Placeable = false then .ok (("", false), c)
  else
    match c.ensureLG.ensureMapPos with
    | .error e => .error e
    | .ok c =>
      let topMarkers := c.Top
      let topPos := genPosCount topMarkers
      if topMarkers.length = c.Markers.length ∧ topPos = 1 then
        .ok (("", false), c)
      else if topMarkers.length = 1 ∨ topPos = 1 then
        match c.CentrePos with
        | .error e => .error e
        | .ok (centre, c) =>
          let r := OrientMarkers (topMarkers ++ [synthetic centre c.GenPos 0])
          .ok (r, { c with Orientation := r.1, Placeable := r.2 })
      else
        let r := OrientMarkers topMarkers
        .ok (r, { c with Orientation := r.1, Placeable := r.2 })

/-- Source: `func (c *Contig) CalculateRange()`. -/
def Contig.CalculateRange (c : Contig) : Except Fault Contig :=
  if c.Placeable = false then .ok c
  else
    match c.ensureLG.ensureMapPos with
    | .error e => .error e
    | .ok c =>
      if genPosCount c.Markers = 1 then
        let p := synthetic 0 c.GenPos c.MaxWeight
        .ok { c with Range := (some p, some p) }
      else
        let topMarkers := c.Top
        let topMarkers :=
          if topMarkers.length = 1 then
            topMarkers ++ [synthetic 0 c.GenPos c.MaxWeight]
          else topMarkers
        let sorted := goSort ByGenPos topMarkers
        match sorted.head?, sorted.getLast? with
        | some lo, some hi => .ok { c with Range := (some lo, some hi) }
        | _, _ => .error .indexOutOfRange

/-- Source: `strconv.FormatBool`. -/
def formatBool (b : Bool) : String := if b then "true" else "false"

/-- Source: `func (c *Contig) Autocomplete() (out string)`: the trace and the contig
afterwards. -/
def Contig.Autocomplete (c : Contig) : Except Fault (String × Contig) :=
  let out := "Processing contig " ++ c.Name
  let (lg, c) := c.AssignLG
  let out := out ++ "\n\tAssinging LG = " ++ lg
  match c.CalculateMapPos with
  | .error e => .error e
  | .ok (pos, c) =>
    let out := out ++ "\n\tCalculating Map Position = " ++ toString pos
    match c.CalculateAvgWeight with
    | .error e => .error e
    | .ok (avg, c) =>
      let out := out ++ "\n\tCalculating Avg weight = " ++ toString avg
      match c.Orient with
      | .error e => .error e
      | .ok ((st, ok), c) =>
        let out := out ++ "\n\tOrienting contig = " ++ st ++ " " ++ formatBool ok
        match c.CalculateRange with
        | .error e => .error e
        | .ok c =>
          .ok (out ++ "\n\tPlaceable = " ++ formatBool c.Placeable, c)

/-! ## Vocabulary of the orientation rule -/

/-- The adjacent pairs `(data[i], data[i+1])` of a slice. -/
def adjacentPairs (l : List Marker) : List (Marker × Marker) :=
  l.zip l.tail

/-- A pair is informative when its two genetic positions differ. -/
def informative (p : Marker × Marker) : Bool :=
  decide (p.1.GenPos ≠ p.2.GenPos)

/-- The local strand of a pair: `"+"` when the sign of the genetic positions
equals the sign of the contig positions, `"-"` otherwise. -/
def pairStrand (p : Marker × Marker) : String :=
  if sign p.1.GenPos p.2.GenPos = sign p.1.ConPos p.2.ConPos then "+" else "-"

/-- The local strands of the informative adjacent pairs, in slice order. -/
def strands (l : List Marker) : List String :=
  ((adjacentPairs l).filter informative).map pairStrand

/-- Folding the strands the way the second `switch` of `OrientMarkers` does. -/
def agree : String → List String → String × Bool
  | out, [] => (out, true)
  | out, s :: ss =>
    if out = "" then agree s ss
    else if s ≠ out then ("", false)
    else agree out ss

/-! ## Example inputs -/

/-- Shorthand for a marker record. -/
def mkMarker (name : String) (conPos genPos weight : Nat) (lg contig : String) : Marker :=
  { Name := name, ConPos := conPos, GenPos := genPos, Weight := weight, LG := lg,
    Contig := contig }

/-- Three markers of one contig, two of them at the same contig position. -/
def reversalExample : List Marker :=
  [ mkMarker "m1" 1 5 4 "LG1" "ctg1", mkMarker "m2" 2 1 4 "LG1" "ctg1",
    mkMarker "m3" 2 9 4 "LG1" "ctg1" ]

/-- The markers of `reversalExample` in ascending `ConPos`, the two at contig
position 2 in the order opposite to the input. -/
def tieOrderExample : List Marker :=
  [ mkMarker "m1" 1 5 4 "LG1" "ctg1", mkMarker "m3" 2 9 4 "LG1" "ctg1",
    mkMarker "m2" 2 1 4 "LG1" "ctg1" ]

/-- Three markers of one contig at pairwise distinct contig positions. -/
def distinctExample : List Marker :=
  [ mkMarker "m1" 1 5 4 "LG1" "ctg1", mkMarker "m2" 2 1 4 "LG1" "ctg1",
    mkMarker "m3" 3 9 4 "LG1" "ctg1" ]

/-! ## Vocabulary of the averages -/

/-- The markers of the contig whose `LG` equals the contig's `LG`. -/
def lgMarkers (c : Contig) : List Marker :=
  c.Markers.filter (fun m => decide (m.LG = c.LG))

/-- The sum of `Weight` over the given markers, as a natural number. -/
def weightSum (ms : List Marker) : Nat :=
  (ms.map (fun m => m.Weight)).sum

/-- The sum of `Weight * GenPos` over the given markers, as a natural number. -/
def weightedPosSum (ms : List Marker) : Nat :=
  (ms.map (fun m => m.Weight * m.GenPos)).sum

/-- A placeable contig in `LG1` with two markers of weight `2 ^ 63`. -/
def overflowExample : Contig :=
  { Markers := [ mkMarker "m1" 10 100 (2 ^ 63) "LG1" "ctg1",
                 mkMarker "m2" 20 200 (2 ^ 63) "LG1" "ctg1" ],
    Name := "ctg1", GenPos := 0, AvgWeight := 0, Orientation := "",
    Range := (none, none), LG := "LG1", Placeable := true }

/-- A placeable contig in `LG1` with markers of weights 2 and 3 at genetic
positions 100 and 200. -/
def averageExample : Contig :=
  { Markers := [ mkMarker "m1" 10 100 2 "LG1" "ctg1",
                 mkMarker "m2" 20 200 3 "LG1" "ctg1" ],
    Name := "ctg1", GenPos := 0, AvgWeight := 0, Orientation := "",
    Range := (none, none), LG := "LG1", Placeable := true }

/-- A fresh contig with two markers of equal weight, enumerated with the one
that is absent from the genetic map (empty `LG`) first. -/
def unmappedFirstExample : Contig :=
  freshContig "ctg1" [ mkMarker "m1" 10 0 3 "" "ctg1", mkMarker "m2" 20 700 3 "LG1" "ctg1" ]

/-- The same two markers enumerated in the other order. -/
def unmappedLastExample : Contig :=
  freshContig "ctg1" [ mkMarker "m2" 20 700 3 "LG1" "ctg1", mkMarker "m1" 10 0 3 "" "ctg1" ]

/-- A fresh contig with a single marker. -/
def singleMarkerExample : Contig :=
  freshContig "ctg1" [ mkMarker "m1" 10 100 2 "LG1" "ctg1" ]

/-- A fresh contig whose only marker has weight 0. -/
def zeroWeightExample : Contig :=
  freshContig "ctg1" [ mkMarker "m1" 10 100 0 "LG1" "ctg1" ]

/-- A fresh contig whose two top markers lie in different linkage groups. -/
def mixedLGExample : Contig :=
  freshContig "ctg1" [ mkMarker "m1" 10 100 3 "LG1" "ctg1", mkMarker "m2" 20 700 3 "LG2" "ctg1" ]

/-! ## Vocabulary of the range and of the completed contig -/

/-- The markers among which `Top` looks for the maximum weight: all markers
while no linkage group is assigned, the LG-matching ones afterwards. -/
def topCandidates (c : Contig) : List Marker :=
  if c.LG = "" then c.Markers else lgMarkers c

/-- The top markers, together with a synthetic marker at the contig's computed
position when there is exactly one top marker. -/
def paddedTop (c : Contig) : List Marker :=
  if c.Top.length = 1 then c.Top ++ [synthetic 0 c.GenPos c.MaxWeight] else c.Top

/-- The value `CalculateMapPos` computes for a contig with an assigned group. -/
def posOf (c : Contig) : Nat :=
  weightedPosSum (lgMarkers c) % U64 / (weightSum (lgMarkers c) % U64)

/-- The linkage group needs no further assignment: `LG` is set, or `AssignLG`
finds `""` again. -/
def Settled (c : Contig) : Prop :=
  c.LG ≠ "" ∨ assignLoop "" c.Top = some ""

/-- The state of a contig between the steps of `Autocomplete` once the map
position has been computed: placeable, linkage group settled, non-zero divisor
and `GenPos` equal to the computed position. -/
def Positioned (c : Contig) : Prop :=
  c.Placeable = true ∧ Settled c ∧ weightSum (lgMarkers c) % U64 ≠ 0 ∧ c.GenPos = posOf c

/-- A fresh contig whose two markers are absent from the genetic map (empty
`LG`, genetic position 0). -/
def unmappedOnlyExample : Contig :=
  freshContig "ctg1" [ mkMarker "m1" 10 0 1 "" "ctg1", mkMarker "m2" 20 0 2 "" "ctg1" ]

/-- A fresh contig whose markers lie in a linkage group named `-`. -/
def dashGroupExample : Contig :=
  freshContig "ctg1" [ mkMarker "m1" 10 100 1 "-" "ctg1", mkMarker "m2" 20 200 1 "-" "ctg1" ]

/-- A fresh contig with one marker of `LG1` at genetic position `2 ^ 63` and a
lighter marker of `LG2`. -/
def posOverflowExample : Contig :=
  freshContig "ctg1"
    [ mkMarker "m1" 10 (2 ^ 63) 2 "LG1" "ctg1", mkMarker "m2" 20 7 1 "LG2" "ctg1" ]

/-- A fresh contig with three markers of `LG1`, the two heaviest at different
genetic positions. -/
def rangeExample : Contig :=
  freshContig "ctg1"
    [ mkMarker "m1" 10 100 3 "LG1" "ctg1", mkMarker "m2" 20 200 3 "LG1" "ctg1",
      mkMarker "m3" 30 300 1 "LG1" "ctg1" ]

/-- A fresh contig with two markers of `LG1` at one genetic position and a
lighter marker of `LG2` elsewhere. -/
def zeroWidthExample : Contig :=
  freshContig "ctg1"
    [ mkMarker "m1" 10 100 3 "LG1" "ctg1", mkMarker "m2" 20 100 2 "LG1" "ctg1",
      mkMarker "m3" 30 900 1 "LG2" "ctg1" ]

/-- A fresh contig with markers of weights 2 and 3 in `LG1`. -/
def averageExampleFresh : Contig :=
  freshContig "ctg1"
    [ mkMarker "m1" 10 100 2 "LG1" "ctg1", mkMarker "m2" 20 200 3 "LG1" "ctg1" ]

/-! ## ContigMap -/

/-- Source: `type ContigMap struct`.  `Contigs` is a `map[string]*Contig` whose
keys are the contigs' names, given as the list of its values in enumeration
order; a map holds one entry per key, so the names are pairwise distinct. -/
structure ContigMap where
  Contigs : List Contig
  Markers : List Marker
  Filtered : Bool
  Name : String
deriving DecidableEq, Repr

/-- Source: `func NewContigMap() *ContigMap`. -/
def NewContigMap : ContigMap :=
  { Contigs := [], Markers := [], Filtered := false, Name := "" }

/-- The map assignment `(*C)[c.Name] = c`. -/
def contigSet : List Contig → Contig → List Contig
  | [], c => [c]
  | x :: xs, c => if x.Name = c.Name then c :: xs else x :: contigSet xs c

/-- Source: `func (CM *ContigMap) AddContigs(contigs ...*Contig)`. -/
def ContigMap.AddContigs (CM : ContigMap) (contigs : List Contig) : ContigMap :=
  { CM with Contigs := contigs.foldl contigSet CM.Contigs }

/-- Source: `func (CM *ContigMap) AddMarkers(markers ...*Marker)`. -/
def ContigMap.AddMarkers (CM : ContigMap) (markers : List Marker) : ContigMap :=
  { CM with Markers := markers.foldl mapSet CM.Markers }

/-- The built-in `delete(*CM.Contigs, name)`. -/
def mapDelete (M : List Contig) (name : String) : List Contig :=
  M.filter (fun c => decide (c.Name ≠ name))

/-- Reading `p.GenPos` through a `*Marker` that may be nil. -/
def derefGenPos (p : Option Marker) : Except Fault Nat :=
  match p with
  | some m => .ok m.GenPos
  | none => .error .nilDereference

/-- A `for ... range` loop over a slice whose body may panic. -/
def foldE {σ α : Type} (f : σ → α → Except Fault σ) : σ → List α → Except Fault σ
  | s, [] => .ok s
  | s, x :: xs =>
    match f s x with
    | .ok s' => foldE f s' xs
    | .error e => .error e

/-- The statement `M[k] = append(M[k], c)` on a `map[uint64][]*Contig`, given
as the list of its entries. -/
def bucketAppend : List (Nat × List Contig) → Nat → Contig → List (Nat × List Contig)
  | [], k, c => [(k, [c])]
  | (k', b) :: rest, k, c =>
    if k' = k then (k', b ++ [c]) :: rest else (k', b) :: bucketAppend rest k c

/-- The map read `(*draftMap)[i]`; a missing key gives the nil slice. -/
def bucketOf (M : List (Nat × List Contig)) (i : Nat) : List Contig :=
  match M.find? (fun e => decide (e.1 = i)) with
  | some e => e.2
  | none => []

/-- Source: `func (CM *ContigMap) buildMap() *map[uint64][]*Contig`. -/
def ContigMap.buildMap (CM : ContigMap) : Except Fault (List (Nat × List Contig)) :=
  if CM.Filtered = false then
    foldE (fun M c =>
      match derefGenPos c.Range.1 with
      | .ok min => .ok (bucketAppend M min c)
      | .error e => .error e) [] CM.Contigs
  else
    foldE (fun M c => .ok (bucketAppend M c.GenPos c)) [] CM.Contigs

/-- Source: `Uintarr.Less`. -/
def Uintarr (a b : Nat) : Bool := decide (a < b)

/-- Inner loop of `insertionSort` for a `Less` that may panic. -/
def bubbleE {α : Type} (less : α → α → Except Fault Bool) (x : α) :
    List α → Except Fault (List α)
  | [] => .ok [x]
  | y :: ys =>
    match less x y with
    | .error e => .error e
    | .ok true =>
      match bubbleE less x ys with
      | .ok r => .ok (y :: r)
      | .error e => .error e
    | .ok false => .ok (x :: y :: ys)

/-- `sort.Sort` for a `Less` that may panic. -/
def goSortE {α : Type} (less : α → α → Except Fault Bool) (data : List α) :
    Except Fault (List α) :=
  match foldE (fun revPrefix x => bubbleE less x revPrefix) [] data with
  | .ok r => .ok r.reverse
  | .error e => .error e

/-- The closure `decWeight` of `filterContigs`. -/
def decWeight (c1 c2 : Contig) : Except Fault Bool :=
  .ok (decide (c1.AvgWeight > c2.AvgWeight))

/-- The closure `maxRange` of `filterContigs`: it reads `c1.Range[1].GenPos` on
both sides of the comparison. -/
def maxRange (c1 _c2 : Contig) : Except Fault Bool :=
  match derefGenPos c1.Range.2 with
  | .ok g => .ok (decide (g > g))
  | .error e => .error e

/-- The closure `name` of `filterContigs`. -/
def name (c1 c2 : Contig) : Except Fault Bool :=
  .ok (decide (c1.Name < c2.Name))

/-- Source: `func (ms *multiSorter) Less(i, j int) bool`, for the elements `p`
and `q`; with no comparison at all `ms.less[k]` is out of range. -/
def multiSorter.Less :
    List (Contig → Contig → Except Fault Bool) → Contig → Contig → Except Fault Bool
  | [], _, _ => .error .indexOutOfRange
  | [f], p, q => f p q
  | f :: g :: rest, p, q =>
    match f p q with
    | .error e => .error e
    | .ok true => .ok true
    | .ok false =>
      match f q p with
      | .error e => .error e
      | .ok true => .ok false
      | .ok false => multiSorter.Less (g :: rest) p q

/-- Source: `OrderedBy(less...).Sort(contigs)`. -/
def OrderedBy (less : List (Contig → Contig → Except Fault Bool)) (contigs : List Contig) :
    Except Fault (List Contig) :=
  goSortE (multiSorter.Less less) contigs

/-- The variables of `filterContigs` that its loops update. -/
structure FilterState where
  Contigs : List Contig
  out : Nat
  tmpContig : Contig
  contig : Contig
deriving DecidableEq, Repr

/-- The placeholder `&Contig{Name: "dummy", AvgWeight: 0, Range: ...}` for
bucket `i`. -/
def dummyContig (i : Nat) : Contig :=
  { Markers := [], Name := "dummy", GenPos := 0, AvgWeight := 0, Orientation := "",
    Range := (some (synthetic 0 i 0), some (synthetic 0 i 0)), LG := "", Placeable := false }

/-- The initial value of `contig` in `filterContigs`. -/
def initialContig : Contig :=
  { Markers := [], Name := "", GenPos := 0, AvgWeight := 0, Orientation := "",
    Range := (some (synthetic 0 0 0), some (synthetic 0 0 0)), LG := "", Placeable := false }

/-- One iteration of `for _, c := range contigList` in `filterContigs`, for
the group named `group` and the bucket key `i`. -/
def innerStep (group : String) (i : Nat) (st : FilterState) (c : Contig) :
    Except Fault FilterState :=
  if c.Placeable = false ∨ c.LG ≠ group then
    .ok { st with Contigs := mapDelete st.Contigs c.Name, out := st.out + 1 }
  else
    match derefGenPos c.Range.2, derefGenPos c.Range.1 with
    | .error e, _ => .error e
    | .ok _, .error e => .error e
    | .ok hi, .ok lo =>
      if hi = lo then .ok st
      else if st.tmpContig.Name = "dummy" then .ok { st with tmpContig := c }
      else if st.tmpContig.AvgWeight = c.AvgWeight then
        match derefGenPos st.tmpContig.Range.2 with
        | .error e => .error e
        | .ok thi =>
          if thi = hi then
            .ok { st with
              Contigs := mapDelete (mapDelete st.Contigs st.tmpContig.Name) c.Name,
              tmpContig := dummyContig i, out := st.out + 2 }
          else .ok { st with Contigs := mapDelete st.Contigs c.Name, out := st.out + 1 }
      else .ok { st with Contigs := mapDelete st.Contigs c.Name, out := st.out + 1 }

/-- The second `switch` of the bucket loop in `filterContigs`: the bucket's
representative against the representative kept before. -/
def crossStep (st : FilterState) : Except Fault FilterState :=
  if st.tmpContig.Name = "dummy" then .ok st
  else
    match derefGenPos st.tmpContig.Range.2, derefGenPos st.contig.Range.2 with
    | .error e, _ => .error e
    | .ok _, .error e => .error e
    | .ok thi, .ok chi =>
      if thi > chi then .ok { st with contig := st.tmpContig }
      else if st.tmpContig.AvgWeight < st.contig.AvgWeight then
        .ok { st with
          Contigs := mapDelete st.Contigs st.tmpContig.Name,
          out := if st.tmpContig.Name ≠ "dummy" then st.out + 1 else st.out }
      else if st.tmpContig.AvgWeight > st.contig.AvgWeight then
        .ok { st with
          Contigs := mapDelete st.Contigs st.contig.Name,
          out := if st.tmpContig.Name ≠ "dummy" then st.out + 1 else st.out,
          contig := st.tmpContig }
      else if st.tmpContig.AvgWeight = st.contig.AvgWeight then
        .ok { st with
          Contigs := mapDelete (mapDelete st.Contigs st.tmpContig.Name) st.contig.Name,
          out := if st.tmpContig.Name ≠ "dummy" then st.out + 2 else st.out + 1,
          contig := st.tmpContig }
      else .ok st

/-- One iteration of `for _, i := range sortedKeys` in `filterContigs`. -/
def bucketStep (group : String) (draftMap : List (Nat × List Contig)) (st : FilterState)
    (i : Nat) : Except Fault FilterState :=
  match OrderedBy [decWeight, maxRange, name] (bucketOf draftMap i) with
  | .error e => .error e
  | .ok contigList =>
    match foldE (innerStep group i) { st with tmpContig := dummyContig i } contigList with
    | .error e => .error e
    | .ok st => crossStep st

/-- Source: `func (CM *ContigMap) filterContigs() (out int)`: the returned count
and the group afterwards. -/
def ContigMap.filterContigs (CM : ContigMap) : Except Fault (Nat × ContigMap) :=
  match CM.buildMap with
  | .error e => .error e
  | .ok draftMap =>
    let sortedKeys := goSort Uintarr (draftMap.map (fun e => e.1))
    match foldE (bucketStep CM.Name draftMap)
        { Contigs := CM.Contigs, out := 0, tmpContig := initialContig,
          contig := initialContig } sortedKeys with
    | .error e => .error e
    | .ok st => .ok (st.out, { CM with Contigs := st.Contigs, Filtered := true })

/-- The record `Name \t GenPos \t Orientation \n` that `WriteMap` emits for a
contig. -/
def recordLine (c : Contig) : String :=
  c.Name ++ "\t" ++ toString c.GenPos ++ "\t" ++ c.Orientation ++ "\n"

/-- Source: `func (CM *ContigMap) WriteMap() (out string)`: the text and the
group afterwards. -/
def ContigMap.WriteMap (CM : ContigMap) : Except Fault (String × ContigMap) :=
  match CM.filterContigs with
  | .error e => .error e
  | .ok (deleted, CM) =>
    let out := "### LG: " ++ CM.Name ++ "\n### Deleted Sequences: " ++ toString deleted ++ "\n"
    match CM.buildMap with
    | .error e => .error e
    | .ok finalMap =>
      let keys := goSort Uintarr (finalMap.map (fun e => e.1))
      .ok (keys.foldl (fun out k =>
          (bucketOf finalMap k).foldl (fun out c => out ++ recordLine c) out) out, CM)

/-! ## filterContigs without the nil checks

The same computation written with total accessors; the theorems below show
that it gives the result of `filterContigs` whenever `filterContigs` returns. -/

/-- The value read as `c.Range[0].GenPos` (0 stands in for a nil pointer). -/
def loOf (c : Contig) : Nat :=
  match c.Range.1 with
  | some m => m.GenPos
  | none => 0

/-- The value read as `c.Range[1].GenPos` (0 stands in for a nil pointer). -/
def hiOf (c : Contig) : Nat :=
  match c.Range.2 with
  | some m => m.GenPos
  | none => 0

/-- Both endpoints of the range are set. -/
def rangeSet (c : Contig) : Prop :=
  c.Range.1 ≠ none ∧ c.Range.2 ≠ none

/-- The bucketing key of `buildMap`. -/
def keyOf (filtered : Bool) (c : Contig) : Nat :=
  if filtered = false then loOf c else c.GenPos

/-- The buckets of `buildMap`. -/
def buildMapP (filtered : Bool) (cs : List Contig) : List (Nat × List Contig) :=
  cs.foldl (fun M c => bucketAppend M (keyOf filtered c) c) []

/-- Average weight descending, then name ascending. -/
def lessP (c1 c2 : Contig) : Bool :=
  decide (c1.AvgWeight > c2.AvgWeight) ||
    (decide (c1.AvgWeight = c2.AvgWeight) && decide (c1.Name < c2.Name))

/-- A contig that the first case of the bucket loop drops. -/
def isBad (group : String) (c : Contig) : Prop :=
  c.Placeable = false ∨ c.LG ≠ group

instance (group : String) (c : Contig) : Decidable (isBad group c) := by
  unfold isBad
  exact inferInstance

/-- The step `innerStep` with total accessors. -/
def innerStepP (group : String) (i : Nat) (st : FilterState) (c : Contig) : FilterState :=
  if isBad group c then
    { st with Contigs := mapDelete st.Contigs c.Name, out := st.out + 1 }
  else if hiOf c = loOf c then st
  else if st.tmpContig.Name = "dummy" then { st with tmpContig := c }
  else if st.tmpContig.AvgWeight = c.AvgWeight ∧ hiOf st.tmpContig = hiOf c then
    { st with
      Contigs := mapDelete (mapDelete st.Contigs st.tmpContig.Name) c.Name,
      tmpContig := dummyContig i, out := st.out + 2 }
  else { st with Contigs := mapDelete st.Contigs c.Name, out := st.out + 1 }

/-- The step `crossStep` with total accessors. -/
def crossStepP (st : FilterState) : FilterState :=
  if st.tmpContig.Name = "dummy" then st
  else if hiOf st.tmpContig > hiOf st.contig then { st with contig := st.tmpContig }
  else if st.tmpContig.AvgWeight < st.contig.AvgWeight then
    { st with Contigs := mapDelete st.Contigs st.tmpContig.Name, out := st.out + 1 }
  else if st.tmpContig.AvgWeight > st.contig.AvgWeight then
    { st with
      Contigs := mapDelete st.Contigs st.contig.Name, out := st.out + 1,
      contig := st.tmpContig }
  else
    { st with
      Contigs := mapDelete (mapDelete st.Contigs st.tmpContig.Name) st.contig.Name,
      out := st.out + 2, contig := st.tmpContig }

/-- The inner loop of a bucket with total accessors. -/
def innerLoopP (group : String) (i : Nat) (st : FilterState) (l : List Contig) :
    FilterState :=
  l.foldl (innerStepP group i) { st with tmpContig := dummyContig i }

/-- The step `bucketStep` with total accessors. -/
def bucketStepP (group : String) (draftMap : List (Nat × List Contig)) (st : FilterState)
    (i : Nat) : FilterState :=
  crossStepP (innerLoopP group i st (goSort lessP (bucketOf draftMap i)))

/-- The state in which `filterContigs` enters its loop. -/
def initialState (cs : List Contig) : FilterState :=
  { Contigs := cs, out := 0, tmpContig := initialContig, contig := initialContig }

/-- The state in which `filterContigs` leaves its loop, with total accessors. -/
def filterLoopP (CM : ContigMap) : FilterState :=
  (goSort Uintarr ((buildMapP CM.Filtered CM.Contigs).map (fun e => e.1))).foldl
    (bucketStepP CM.Name (buildMapP CM.Filtered CM.Contigs)) (initialState CM.Contigs)

/-- The result of `filterContigs` with total accessors. -/
def filterP (CM : ContigMap) : Nat × ContigMap :=
  ((filterLoopP CM).out, { CM with Contigs := (filterLoopP CM).Contigs, Filtered := true })

/-! ## Example groups -/

/-- A placeable contig with the given name, range start, range end, average
weight, position and linkage group. -/
def mkContig (name : String) (lo hi weight genPos : Nat) (lg : String) : Contig :=
  { Markers := [], Name := name, GenPos := genPos, AvgWeight := weight, Orientation := "+",
    Range := (some (synthetic 0 lo 0), some (synthetic 0 hi 0)), LG := lg, Placeable := true }

/-- A group as the program builds it: `NewContigMap`, the name set, then
`AddContigs`. -/
def groupOf (name : String) (contigs : List Contig) : ContigMap :=
  ContigMap.AddContigs { NewContigMap with Name := name } contigs

/-- Two contigs that were never completed: equal weights, no range. -/
def unrangedExample : Contig × Contig :=
  ({ NewContig with Name := "ctg1" }, { NewContig with Name := "ctg2" })

/-- Three nested contigs of `LG1`; the first two have equal weight, the third
is heavier. -/
def staleExample : ContigMap :=
  groupOf "LG1"
    [ mkContig "ctg1" 1 10 5 3 "LG1", mkContig "ctg2" 2 9 5 4 "LG1",
      mkContig "ctg3" 3 8 7 5 "LG1" ]

/-- Two contigs of `LG1` with the same range start, the heavier one named
`dummy`. -/
def dummyExample : ContigMap :=
  groupOf "LG1" [ mkContig "dummy" 1 5 9 3 "LG1", mkContig "ctg2" 1 6 5 4 "LG1" ]

/-- Three contigs of `LG1` with ranges 1..5, 2..10 and 3..4 and weights 1, 3
and 7. -/
def overlapExample : ContigMap :=
  groupOf "LG1"
    [ mkContig "ctg1" 1 5 1 3 "LG1", mkContig "ctg2" 2 10 3 4 "LG1",
      mkContig "ctg3" 3 4 7 5 "LG1" ]

/-- Two contigs of `LG1` whose ranges run from 5 and from 7 down to 0. -/
def invertedExample : ContigMap :=
  groupOf "LG1" [ mkContig "ctg1" 5 0 3 3 "LG1", mkContig "ctg2" 7 0 1 4 "LG1" ]

/-! ## Vocabulary of the filter loop -/

/-- The state of the filter loop as far as keeping the contig `z` goes: `z` is
in the map, the bucket's representative is the placeholder or a contig of the
group with a non-zero-width range, and so is the representative kept
before. -/
def Keeps (cs : List Contig) (z : Contig) (st : FilterState) : Prop :=
  z ∈ st.Contigs ∧
  (st.tmpContig.Name = "dummy" ∨ (st.tmpContig ∈ cs ∧ hiOf st.tmpContig ≠ loOf st.tmpContig)) ∧
  (st.contig = initialContig ∨ (st.contig ∈ cs ∧ hiOf st.contig ≠ loOf st.contig))

/-- Three contigs of `LG1`: two with wide ranges and one with a zero-width
range. -/
def writeExample : ContigMap :=
  groupOf "LG1"
    [ mkContig "ctg1" 1 10 3 30 "LG1", mkContig "ctg2" 2 19 5 4 "LG1",
      mkContig "ctg3" 4 4 5 4 "LG1" ]

/-- Two overlapping contigs of `LG1` with ranges 1..10 and 2..9. -/
def pairExample (w1 w2 : Nat) : ContigMap :=
  groupOf "LG1" [ mkContig "ctg1" 1 10 w1 3 "LG1", mkContig "ctg2" 2 9 w2 4 "LG1" ]

instance (c : Contig) : Decidable (rangeSet c) := by
  unfold rangeSet
  exact inferInstance

/-- Three contigs of `LG1`: two overlapping ones of equal weight and one with
a zero-width range inside them. -/
def zeroExample : ContigMap :=
  groupOf "LG1"
    [ mkContig "ctg1" 1 10 5 3 "LG1", mkContig "ctg0" 4 4 2 4 "LG1",
      mkContig "ctg2" 2 9 5 4 "LG1" ]

/-- Two contigs of `LG1` with ranges 1..5 and 2..10. -/
def neighbourExample : ContigMap :=
  groupOf "LG1" [ mkContig "ctg1" 1 5 1 3 "LG1", mkContig "ctg2" 2 10 3 4 "LG1" ]

/-- A contig that the first case of the bucket loop does not drop. -/
def isGood (group : String) (c : Contig) : Bool :=
  decide (¬ isBad group c)

/-- Two runs of the filter loop, the second on the group without the contigs
that the first case drops: the second map is the first one restricted to the
other contigs, and the representatives agree. -/
def SameKept (group : String) (cs : List Contig) (s1 s2 : FilterState) : Prop :=
  s2.Contigs = s1.Contigs.filter (isGood group) ∧ s2.contig = s1.contig ∧
  s2.tmpContig = s1.tmpContig ∧ ∀ x ∈ s1.Contigs, x ∈ cs

/-- Three contigs with their ranges set, added to `LG1`: a placeable one of
`LG1`, an unplaceable one of `LG1`, and a placeable one of `LG2`. -/
def dropExample : ContigMap :=
  groupOf "LG1"
    [ mkContig "ctg1" 1 5 3 3 "LG1",
      { mkContig "ctg2" 2 6 4 4 "LG1" with Placeable := false },
      mkContig "ctg3" 7 9 2 8 "LG2" ]

/-- Two states of the filter loop that differ at most in the order in which
`Contigs` is enumerated. -/
def SameUpToOrder (s1 s2 : FilterState) : Prop :=
  s1.Contigs.Perm s2.Contigs ∧ s1.out = s2.out ∧ s1.tmpContig = s2.tmpContig ∧
  s1.contig = s2.contig

/-- Three contigs of `LG1` with their ranges set; the first two start at the
same position and have equal weight. -/
def sharedBucketExample : List Contig :=
  [ mkContig "ctg1" 1 5 3 3 "LG1", mkContig "ctg2" 1 6 3 4 "LG1",
    mkContig "ctg3" 2 9 7 5 "LG1" ]

/-- A fresh contig with two markers of `LG1`, each of weight `2 ^ 63`. -/
def wrapExample : Contig :=
  freshContig "ctg1"
    [ mkMarker "m1" 10 100 (2 ^ 63) "LG1" "ctg1", mkMarker "m2" 20 200 (2 ^ 63) "LG1" "ctg1" ]

/-- A fresh contig with three markers of `LG1` of equal weight whose genetic
positions rise and then fall along the contig. -/
def conflictExample : Contig :=
  freshContig "ctg1"
    [ mkMarker "m1" 10 100 3 "LG1" "ctg1", mkMarker "m2" 20 300 3 "LG1" "ctg1",
      mkMarker "m3" 30 200 3 "LG1" "ctg1" ]

/-! ## Facts about sort.Sort -/

theorem bubble_perm {α : Type} (less : α → α → Bool) (x : α) (l : List α) :
    (bubble less x l).Perm (x :: l) := by
  induction l with
  | nil => simp [bubble]
  | cons y ys ih =>
    unfold bubble
    split
    · exact (List.Perm.cons y ih).trans (List.Perm.swap x y ys)
    · exact List.Perm.refl _

theorem bubble_desc {α : Type} (key : α → Nat) (x : α) (l : List α)
    (h : l.Pairwise (fun a b => key b ≤ key a)) :
    (bubble (fun a b => decide (key a < key b)) x l).Pairwise
      (fun a b => key b ≤ key a) := by
  induction l with
  | nil => simp [bubble]
  | cons y ys ih =>
    unfold bubble
    have hy := List.pairwise_cons.1 h
    by_cases hxy : key x < key y
    · simp only [hxy, decide_True, if_true]
      refine List.pairwise_cons.2 ⟨?_, ih hy.2⟩
      intro a ha
      rcases List.mem_cons.1 ((bubble_perm _ x ys).mem_iff.1 ha) with rfl | ha
      · exact Nat.le_of_lt hxy
      · exact hy.1 a ha
    · simp only [hxy, decide_False]
      refine List.pairwise_cons.2 ⟨?_, h⟩
      intro a ha
      rcases List.mem_cons.1 ha with rfl | ha
      · exact Nat.le_of_not_lt hxy
      · exact Nat.le_trans (hy.1 a ha) (Nat.le_of_not_lt hxy)

theorem foldl_bubble_perm {α : Type} (less : α → α → Bool) (data acc : List α) :
    (data.foldl (fun revPrefix x => bubble less x revPrefix) acc).Perm (acc ++ data) := by
  induction data generalizing acc with
  | nil => simp
  | cons x xs ih =>
    simp only [List.foldl_cons]
    refine (ih _).trans ?_
    refine ((bubble_perm less x acc).append_right xs).trans ?_
    exact List.perm_middle.symm

theorem foldl_bubble_desc {α : Type} (key : α → Nat) (data acc : List α)
    (h : acc.Pairwise (fun a b => key b ≤ key a)) :
    (data.foldl (fun revPrefix x => bubble (fun a b => decide (key a < key b)) x revPrefix)
      acc).Pairwise (fun a b => key b ≤ key a) := by
  induction data generalizing acc with
  | nil => simpa using h
  | cons x xs ih =>
    simp only [List.foldl_cons]
    exact ih _ (bubble_desc key x acc h)

/-- The sorted slice is a rearrangement of the input. -/
theorem goSort_perm {α : Type} (less : α → α → Bool) (data : List α) :
    (goSort less data).Perm data := by
  unfold goSort
  refine (List.reverse_perm _).trans ?_
  simpa using foldl_bubble_perm less data []

/-- The sorted slice is ascending in the key that `Less` compares. -/
theorem goSort_sorted {α : Type} (key : α → Nat) (data : List α) :
    (goSort (fun a b => decide (key a < key b)) data).Pairwise
      (fun a b => key a ≤ key b) := by
  unfold goSort
  rw [List.pairwise_reverse]
  exact foldl_bubble_desc key data [] List.Pairwise.nil

/-! ## OrientMarkers -/

theorem sign_eq_empty_iff (x y : Nat) : sign x y = "" ↔ x = y := by
  unfold sign
  by_cases h1 : x < y
  · simp only [h1, if_true]
    constructor
    · intro h; exact absurd h (by decide)
    · intro h; omega
  · by_cases h2 : x > y
    · simp only [h1, h2, if_true, if_false]
      constructor
      · intro h; exact absurd h (by decide)
      · intro h; omega
    · simp only [h1, h2, if_false, true_iff]
      omega

theorem pairStrand_ne_empty (p : Marker × Marker) : pairStrand p ≠ "" := by
  unfold pairStrand
  split <;> decide

theorem adjacentPairs_cons_cons (m1 m2 : Marker) (rest : List Marker) :
    adjacentPairs (m1 :: m2 :: rest) = (m1, m2) :: adjacentPairs (m2 :: rest) := by
  simp [adjacentPairs]

theorem strands_cons_cons (m1 m2 : Marker) (rest : List Marker) :
    strands (m1 :: m2 :: rest) =
      if m1.GenPos = m2.GenPos then strands (m2 :: rest)
      else pairStrand (m1, m2) :: strands (m2 :: rest) := by
  unfold strands
  rw [adjacentPairs_cons_cons]
  by_cases h : m1.GenPos = m2.GenPos
  · simp [List.filter_cons, informative, h]
  · simp [List.filter_cons, informative, h]

theorem mem_strands (l : List Marker) (s : String) :
    s ∈ strands l ↔ ∃ p ∈ adjacentPairs l, informative p = true ∧ pairStrand p = s := by
  unfold strands
  simp only [List.mem_map, List.mem_filter]
  constructor
  · rintro ⟨p, ⟨hp, hi⟩, rfl⟩
    exact ⟨p, hp, hi, rfl⟩
  · rintro ⟨p, hp, hi, rfl⟩
    exact ⟨p, ⟨hp, hi⟩, rfl⟩

theorem strands_ne_empty (l : List Marker) : ∀ s ∈ strands l, s ≠ "" := by
  intro s hs
  obtain ⟨p, _, _, rfl⟩ := (mem_strands l s).1 hs
  exact pairStrand_ne_empty p

/-- The loop of `OrientMarkers` sees the slice only through the strands of its
informative pairs. -/
theorem orientLoop_eq_agree (out : String) (l : List Marker) :
    orientLoop out l = agree out (strands l) := by
  induction l generalizing out with
  | nil => simp [orientLoop, strands, adjacentPairs, agree]
  | cons m1 t ih =>
    cases t with
    | nil => simp [orientLoop, strands, adjacentPairs, agree]
    | cons m2 rest =>
      rw [strands_cons_cons]
      unfold orientLoop
      by_cases h : m1.GenPos = m2.GenPos
      · have hs : sign m1.GenPos m2.GenPos = "" := (sign_eq_empty_iff _ _).2 h
        rw [if_pos hs, if_pos h]
        exact ih out
      · have hs : ¬ sign m1.GenPos m2.GenPos = "" := fun hh => h ((sign_eq_empty_iff _ _).1 hh)
        rw [if_neg hs, if_neg h]
        unfold agree
        by_cases ho : out = ""
        · simp only [ho, if_true]
          exact ih _
        · simp only [ho, if_false]
          by_cases hne : pairStrand (m1, m2) = out
          · have h1 : (if sign m1.GenPos m2.GenPos = sign m1.ConPos m2.ConPos then "+" else "-")
                = out := hne
            simp only [h1, hne, ne_eq, not_true_eq_false, if_false]
            exact ih out
          · have h1 : ¬ (if sign m1.GenPos m2.GenPos = sign m1.ConPos m2.ConPos then "+" else "-")
                = out := hne
            simp only [h1, hne, ne_eq, not_false_eq_true, if_true]

theorem agree_of_ne_empty (out : String) (ss : List String) (ho : out ≠ "") :
    agree out ss = if ∀ s ∈ ss, s = out then (out, true) else ("", false) := by
  induction ss with
  | nil => simp [agree]
  | cons s t ih =>
    unfold agree
    simp only [ho, if_false]
    by_cases hs : s = out
    · simp only [hs, ne_eq, not_true_eq_false, if_false, ih, List.mem_cons, forall_eq_or_imp,
        true_and]
    · have : ¬ ∀ x ∈ s :: t, x = out := fun h => hs (h s (List.mem_cons_self _ _))
      simp only [hs, ne_eq, not_false_eq_true, if_true, this, if_false]

theorem agree_empty (ss : List String) (hne : ∀ s ∈ ss, s ≠ "") :
    (agree "" ss = ("", false) ↔ ∃ s ∈ ss, ∃ t ∈ ss, s ≠ t) ∧
    (agree "" ss ≠ ("", false) →
      (agree "" ss).2 = true ∧ (∀ s ∈ ss, (agree "" ss).1 = s) ∧
      (ss = [] → (agree "" ss).1 = "")) := by
  cases ss with
  | nil => simp [agree]
  | cons s t =>
    have hs : s ≠ "" := hne s (List.mem_cons_self _ _)
    have he : agree "" (s :: t) = agree s t := by simp [agree]
    rw [he, agree_of_ne_empty s t hs]
    by_cases hall : ∀ x ∈ t, x = s
    · rw [if_pos hall]
      refine ⟨⟨fun h => ?_, ?_⟩, fun _ => ⟨rfl, ?_, ?_⟩⟩
      · exact absurd (congrArg Prod.snd h) (by simp)
      · rintro ⟨a, ha, b, hb, hab⟩
        exfalso
        apply hab
        have ha' : a = s := by
          rcases List.mem_cons.1 ha with h | h
          · exact h
          · exact hall a h
        have hb' : b = s := by
          rcases List.mem_cons.1 hb with h | h
          · exact h
          · exact hall b h
        rw [ha', hb']
      · intro a ha
        rcases List.mem_cons.1 ha with h | h
        · exact h.symm
        · exact (hall a h).symm
      · intro h
        exact absurd h (List.cons_ne_nil _ _)
    · rw [if_neg hall]
      refine ⟨⟨fun _ => ?_, fun _ => rfl⟩, fun h => absurd rfl h⟩
      obtain ⟨x, hx, hxs⟩ : ∃ x ∈ t, x ≠ s := by
        by_contra hcon
        apply hall
        intro x hx
        by_contra hxs
        exact hcon ⟨x, hx, hxs⟩
      exact ⟨x, List.mem_cons_of_mem _ hx, s, List.mem_cons_self _ _, hxs⟩

/-- The loop of `OrientMarkers` on any slice: it returns `("", false)` exactly
when two informative adjacent pairs have different local strands, and
otherwise `(strand, true)`, where `strand` is the strand shared by every
informative pair, or `""` when no pair is informative. -/
theorem orientLoop_conflict_iff (l : List Marker) :
    (orientLoop "" l = ("", false) ↔
      ∃ p ∈ adjacentPairs l, ∃ q ∈ adjacentPairs l,
        informative p = true ∧ informative q = true ∧ pairStrand p ≠ pairStrand q) ∧
    (orientLoop "" l ≠ ("", false) →
      (orientLoop "" l).2 = true ∧
      (∀ p ∈ adjacentPairs l, informative p = true → (orientLoop "" l).1 = pairStrand p) ∧
      ((∀ p ∈ adjacentPairs l, informative p = false) → (orientLoop "" l).1 = "")) := by
  refine ⟨?_, ?_⟩
  · rw [orientLoop_eq_agree, (agree_empty _ (strands_ne_empty _)).1]
    constructor
    · rintro ⟨s, hs, t, ht, hst⟩
      obtain ⟨p, hp, hpi, rfl⟩ := (mem_strands _ _).1 hs
      obtain ⟨q, hq, hqi, rfl⟩ := (mem_strands _ _).1 ht
      exact ⟨p, hp, q, hq, hpi, hqi, hst⟩
    · rintro ⟨p, hp, q, hq, hpi, hqi, hpq⟩
      exact ⟨_, (mem_strands _ _).2 ⟨p, hp, hpi, rfl⟩, _,
        (mem_strands _ _).2 ⟨q, hq, hqi, rfl⟩, hpq⟩
  · rw [orientLoop_eq_agree]
    intro h
    obtain ⟨h2, h1, h0⟩ := (agree_empty _ (strands_ne_empty _)).2 h
    refine ⟨h2, ?_, ?_⟩
    · intro p hp hpi
      exact h1 _ ((mem_strands _ _).2 ⟨p, hp, hpi, rfl⟩)
    · intro hnone
      apply h0
      apply List.eq_nil_iff_forall_not_mem.2
      intro s hs
      obtain ⟨p, hp, hpi, _⟩ := (mem_strands _ _).1 hs
      rw [hnone p hp] at hpi
      exact absurd hpi (by decide)

/-- The insertion-sorted slice is one of the slices `sort.Sort` may leave. -/
theorem goSort_sortedByConPos (data : List Marker) :
    SortedByConPos data (goSort ByConPos data) :=
  ⟨goSort_perm _ _, goSort_sorted (fun m => m.ConPos) data⟩

/-- With pairwise distinct keys the sorted slice does not depend on the order
of the input. -/
theorem goSort_eq_of_perm {α : Type} (key : α → Nat) (l₁ l₂ : List α)
    (hp : l₁.Perm l₂) (hn : (l₁.map key).Nodup) :
    goSort (fun a b => decide (key a < key b)) l₁ =
      goSort (fun a b => decide (key a < key b)) l₂ := by
  have strict : ∀ l : List α, l.Perm l₁ →
      (goSort (fun a b => decide (key a < key b)) l).Pairwise (fun a b => key a < key b) := by
    intro l hl
    have hperm : (goSort (fun a b => decide (key a < key b)) l).Perm l₁ :=
      (goSort_perm _ l).trans hl
    have hnd : ((goSort (fun a b => decide (key a < key b)) l).map key).Nodup :=
      (hperm.map key).nodup_iff.2 hn
    have hne : (goSort (fun a b => decide (key a < key b)) l).Pairwise
        (fun a b => key a ≠ key b) := by
      have := hnd
      unfold List.Nodup at this
      exact List.pairwise_map.1 this
    exact ((goSort_sorted key l).and hne).imp (fun h => Nat.lt_of_le_of_ne h.1 h.2)
  have anti : IsAntisymm α (fun a b => key a < key b) :=
    ⟨fun a b h1 h2 => absurd h1 (Nat.lt_asymm h2)⟩
  exact List.eq_of_perm_of_sorted
    ((goSort_perm _ l₁).trans (hp.trans (goSort_perm _ l₂).symm))
    (strict l₁ (List.Perm.refl _)) (strict l₂ hp.symm)

/-- C2, as stated, fails: with two markers at the same `ConPos` the sorted
order of the tie follows the input order, and the list gives `("-", true)`
while its reverse gives `("", false)`. -/
theorem OrientMarkers_reverse_counterexample :
    OrientMarkers reversalExample = ("-", true) ∧
    OrientMarkers reversalExample.reverse = ("", false) ∧
    OrientMarkers reversalExample ≠ OrientMarkers reversalExample.reverse := by
  decide

/-- C2, amended. For markers with pairwise distinct `ConPos`, `OrientMarkers`
returns the same `(strand, ok)` pair on a list and on its reverse. -/
theorem OrientMarkers_reverse (data : List Marker)
    (h : (data.map (fun m => m.ConPos)).Nodup) :
    OrientMarkers data.reverse = OrientMarkers data := by
  unfold OrientMarkers
  have := goSort_eq_of_perm (fun m : Marker => m.ConPos) data.reverse data
    (List.reverse_perm data) (by simpa [List.map_reverse] using h)
  exact congrArg (orientLoop "") this

theorem OrientMarkers_reverse_witness :
    (distinctExample.map (fun m => m.ConPos)).Nodup ∧
    OrientMarkers distinctExample.reverse = OrientMarkers distinctExample :=
  ⟨by decide, OrientMarkers_reverse distinctExample (by decide)⟩

/-! ## The averages -/

theorem U64_pos : 0 < U64 := by
  unfold U64
  exact Nat.two_pow_pos 64

theorem foldl_avgStep (lg : String) (ms : List Marker) (s t : Nat) :
    ms.foldl (avgStep lg) (s % U64, t) =
      ((s + weightSum (ms.filter (fun m => decide (m.LG = lg)))) % U64,
        t + (ms.filter (fun m => decide (m.LG = lg))).length) := by
  induction ms generalizing s t with
  | nil => simp [weightSum]
  | cons m ms ih =>
    simp only [List.foldl_cons]
    by_cases h : m.LG = lg
    · have hstep : avgStep lg (s % U64, t) m = ((s + m.Weight) % U64, t + 1) := by
        simp [avgStep, h, Nat.mod_add_mod]
      rw [hstep, ih]
      simp [List.filter_cons, h, weightSum, Nat.add_assoc, Nat.add_comm 1]
    · have hstep : avgStep lg (s % U64, t) m = (s % U64, t) := by
        simp [avgStep, h]
      rw [hstep, ih]
      simp [List.filter_cons, h]

theorem foldl_posStep (lg : String) (ms : List Marker) (w s : Nat) :
    ms.foldl (posStep lg) (w % U64, s % U64) =
      ((w + weightSum (ms.filter (fun m => decide (m.LG = lg)))) % U64,
        (s + weightedPosSum (ms.filter (fun m => decide (m.LG = lg)))) % U64) := by
  induction ms generalizing w s with
  | nil => simp [weightSum, weightedPosSum]
  | cons m ms ih =>
    simp only [List.foldl_cons]
    by_cases h : m.LG = lg
    · have hstep : posStep lg (w % U64, s % U64) m =
          ((w + m.Weight) % U64, (s + m.Weight * m.GenPos) % U64) := by
        simp [posStep, h, Nat.mod_add_mod, Nat.add_mod_mod]
      rw [hstep, ih]
      simp [List.filter_cons, h, weightSum, weightedPosSum, Nat.add_assoc]
    · have hstep : posStep lg (w % U64, s % U64) m = (w % U64, s % U64) := by
        simp [posStep, h]
      rw [hstep, ih]
      simp [List.filter_cons, h]

theorem foldl_centreStep (lg : String) (ms : List Marker) (s t : Nat) :
    ms.foldl (centreStep lg) (s % U64, t) =
      ((s + ((ms.filter (fun m => decide (m.LG = lg))).map (fun m => m.ConPos)).sum) % U64,
        t + (ms.filter (fun m => decide (m.LG = lg))).length) := by
  induction ms generalizing s t with
  | nil => simp
  | cons m ms ih =>
    simp only [List.foldl_cons]
    by_cases h : m.LG = lg
    · have hstep : centreStep lg (s % U64, t) m = ((s + m.ConPos) % U64, t + 1) := by
        simp [centreStep, h, Nat.mod_add_mod]
      rw [hstep, ih]
      simp [List.filter_cons, h, Nat.add_assoc, Nat.add_comm 1]
    · have hstep : centreStep lg (s % U64, t) m = (s % U64, t) := by
        simp [centreStep, h]
      rw [hstep, ih]
      simp [List.filter_cons, h]

theorem avg_fold (c : Contig) :
    c.Markers.foldl (avgStep c.LG) (0, 0) =
      (weightSum (lgMarkers c) % U64, (lgMarkers c).length) := by
  have := foldl_avgStep c.LG c.Markers 0 0
  simpa [lgMarkers] using this

theorem pos_fold (c : Contig) :
    c.Markers.foldl (posStep c.LG) (0, 0) =
      (weightSum (lgMarkers c) % U64, weightedPosSum (lgMarkers c) % U64) := by
  have := foldl_posStep c.LG c.Markers 0 0
  simpa [lgMarkers] using this

theorem centre_fold (c : Contig) :
    c.Markers.foldl (centreStep c.LG) (0, 0) =
      (((lgMarkers c).map (fun m => m.ConPos)).sum % U64, (lgMarkers c).length) := by
  have := foldl_centreStep c.LG c.Markers 0 0
  simpa [lgMarkers] using this

theorem ensureLG_of_ne (c : Contig) (h : c.LG ≠ "") : c.ensureLG = c := by
  simp [Contig.ensureLG, h]

theorem ensureLG_of_not_placeable (c : Contig) (h : c.Placeable = false) :
    c.ensureLG.Placeable = false ∧ c.ensureLG.AvgWeight = c.AvgWeight ∧
    c.ensureLG.GenPos = c.GenPos ∧ c.ensureLG.Markers = c.Markers := by
  unfold Contig.ensureLG
  split
  · simp [Contig.AssignLG, h]
  · exact ⟨h, rfl, rfl, rfl⟩

theorem CalculateAvgWeight_eq (c : Contig) (hp : c.Placeable = true) (hlg : c.LG ≠ "")
    (hne : lgMarkers c ≠ []) :
    c.CalculateAvgWeight =
      .ok (weightSum (lgMarkers c) % U64 / (lgMarkers c).length,
        { c with AvgWeight := weightSum (lgMarkers c) % U64 / (lgMarkers c).length }) := by
  have hlen : (lgMarkers c).length ≠ 0 := fun h => hne (List.length_eq_zero.1 h)
  unfold Contig.CalculateAvgWeight
  simp only [ensureLG_of_ne c hlg, hp, avg_fold]
  simp [hlen]

/-- C3, as stated, fails: the sum of the weights is taken in `uint64`. Two
same-LG markers of weight `2 ^ 63` have average `2 ^ 63`, but the sum wraps to
0 and `CalculateAvgWeight` returns and stores 0. -/
theorem CalculateAvgWeight_overflow_counterexample :
    overflowExample.Placeable = true ∧ overflowExample.LG ≠ "" ∧
    lgMarkers overflowExample ≠ [] ∧
    overflowExample.CalculateAvgWeight = .ok (0, { overflowExample with AvgWeight := 0 }) ∧
    weightSum (lgMarkers overflowExample) / (lgMarkers overflowExample).length = 2 ^ 63 ∧
    weightSum (lgMarkers overflowExample) / (lgMarkers overflowExample).length ≠ 0 := by
  refine ⟨rfl, by decide, by decide, ?_, by decide, by decide⟩
  rw [CalculateAvgWeight_eq overflowExample rfl (by decide) (by decide)]
  rfl

/-- C3, amended. For a placeable contig with an assigned linkage group and at
least one marker of that linkage group, `CalculateAvgWeight` returns, and
stores in `AvgWeight`, the floor of (the sum of `Weight` over the LG-matching
markers, reduced modulo `2 ^ 64`) divided by the number of LG-matching
markers; when that sum is below `2 ^ 64` this is the floor of the true
average. For a contig that is not placeable it returns 0 and leaves
`AvgWeight` and `Placeable` as they were. -/
theorem CalculateAvgWeight_floor (c : Contig) :
    (c.Placeable = true → c.LG ≠ "" → lgMarkers c ≠ [] →
      c.CalculateAvgWeight =
        .ok (weightSum (lgMarkers c) % U64 / (lgMarkers c).length,
          { c with AvgWeight := weightSum (lgMarkers c) % U64 / (lgMarkers c).length })) ∧
    (c.Placeable = true → c.LG ≠ "" → lgMarkers c ≠ [] → weightSum (lgMarkers c) < U64 →
      c.CalculateAvgWeight =
        .ok (weightSum (lgMarkers c) / (lgMarkers c).length,
          { c with AvgWeight := weightSum (lgMarkers c) / (lgMarkers c).length })) ∧
    (c.Placeable = false →
      ∃ c', c.CalculateAvgWeight = .ok (0, c') ∧ c'.Placeable = false ∧
        c'.AvgWeight = c.AvgWeight) := by
  refine ⟨CalculateAvgWeight_eq c, ?_, ?_⟩
  · intro hp hlg hne hlt
    rw [CalculateAvgWeight_eq c hp hlg hne, Nat.mod_eq_of_lt hlt]
  · intro hp
    obtain ⟨h1, h2, _, _⟩ := ensureLG_of_not_placeable c hp
    refine ⟨c.ensureLG, ?_, h1, h2⟩
    unfold Contig.CalculateAvgWeight
    simp [h1]

theorem CalculateAvgWeight_floor_witness :
    averageExample.Placeable = true ∧ averageExample.LG ≠ "" ∧
    lgMarkers averageExample ≠ [] ∧ weightSum (lgMarkers averageExample) < U64 ∧
    weightSum (lgMarkers averageExample) / (lgMarkers averageExample).length = 2 ∧
    averageExample.CalculateAvgWeight =
      .ok (weightSum (lgMarkers averageExample) / (lgMarkers averageExample).length,
        { averageExample with
          AvgWeight := weightSum (lgMarkers averageExample) / (lgMarkers averageExample).length }) ∧
    (∃ c', ({ averageExample with Placeable := false } : Contig).CalculateAvgWeight = .ok (0, c') ∧
      c'.Placeable = false ∧
      c'.AvgWeight = ({ averageExample with Placeable := false } : Contig).AvgWeight) :=
  ⟨rfl, by decide, by decide, by decide, by decide,
    (CalculateAvgWeight_floor averageExample).2.1 rfl (by decide) (by decide) (by decide),
    (CalculateAvgWeight_floor { averageExample with Placeable := false }).2.2 rfl⟩

theorem CalculateMapPos_eq (c : Contig) (hp : c.Placeable = true) (hlg : c.LG ≠ "") :
    c.CalculateMapPos =
      if weightSum (lgMarkers c) % U64 = 0 then .error .divideByZero
      else
        .ok (weightedPosSum (lgMarkers c) % U64 / (weightSum (lgMarkers c) % U64),
          { c with
            GenPos := weightedPosSum (lgMarkers c) % U64 / (weightSum (lgMarkers c) % U64) }) := by
  unfold Contig.CalculateMapPos
  simp only [ensureLG_of_ne c hlg, hp, pos_fold]
  simp

/-- C4, as stated, fails: both sums are taken in `uint64`. Two same-LG markers
of weight `2 ^ 63` at positions 100 and 200 have positive total weight and
weighted mean 150, but the total weight wraps to 0 and `CalculateMapPos`
stops with a division by zero. -/
theorem CalculateMapPos_overflow_counterexample :
    overflowExample.Placeable = true ∧ overflowExample.LG ≠ "" ∧
    0 < weightSum (lgMarkers overflowExample) ∧
    weightedPosSum (lgMarkers overflowExample) / weightSum (lgMarkers overflowExample) = 150 ∧
    overflowExample.CalculateMapPos = .error .divideByZero := by
  refine ⟨rfl, by decide, by decide, by decide, ?_⟩
  rw [CalculateMapPos_eq overflowExample rfl (by decide)]
  rfl

/-- C4, amended. For a placeable contig with an assigned linkage group whose
LG-matching markers have a total weight that is non-zero modulo `2 ^ 64`,
`CalculateMapPos` returns, and stores in `GenPos`, the floor of (the sum of
`Weight * GenPos` over the LG-matching markers, modulo `2 ^ 64`) divided by
(the sum of `Weight` over them, modulo `2 ^ 64`); when the total weight is
positive and both sums are below `2 ^ 64` this is the floor of the true
weighted mean. -/
theorem CalculateMapPos_floor (c : Contig) :
    (c.Placeable = true → c.LG ≠ "" → weightSum (lgMarkers c) % U64 ≠ 0 →
      c.CalculateMapPos =
        .ok (weightedPosSum (lgMarkers c) % U64 / (weightSum (lgMarkers c) % U64),
          { c with
            GenPos := weightedPosSum (lgMarkers c) % U64 / (weightSum (lgMarkers c) % U64) })) ∧
    (c.Placeable = true → c.LG ≠ "" → 0 < weightSum (lgMarkers c) →
      weightSum (lgMarkers c) < U64 → weightedPosSum (lgMarkers c) < U64 →
      c.CalculateMapPos =
        .ok (weightedPosSum (lgMarkers c) / weightSum (lgMarkers c),
          { c with GenPos := weightedPosSum (lgMarkers c) / weightSum (lgMarkers c) })) := by
  constructor
  · intro hp hlg hw
    rw [CalculateMapPos_eq c hp hlg, if_neg hw]
  · intro hp hlg hpos hw hs
    rw [CalculateMapPos_eq c hp hlg, Nat.mod_eq_of_lt hw, Nat.mod_eq_of_lt hs,
      if_neg (Nat.pos_iff_ne_zero.1 hpos)]

theorem CalculateMapPos_floor_witness :
    averageExample.Placeable = true ∧ averageExample.LG ≠ "" ∧
    0 < weightSum (lgMarkers averageExample) ∧ weightSum (lgMarkers averageExample) < U64 ∧
    weightedPosSum (lgMarkers averageExample) < U64 ∧
    weightSum (lgMarkers averageExample) % U64 ≠ 0 ∧
    weightedPosSum (lgMarkers averageExample) / weightSum (lgMarkers averageExample) = 160 ∧
    averageExample.CalculateMapPos =
      .ok (weightedPosSum (lgMarkers averageExample) / weightSum (lgMarkers averageExample),
        { averageExample with
          GenPos :=
            weightedPosSum (lgMarkers averageExample) / weightSum (lgMarkers averageExample) }) ∧
    averageExample.CalculateMapPos =
      .ok (weightedPosSum (lgMarkers averageExample) % U64 /
          (weightSum (lgMarkers averageExample) % U64),
        { averageExample with
          GenPos := weightedPosSum (lgMarkers averageExample) % U64 /
            (weightSum (lgMarkers averageExample) % U64) }) :=
  ⟨rfl, by decide, by decide, by decide, by decide, by decide, by decide,
    (CalculateMapPos_floor averageExample).2 rfl (by decide) (by decide) (by decide) (by decide),
    (CalculateMapPos_floor averageExample).1 rfl (by decide) (by decide)⟩

/-! ## AssignLG, Orient and Autocomplete on examples -/

/-- C5. The top markers `m1` (no linkage group) and `m2` (`LG1`) do not all
carry the same LG name. Enumerated as `m1, m2`, `AssignLG` nevertheless
returns `"LG1"` and leaves the contig placeable in `LG1`; enumerated as
`m2, m1` it returns `"-"` and marks the contig unplaceable. -/
theorem AssignLG_unmapped_first :
    unmappedFirstExample.Placeable = true ∧ unmappedFirstExample.LG = "" ∧
    unmappedFirstExample.Top.map (fun m => m.LG) = ["", "LG1"] ∧
    unmappedFirstExample.AssignLG =
      ("LG1", { unmappedFirstExample with Placeable := true, LG := "LG1" }) ∧
    unmappedLastExample.Top.map (fun m => m.LG) = ["LG1", ""] ∧
    unmappedLastExample.AssignLG =
      ("-", { unmappedLastExample with Placeable := false, LG := "-" }) := by
  decide

/-- C7. A placeable contig with a single marker: its top markers are its whole
marker set and share one genetic position. `Orient` returns `("", false)`
and the contig is still placeable afterwards. -/
theorem Orient_single_marker_stays_placeable :
    singleMarkerExample.Placeable = true ∧
    singleMarkerExample.Top = singleMarkerExample.Markers ∧
    genPosCount singleMarkerExample.Top = 1 ∧
    ∃ c', singleMarkerExample.Orient = .ok (("", false), c') ∧ c'.Placeable = true :=
  ⟨rfl, by decide, by decide, _, rfl, rfl⟩

/-! ## The steps of Autocomplete -/

theorem Autocomplete_error_of_mapPos (c : Contig) (e : Fault)
    (h : c.AssignLG.2.CalculateMapPos = .error e) : c.Autocomplete = .error e := by
  unfold Contig.Autocomplete
  generalize c.AssignLG = r at h
  obtain ⟨lg, c1⟩ := r
  simp only at h ⊢
  rw [h]

theorem Autocomplete_ok_of_steps (c c2 c3 c4 c5 : Contig) (pos avg : Nat) (r : String × Bool)
    (h1 : c.AssignLG.2.CalculateMapPos = .ok (pos, c2))
    (h2 : c2.CalculateAvgWeight = .ok (avg, c3))
    (h3 : c3.Orient = .ok (r, c4))
    (h4 : c4.CalculateRange = .ok c5) :
    ∃ out, c.Autocomplete = .ok (out, c5) := by
  unfold Contig.Autocomplete
  generalize c.AssignLG = a at h1
  obtain ⟨lg, c1⟩ := a
  obtain ⟨st, ok⟩ := r
  simp only at h1 ⊢
  rw [h1]
  simp only
  rw [h2]
  simp only
  rw [h3]
  simp only
  rw [h4]
  exact ⟨_, rfl⟩

theorem Autocomplete_steps_of_ok (c c' : Contig) (out : String)
    (h : c.Autocomplete = .ok (out, c')) :
    ∃ pos c2 avg c3 r c4,
      c.AssignLG.2.CalculateMapPos = .ok (pos, c2) ∧
      c2.CalculateAvgWeight = .ok (avg, c3) ∧
      c3.Orient = .ok (r, c4) ∧
      c4.CalculateRange = .ok c' := by
  unfold Contig.Autocomplete at h
  generalize c.AssignLG = a at h
  obtain ⟨lg, c1⟩ := a
  simp only at h ⊢
  cases h1 : c1.CalculateMapPos with
  | error e => rw [h1] at h; simp at h
  | ok r1 =>
    obtain ⟨pos, c2⟩ := r1
    rw [h1] at h
    simp only at h
    cases h2 : c2.CalculateAvgWeight with
    | error e => rw [h2] at h; simp at h
    | ok r2 =>
      obtain ⟨avg, c3⟩ := r2
      rw [h2] at h
      simp only at h
      cases h3 : c3.Orient with
      | error e => rw [h3] at h; simp at h
      | ok r3 =>
        obtain ⟨⟨st, ok⟩, c4⟩ := r3
        rw [h3] at h
        simp only at h
        cases h4 : c4.CalculateRange with
        | error e => rw [h4] at h; simp at h
        | ok c5 =>
          rw [h4] at h
          simp only [Except.ok.injEq, Prod.mk.injEq] at h
          exact ⟨pos, c2, avg, c3, (st, ok), c4, rfl, h2, h3, by rw [← h.2, h4]⟩

theorem AssignLG_LG_of_not_placeable (c : Contig) (h : c.AssignLG.2.Placeable = false) :
    c.AssignLG.2.LG = "-" := by
  unfold Contig.AssignLG at h ⊢
  by_cases hp : c.Placeable = false
  · simp [hp]
  · simp only [hp, if_false] at h ⊢
    cases hl : assignLoop "" c.Top with
    | none => simp
    | some lg => rw [hl] at h; simp at h

theorem ensureLG_LG_of_not_placeable (c : Contig)
    (h : c.AssignLG.2.ensureLG.Placeable = false) : c.AssignLG.2.ensureLG.LG = "-" := by
  unfold Contig.ensureLG at h ⊢
  by_cases hl : c.AssignLG.2.LG = ""
  · simp only [hl, if_true] at h ⊢
    exact AssignLG_LG_of_not_placeable _ h
  · simp only [hl, if_false] at h ⊢
    exact AssignLG_LG_of_not_placeable _ h

theorem steps_of_not_placeable (c : Contig) (hp : c.Placeable = false) (hl : c.LG ≠ "") :
    c.CalculateAvgWeight = .ok (0, c) ∧ c.Orient = .ok (("", false), c) ∧
    c.CalculateRange = .ok c := by
  refine ⟨?_, ?_, ?_⟩
  · unfold Contig.CalculateAvgWeight
    simp [ensureLG_of_ne c hl, hp]
  · unfold Contig.Orient
    simp [hp]
  · unfold Contig.CalculateRange
    simp [hp]

theorem Autocomplete_of_not_placeable (c : Contig)
    (hp : c.AssignLG.2.ensureLG.Placeable = false) :
    ∃ out c', c.Autocomplete = .ok (out, c') ∧ c'.Placeable = false := by
  have hlg := ensureLG_LG_of_not_placeable c hp
  have hne : c.AssignLG.2.ensureLG.LG ≠ "" := by rw [hlg]; decide
  obtain ⟨h2, h3, h4⟩ := steps_of_not_placeable _ hp hne
  have h1 : c.AssignLG.2.CalculateMapPos = .ok (0, c.AssignLG.2.ensureLG) := by
    unfold Contig.CalculateMapPos
    simp [hp]
  obtain ⟨out, ho⟩ := Autocomplete_ok_of_steps c _ _ _ _ 0 0 ("", false) h1 h2 h3 h4
  exact ⟨out, _, ho, hp⟩

/-- C6, as stated, fails: the divisions are not guarded. A contig without
markers, and a contig whose only marker has weight 0, both make `Autocomplete`
stop with an integer division by zero. -/
theorem Autocomplete_divide_by_zero_counterexample :
    (freshContig "ctg1" []).Autocomplete = .error .divideByZero ∧
    lgMarkers zeroWeightExample.AssignLG.2 ≠ [] ∧
    weightSum (lgMarkers zeroWeightExample.AssignLG.2) = 0 ∧
    zeroWeightExample.Autocomplete = .error .divideByZero :=
  ⟨rfl, by decide, by decide, rfl⟩

/-- C6, amended. `Autocomplete` does not guard its divisions. Let `c₂` be the
contig after linkage-group assignment (`AssignLG`, run once more by
`CalculateMapPos` when `LG` is still empty). When `c₂` is placeable and the
total `Weight` of its LG-matching markers is zero modulo `2 ^ 64` (so also
when no marker matches its `LG`, or it has no markers), `Autocomplete` stops
with an integer division by zero. When `c₂` is not placeable, `Autocomplete`
finishes and leaves `Placeable == false`. -/
theorem Autocomplete_zero_divisor (c : Contig) :
    (c.AssignLG.2.ensureLG.Placeable = true →
      weightSum (lgMarkers c.AssignLG.2.ensureLG) % U64 = 0 →
      c.Autocomplete = .error .divideByZero) ∧
    (c.AssignLG.2.ensureLG.Placeable = false →
      ∃ out c', c.Autocomplete = .ok (out, c') ∧ c'.Placeable = false) := by
  constructor
  · intro hp hw
    apply Autocomplete_error_of_mapPos
    unfold Contig.CalculateMapPos
    simp only [hp, pos_fold, hw]
    simp
  · exact Autocomplete_of_not_placeable c

theorem Autocomplete_zero_divisor_witness :
    zeroWeightExample.AssignLG.2.ensureLG.Placeable = true ∧
    weightSum (lgMarkers zeroWeightExample.AssignLG.2.ensureLG) % U64 = 0 ∧
    zeroWeightExample.Autocomplete = .error .divideByZero ∧
    mixedLGExample.AssignLG.2.ensureLG.Placeable = false ∧
    (∃ out c', mixedLGExample.Autocomplete = .ok (out, c') ∧ c'.Placeable = false) :=
  ⟨by decide, by decide,
    (Autocomplete_zero_divisor zeroWeightExample).1 (by decide) (by decide),
    by decide, (Autocomplete_zero_divisor mixedLGExample).2 (by decide)⟩

/-! ## Top and the assignment loop -/

theorem foldl_topStep_filter (lg : String) (ms : List Marker) (st : List Marker × Nat) :
    ms.foldl (fun st m => if m.LG = lg then topStep st m else st) st =
      (ms.filter (fun m => decide (m.LG = lg))).foldl topStep st := by
  induction ms generalizing st with
  | nil => rfl
  | cons m ms ih =>
    by_cases h : m.LG = lg
    · simp [List.filter_cons, h, ih]
    · simp [List.filter_cons, h, ih]

theorem Top_eq (c : Contig) : c.Top = ((topCandidates c).foldl topStep ([], 0)).1 := by
  unfold Contig.Top topCandidates
  by_cases h : c.LG = ""
  · simp [h]
  · simp only [h, if_false]
    have hf : (fun (st : List Marker × Nat) (m : Marker) =>
        if m.LG ≠ c.LG then st else topStep st m) =
        fun st m => if m.LG = c.LG then topStep st m else st := by
      funext st m
      by_cases hm : m.LG = c.LG <;> simp [hm]
    rw [hf, foldl_topStep_filter]
    rfl

theorem foldl_topStep_mem (l : List Marker) (st : List Marker × Nat) (m : Marker)
    (h : m ∈ (l.foldl topStep st).1) : m ∈ st.1 ∨ m ∈ l := by
  induction l generalizing st with
  | nil => exact Or.inl h
  | cons x xs ih =>
    simp only [List.foldl_cons] at h
    rcases ih _ h with h1 | h1
    · unfold topStep at h1
      split at h1
      · simp only [List.mem_singleton] at h1
        exact Or.inr (h1 ▸ List.mem_cons_self _ _)
      · split at h1
        · rcases List.mem_append.1 h1 with h2 | h2
          · exact Or.inl h2
          · simp only [List.mem_singleton] at h2
            exact Or.inr (h2 ▸ List.mem_cons_self _ _)
        · exact Or.inl h1
    · exact Or.inr (List.mem_cons_of_mem _ h1)

theorem foldl_topStep_ne_nil (l : List Marker) (st : List Marker × Nat)
    (h : st.1 ≠ [] ∨ (st.2 = 0 ∧ l ≠ [])) : (l.foldl topStep st).1 ≠ [] := by
  induction l generalizing st with
  | nil =>
    rcases h with h | h
    · exact h
    · exact absurd rfl h.2
  | cons x xs ih =>
    simp only [List.foldl_cons]
    apply ih
    left
    unfold topStep
    split
    · simp
    · split
      · simp
      · rename_i h1 h2
        rcases h with h | h
        · exact h
        · exfalso
          rw [h.1] at h1 h2
          omega

theorem Top_subset (c : Contig) : ∀ m ∈ c.Top, m ∈ topCandidates c := by
  intro m hm
  rw [Top_eq] at hm
  rcases foldl_topStep_mem _ _ _ hm with h | h
  · simp at h
  · exact h

theorem Top_ne_nil (c : Contig) (h : topCandidates c ≠ []) : c.Top ≠ [] := by
  rw [Top_eq]
  exact foldl_topStep_ne_nil _ _ (Or.inr ⟨rfl, h⟩)

theorem Top_mem_markers (c : Contig) : ∀ m ∈ c.Top, m ∈ c.Markers := by
  intro m hm
  have := Top_subset c m hm
  unfold topCandidates at this
  split at this
  · exact this
  · exact (List.mem_filter.1 this).1

theorem assignLoop_of_ne_empty (lg : String) (ms : List Marker) (r : String)
    (hlg : lg ≠ "") (h : assignLoop lg ms = some r) : r = lg ∧ ∀ m ∈ ms, m.LG = lg := by
  induction ms with
  | nil =>
    simp only [assignLoop, Option.some.injEq] at h
    exact ⟨h.symm, by simp⟩
  | cons m ms ih =>
    unfold assignLoop at h
    simp only [hlg, if_false] at h
    by_cases hm : m.LG = lg
    · simp only [hm, ne_eq, not_true_eq_false, if_false] at h
      obtain ⟨h1, h2⟩ := ih h
      refine ⟨h1, ?_⟩
      intro x hx
      rcases List.mem_cons.1 hx with rfl | hx
      · exact hm
      · exact h2 x hx
    · simp [hm] at h

/-- What the loop of `AssignLG` accepts: top markers without a linkage group
at the front are passed over, all the others carry the returned name. -/
theorem assignLoop_empty (ms : List Marker) (r : String) (h : assignLoop "" ms = some r) :
    (∀ m ∈ ms, m.LG = "" ∨ m.LG = r) ∧ (ms ≠ [] → ∃ m ∈ ms, m.LG = r) := by
  induction ms with
  | nil => simp
  | cons m ms ih =>
    have h' : assignLoop m.LG ms = some r := by simpa [assignLoop] using h
    by_cases hm : m.LG = ""
    · rw [hm] at h'
      obtain ⟨h1, h2⟩ := ih h'
      constructor
      · intro x hx
        rcases List.mem_cons.1 hx with rfl | hx
        · exact Or.inl hm
        · exact h1 x hx
      · intro _
        by_cases hms : ms = []
        · subst hms
          simp only [assignLoop, Option.some.injEq] at h'
          exact ⟨m, List.mem_cons_self _ _, by rw [hm, h']⟩
        · obtain ⟨x, hx, hxr⟩ := h2 hms
          exact ⟨x, List.mem_cons_of_mem _ hx, hxr⟩
    · obtain ⟨h1, h2⟩ := assignLoop_of_ne_empty m.LG ms r hm h'
      constructor
      · intro x hx
        rcases List.mem_cons.1 hx with rfl | hx
        · exact Or.inr h1.symm
        · exact Or.inr ((h2 x hx).trans h1.symm)
      · intro _
        exact ⟨m, List.mem_cons_self _ _, h1.symm⟩

/-! ## The state between the steps of Autocomplete -/

theorem ensureLG_of_settled (c : Contig) (hp : c.Placeable = true) (hs : Settled c) :
    c.ensureLG = c := by
  unfold Contig.ensureLG
  by_cases hl : c.LG = ""
  · rcases hs with hs | hs
    · exact absurd hl hs
    · simp only [hl, if_true]
      unfold Contig.AssignLG
      simp only [hp, Bool.true_eq_false, if_false, hs]
      cases c
      simp_all
  · simp [hl]

theorem CalculateMapPos_of_settled (c : Contig) (hp : c.Placeable = true) (hs : Settled c) :
    c.CalculateMapPos =
      if weightSum (lgMarkers c) % U64 = 0 then .error .divideByZero
      else .ok (posOf c, { c with GenPos := posOf c }) := by
  unfold Contig.CalculateMapPos
  simp only [ensureLG_of_settled c hp hs, hp, pos_fold]
  simp [posOf]

theorem Positioned_setGenPos (c : Contig) (hp : c.Placeable = true) (hs : Settled c)
    (hw : weightSum (lgMarkers c) % U64 ≠ 0) : Positioned { c with GenPos := posOf c } :=
  ⟨hp, hs, hw, rfl⟩

theorem ensureMapPos_of_positioned (c : Contig) (h : Positioned c) :
    c.ensureMapPos = .ok c := by
  obtain ⟨hp, hs, hw, hg⟩ := h
  unfold Contig.ensureMapPos
  by_cases h0 : c.GenPos = 0
  · simp only [h0, if_true]
    rw [CalculateMapPos_of_settled c hp hs, if_neg hw]
    simp only
    have : posOf c = c.GenPos := hg.symm
    rw [this]
  · simp [h0]

theorem lgMarkers_ne_nil_of_weight (c : Contig) (hw : weightSum (lgMarkers c) % U64 ≠ 0) :
    lgMarkers c ≠ [] := by
  intro h
  apply hw
  rw [h]
  simp [weightSum]

theorem CalculateAvgWeight_of_positioned (c : Contig) (h : Positioned c) :
    ∃ a, c.CalculateAvgWeight = .ok (a, { c with AvgWeight := a }) ∧
      Positioned { c with AvgWeight := a } := by
  obtain ⟨hp, hs, hw, hg⟩ := h
  have hne := lgMarkers_ne_nil_of_weight c hw
  have hlen : (lgMarkers c).length ≠ 0 := fun h => hne (List.length_eq_zero.1 h)
  refine ⟨weightSum (lgMarkers c) % U64 / (lgMarkers c).length, ?_, ⟨hp, hs, hw, hg⟩⟩
  unfold Contig.CalculateAvgWeight
  simp only [ensureLG_of_settled c hp hs, hp, avg_fold]
  simp [hlen]

theorem CentrePos_of_positioned (c : Contig) (h : Positioned c) :
    ∃ centre, c.CentrePos = .ok (centre, c) := by
  obtain ⟨hp, hs, hw, hg⟩ := h
  have hne := lgMarkers_ne_nil_of_weight c hw
  have hlen : (lgMarkers c).length ≠ 0 := fun h => hne (List.length_eq_zero.1 h)
  refine ⟨((lgMarkers c).map (fun m => m.ConPos)).sum % U64 / (lgMarkers c).length, ?_⟩
  unfold Contig.CentrePos
  simp only [ensureLG_of_settled c hp hs, hp, centre_fold]
  simp [hlen]

theorem Orient_of_positioned (c : Contig) (h : Positioned c) :
    ∃ r c4, c.Orient = .ok (r, c4) ∧
      (c4 = c ∨ c4 = { c with Orientation := r.1, Placeable := r.2 }) := by
  have hp := h.1
  unfold Contig.Orient
  simp only [hp, Bool.true_eq_false, if_false, ensureLG_of_settled c hp h.2.1,
    ensureMapPos_of_positioned c h]
  by_cases hA : c.Top.length = c.Markers.length ∧ genPosCount c.Top = 1
  · rw [if_pos hA]
    exact ⟨_, _, rfl, Or.inl rfl⟩
  · rw [if_neg hA]
    by_cases hB : c.Top.length = 1 ∨ genPosCount c.Top = 1
    · rw [if_pos hB]
      obtain ⟨centre, hc⟩ := CentrePos_of_positioned c h
      rw [hc]
      exact ⟨_, _, rfl, Or.inr rfl⟩
    · rw [if_neg hB]
      exact ⟨_, _, rfl, Or.inr rfl⟩

theorem Positioned_after_Orient (c c4 : Contig) (r : String × Bool) (h : Positioned c)
    (ho : c.Orient = .ok (r, c4)) (hp4 : c4.Placeable = true) :
    Positioned c4 ∧ c4.LG = c.LG ∧ c4.Markers = c.Markers ∧ c4.GenPos = c.GenPos := by
  obtain ⟨r', c4', ho', hc⟩ := Orient_of_positioned c h
  rw [ho] at ho'
  simp only [Except.ok.injEq, Prod.mk.injEq] at ho'
  obtain ⟨hr, hc4⟩ := ho'
  subst hr hc4
  rcases hc with hc | hc
  · subst hc
    exact ⟨h, rfl, rfl, rfl⟩
  · subst hc
    exact ⟨⟨hp4, h.2.1, h.2.2.1, h.2.2.2⟩, rfl, rfl, rfl⟩

theorem CalculateRange_of_positioned (c c' : Contig) (h : Positioned c)
    (hr : c.CalculateRange = .ok c') :
    ∃ lo hi, c' = { c with Range := (some lo, some hi) } ∧
      ((genPosCount c.Markers = 1 ∧ lo = synthetic 0 c.GenPos c.MaxWeight ∧ hi = lo) ∨
       (genPosCount c.Markers ≠ 1 ∧
        (goSort ByGenPos (paddedTop c)).head? = some lo ∧
        (goSort ByGenPos (paddedTop c)).getLast? = some hi)) := by
  have hp := h.1
  unfold Contig.CalculateRange at hr
  simp only [hp, Bool.true_eq_false, if_false, ensureLG_of_settled c hp h.2.1,
    ensureMapPos_of_positioned c h] at hr
  by_cases h1 : genPosCount c.Markers = 1
  · rw [if_pos h1] at hr
    simp only [Except.ok.injEq] at hr
    exact ⟨_, _, by rw [hp]; exact hr.symm, Or.inl ⟨h1, rfl, rfl⟩⟩
  · rw [if_neg h1] at hr
    have hpad : (if c.Top.length = 1 then c.Top ++ [synthetic 0 c.GenPos c.MaxWeight]
        else c.Top) = paddedTop c := rfl
    rw [hpad] at hr
    cases hh : (goSort ByGenPos (paddedTop c)).head? with
    | none => rw [hh] at hr; simp at hr
    | some lo =>
      cases hl : (goSort ByGenPos (paddedTop c)).getLast? with
      | none => rw [hh, hl] at hr; simp at hr
      | some hi =>
        rw [hh, hl] at hr
        simp only [Except.ok.injEq] at hr
        exact ⟨lo, hi, by rw [hp]; exact hr.symm, Or.inr ⟨h1, rfl, rfl⟩⟩

/-- In an ascending slice the first element carries the least key and the last
element the greatest. -/
theorem sorted_ends {α : Type} (key : α → Nat) (l : List α) (lo hi : α)
    (hs : l.Pairwise (fun a b => key a ≤ key b))
    (hh : l.head? = some lo) (hl : l.getLast? = some hi) :
    lo ∈ l ∧ hi ∈ l ∧ ∀ m ∈ l, key lo ≤ key m ∧ key m ≤ key hi := by
  have hlo : lo ∈ l := List.mem_of_mem_head? (by rw [hh]; exact rfl)
  have hhi : hi ∈ l := List.mem_of_getLast?_eq_some hl
  refine ⟨hlo, hhi, fun m hm => ⟨?_, ?_⟩⟩
  · obtain ⟨t, rfl⟩ := List.head?_eq_some_iff.1 hh
    rcases List.mem_cons.1 hm with rfl | hm
    · exact Nat.le_refl _
    · exact (List.pairwise_cons.1 hs).1 m hm
  · obtain ⟨t, rfl⟩ := List.getLast?_eq_some_iff.1 hl
    rcases List.mem_append.1 hm with hm | hm
    · exact (List.pairwise_append.1 hs).2.2 m hm hi (List.mem_singleton_self _)
    · rw [List.mem_singleton.1 hm]

theorem AssignLG_of_placeable (c : Contig) (hp : c.Placeable = true)
    (h1 : c.AssignLG.2.Placeable = true) :
    ∃ lg, assignLoop "" c.Top = some lg ∧
      c.AssignLG.2 = { c with Placeable := true, LG := lg } := by
  unfold Contig.AssignLG at h1 ⊢
  simp only [hp, Bool.true_eq_false, if_false] at h1 ⊢
  cases hl : assignLoop "" c.Top with
  | none => rw [hl] at h1; simp at h1
  | some lg => exact ⟨lg, rfl, rfl⟩

theorem CalculateRange_of_not_placeable (c : Contig) (hp : c.Placeable = false) :
    c.CalculateRange = .ok c := by
  unfold Contig.CalculateRange
  simp [hp]

/-- A contig without a linkage group that `Autocomplete` leaves placeable went
through every step in the regular way: before `CalculateRange` it is
placeable, its `LG` is the name the assignment loop returned, its divisor is
non-zero and its `GenPos` is the computed position. -/
theorem Autocomplete_placeable_steps (c c' : Contig) (out : String)
    (hlg : c.LG = "") (hpl : c.Placeable = true)
    (h : c.Autocomplete = .ok (out, c')) (hp : c'.Placeable = true) :
    ∃ c4, Positioned c4 ∧ c4.CalculateRange = .ok c' ∧ c4.Markers = c.Markers ∧
      assignLoop "" c.Top = some c4.LG := by
  obtain ⟨pos, c2, avg, c3, r, c4, h1, h2, h3, h4⟩ := Autocomplete_steps_of_ok c c' out h
  -- the assignment left the contig placeable
  have hp1 : c.AssignLG.2.Placeable = true := by
    by_contra hcon
    have hf : c.AssignLG.2.Placeable = false := by simpa using hcon
    have hlg1 := AssignLG_LG_of_not_placeable c hf
    have he : c.AssignLG.2.ensureLG = c.AssignLG.2 :=
      ensureLG_of_ne _ (by rw [hlg1]; decide)
    obtain ⟨out', c'', ho, hp''⟩ := Autocomplete_of_not_placeable c (by rw [he]; exact hf)
    rw [h] at ho
    simp only [Except.ok.injEq, Prod.mk.injEq] at ho
    rw [ho.2] at hp
    rw [hp] at hp''
    exact absurd hp'' (by decide)
  obtain ⟨lg, hloop, hc1⟩ := AssignLG_of_placeable c hpl hp1
  have hs1 : Settled c.AssignLG.2 := by
    rw [hc1]
    by_cases hl : lg = ""
    · right
      have : ({ c with Placeable := true, LG := lg } : Contig).Top = c.Top := by
        unfold Contig.Top
        simp [hl, hlg]
      rw [this, hloop, hl]
    · left
      exact hl
  -- the map position
  rw [CalculateMapPos_of_settled _ hp1 hs1] at h1
  by_cases hw : weightSum (lgMarkers c.AssignLG.2) % U64 = 0
  · rw [if_pos hw] at h1
    simp at h1
  rw [if_neg hw] at h1
  simp only [Except.ok.injEq, Prod.mk.injEq] at h1
  have hpos2 : Positioned c2 := by
    rw [← h1.2]
    exact Positioned_setGenPos _ hp1 hs1 hw
  have hm2 : c2.Markers = c.Markers ∧ c2.LG = lg := by
    rw [← h1.2, hc1]
    exact ⟨rfl, rfl⟩
  -- the average weight
  obtain ⟨a, ha, hpos3'⟩ := CalculateAvgWeight_of_positioned c2 hpos2
  rw [ha] at h2
  simp only [Except.ok.injEq, Prod.mk.injEq] at h2
  have hpos3 : Positioned c3 := by rw [← h2.2]; exact hpos3'
  have hm3 : c3.Markers = c.Markers ∧ c3.LG = lg := by
    rw [← h2.2]
    exact hm2
  -- the orientation
  have hp4 : c4.Placeable = true := by
    by_contra hcon
    have hf : c4.Placeable = false := by simpa using hcon
    rw [CalculateRange_of_not_placeable c4 hf] at h4
    simp only [Except.ok.injEq] at h4
    rw [h4, hp] at hf
    exact absurd hf (by decide)
  obtain ⟨hpos4, hl4, hm4, _⟩ := Positioned_after_Orient c3 c4 r hpos3 h3 hp4
  refine ⟨c4, hpos4, h4, hm4.trans hm3.1, ?_⟩
  rw [hloop, hl4, hm3.2]

/-! ## The completed contig -/

/-- C8, as stated, fails: a contig whose markers are absent from the genetic
map is placeable with `LG == ""` after `Autocomplete`, and a contig of a
linkage group named `-` is placeable with `LG == "-"`. -/
theorem Autocomplete_LG_counterexample :
    (∃ out c', unmappedOnlyExample.Autocomplete = .ok (out, c') ∧
      c'.Placeable = true ∧ c'.LG = "") ∧
    (∃ out c', dashGroupExample.Autocomplete = .ok (out, c') ∧
      c'.Placeable = true ∧ c'.LG = "-") :=
  ⟨⟨_, _, rfl, rfl, rfl⟩, ⟨_, _, rfl, rfl, rfl⟩⟩

/-- C8, amended. For a freshly constructed contig on which `Autocomplete`
finishes and which is placeable afterwards, the `LG` field is the LG name
carried by one of its top (maximum-weight) markers, and every top marker
carries that name or none; so `LG` is neither `""` nor `"-"` whenever no
marker of the contig has `""` or `"-"` as its LG. -/
theorem Autocomplete_LG_of_placeable (name : String) (ms : List Marker) (out : String)
    (c' : Contig) (h : (freshContig name ms).Autocomplete = .ok (out, c'))
    (hp : c'.Placeable = true) :
    (∃ m ∈ (freshContig name ms).Top, m.LG = c'.LG) ∧
    (∀ m ∈ (freshContig name ms).Top, m.LG = "" ∨ m.LG = c'.LG) ∧
    ((∀ m ∈ (freshContig name ms).Markers, m.LG ≠ "" ∧ m.LG ≠ "-") →
      c'.LG ≠ "" ∧ c'.LG ≠ "-") := by
  obtain ⟨c4, hpos, hr, hm, hloop⟩ :=
    Autocomplete_placeable_steps (freshContig name ms) c' out rfl rfl h hp
  obtain ⟨lo, hi, hc', _⟩ := CalculateRange_of_positioned c4 c' hpos hr
  have hlg : c'.LG = c4.LG := by rw [hc']
  have hne : (freshContig name ms).Top ≠ [] := by
    apply Top_ne_nil
    have h1 := lgMarkers_ne_nil_of_weight c4 hpos.2.2.1
    have h2 : c4.Markers ≠ [] := by
      intro h0
      apply h1
      unfold lgMarkers
      rw [h0]
      rfl
    have h3 : topCandidates (freshContig name ms) = (freshContig name ms).Markers := rfl
    rw [h3, ← hm]
    exact h2
  obtain ⟨hall, hex⟩ := assignLoop_empty _ _ hloop
  obtain ⟨m, hmt, hml⟩ := hex hne
  rw [← hlg] at hml hall
  refine ⟨⟨m, hmt, hml⟩, hall, ?_⟩
  intro hno
  have := hno m (Top_mem_markers _ m hmt)
  rw [hml] at this
  exact this

theorem Autocomplete_LG_of_placeable_witness :
    ∃ out c', averageExampleFresh.Autocomplete = .ok (out, c') ∧ c'.Placeable = true ∧
      (∃ m ∈ averageExampleFresh.Top, m.LG = c'.LG) ∧
      (∀ m ∈ averageExampleFresh.Top, m.LG = "" ∨ m.LG = c'.LG) ∧
      ((∀ m ∈ averageExampleFresh.Markers, m.LG ≠ "" ∧ m.LG ≠ "-") →
        c'.LG ≠ "" ∧ c'.LG ≠ "-") :=
  ⟨_, _, rfl, rfl,
    Autocomplete_LG_of_placeable "ctg1"
      [ mkMarker "m1" 10 100 2 "LG1" "ctg1", mkMarker "m2" 20 200 3 "LG1" "ctg1" ] _ _ rfl rfl⟩

theorem genPos_eq_of_count_one (l : List Marker) (h : genPosCount l = 1) :
    ∀ a ∈ l, ∀ b ∈ l, a.GenPos = b.GenPos := by
  unfold genPosCount at h
  obtain ⟨x, hx⟩ := List.length_eq_one.1 h
  have key : ∀ a ∈ l, a.GenPos = x := by
    intro a ha
    have : a.GenPos ∈ (l.map (fun m => m.GenPos)).dedup :=
      List.mem_dedup.2 (List.mem_map.2 ⟨a, ha, rfl⟩)
    rw [hx] at this
    exact List.mem_singleton.1 this
  intro a ha b hb
  rw [key a ha, key b hb]

/-- C9. For a freshly constructed contig on which `Autocomplete` finishes and
which is placeable afterwards, both range endpoints are set and
`Range[0].GenPos <= Range[1].GenPos`; when the contig's markers do not all
share one `GenPos`, the endpoints are taken among the top markers (with the
synthetic marker at the contig's computed `GenPos` added when there is a
single top marker) and carry the minimum and the maximum `GenPos` among
them. -/
theorem Autocomplete_range (name : String) (ms : List Marker) (out : String) (c' : Contig)
    (h : (freshContig name ms).Autocomplete = .ok (out, c')) (hp : c'.Placeable = true) :
    ∃ lo hi, c'.Range = (some lo, some hi) ∧ lo.GenPos ≤ hi.GenPos ∧
      ((∃ a ∈ c'.Markers, ∃ b ∈ c'.Markers, a.GenPos ≠ b.GenPos) →
        lo ∈ paddedTop c' ∧ hi ∈ paddedTop c' ∧
        ∀ m ∈ paddedTop c', lo.GenPos ≤ m.GenPos ∧ m.GenPos ≤ hi.GenPos) := by
  obtain ⟨c4, hpos, hr, _, _⟩ :=
    Autocomplete_placeable_steps (freshContig name ms) c' out rfl rfl h hp
  obtain ⟨lo, hi, hc', hcase⟩ := CalculateRange_of_positioned c4 c' hpos hr
  subst hc'
  refine ⟨lo, hi, rfl, ?_⟩
  rcases hcase with ⟨h1, _, hhi⟩ | ⟨_, hh, hl⟩
  · refine ⟨by rw [hhi], ?_⟩
    rintro ⟨a, ha, b, hb, hab⟩
    exact absurd (genPos_eq_of_count_one c4.Markers h1 a ha b hb) hab
  · have hs := goSort_sorted (fun m : Marker => m.GenPos) (paddedTop c4)
    obtain ⟨hlo, hhi, hall⟩ :=
      sorted_ends (fun m : Marker => m.GenPos) (goSort ByGenPos (paddedTop c4)) lo hi hs hh hl
    have hperm := goSort_perm ByGenPos (paddedTop c4)
    refine ⟨(hall hi hhi).1, fun _ => ?_⟩
    have hpt : paddedTop { c4 with Range := (some lo, some hi) } = paddedTop c4 := rfl
    rw [hpt]
    exact ⟨hperm.mem_iff.1 hlo, hperm.mem_iff.1 hhi,
      fun m hm => hall m (hperm.mem_iff.2 hm)⟩

theorem Autocomplete_range_witness :
    ∃ out c', rangeExample.Autocomplete = .ok (out, c') ∧ c'.Placeable = true ∧
      (∃ a ∈ c'.Markers, ∃ b ∈ c'.Markers, a.GenPos ≠ b.GenPos) ∧
      ∃ lo hi, c'.Range = (some lo, some hi) ∧ lo.GenPos ≤ hi.GenPos ∧
        ((∃ a ∈ c'.Markers, ∃ b ∈ c'.Markers, a.GenPos ≠ b.GenPos) →
          lo ∈ paddedTop c' ∧ hi ∈ paddedTop c' ∧
          ∀ m ∈ paddedTop c', lo.GenPos ≤ m.GenPos ∧ m.GenPos ≤ hi.GenPos) :=
  ⟨_, _, rfl, rfl, by decide,
    Autocomplete_range "ctg1"
      [ mkMarker "m1" 10 100 3 "LG1" "ctg1", mkMarker "m2" 20 200 3 "LG1" "ctg1",
        mkMarker "m3" 30 300 1 "LG1" "ctg1" ] _ _ rfl rfl⟩

theorem weightedPosSum_of_same (l : List Marker) (g : Nat) (h : ∀ m ∈ l, m.GenPos = g) :
    weightedPosSum l = weightSum l * g := by
  induction l with
  | nil => simp [weightedPosSum, weightSum]
  | cons m ms ih =>
    have hm : m.GenPos = g := h m (List.mem_cons_self _ _)
    have ih' := ih (fun x hx => h x (List.mem_cons_of_mem _ hx))
    unfold weightedPosSum weightSum at ih' ⊢
    simp only [List.map_cons, List.sum_cons, ih', hm, Nat.add_mul]

theorem posOf_of_same (c : Contig) (g : Nat) (hg : ∀ m ∈ lgMarkers c, m.GenPos = g)
    (hno : weightedPosSum (lgMarkers c) < U64) (hw : weightSum (lgMarkers c) % U64 ≠ 0) :
    posOf c = g := by
  unfold posOf
  have hsum := weightedPosSum_of_same _ g hg
  have hW : 0 < weightSum (lgMarkers c) := by
    rcases Nat.eq_zero_or_pos (weightSum (lgMarkers c)) with h0 | h0
    · rw [h0] at hw
      exact absurd (Nat.zero_mod _) hw
    · exact h0
  rcases Nat.eq_zero_or_pos g with h0 | h0
  · rw [hsum, h0]
    simp
  · have hlt : weightSum (lgMarkers c) < U64 := by
      have : weightSum (lgMarkers c) * 1 ≤ weightSum (lgMarkers c) * g :=
        Nat.mul_le_mul_left _ h0
      rw [hsum] at hno
      omega
    rw [Nat.mod_eq_of_lt hno, Nat.mod_eq_of_lt hlt, hsum]
    exact Nat.mul_div_cancel_left g hW

theorem Top_subset_lgMarkers (c : Contig) (hs : Settled c) : ∀ m ∈ c.Top, m ∈ lgMarkers c := by
  intro m hm
  by_cases hl : c.LG = ""
  · rcases hs with hs | hs
    · exact absurd hl hs
    · have hmm := Top_mem_markers c m hm
      have hlg : m.LG = "" := by
        rcases (assignLoop_empty _ _ hs).1 m hm with h | h
        · exact h
        · exact h
      unfold lgMarkers
      exact List.mem_filter.2 ⟨hmm, by simp [hlg, hl]⟩
  · have := Top_subset c m hm
    unfold topCandidates at this
    simpa [hl] using this

/-- C10, as stated, fails: the computed position is a `uint64` quotient. The
only `LG1` marker sits at `2 ^ 63` with weight 2, the product wraps to 0, the
contig gets `GenPos == 0`, and the range runs from the synthetic marker at 0
to the marker at `2 ^ 63`. -/
theorem Autocomplete_zero_width_counterexample :
    ∃ out c' lo hi, posOverflowExample.Autocomplete = .ok (out, c') ∧
      c'.Placeable = true ∧ (∀ m ∈ lgMarkers c', m.GenPos = 2 ^ 63) ∧
      c'.Range = (some lo, some hi) ∧ lo.GenPos = 0 ∧ hi.GenPos = 2 ^ 63 ∧
      lo.GenPos ≠ hi.GenPos :=
  ⟨_, _, _, _, rfl, rfl, by decide, rfl, rfl, rfl, by decide⟩

/-- C10, amended. For a freshly constructed contig on which `Autocomplete`
finishes leaving it placeable, if all markers whose `LG` equals the contig's
assigned `LG` share one `GenPos` value and the sum of `Weight * GenPos` over
them is below `2 ^ 64`, then the range has zero width, whatever the positions
of the markers of other linkage groups. -/
theorem Autocomplete_zero_width (name : String) (ms : List Marker) (out : String)
    (c' : Contig) (g : Nat)
    (h : (freshContig name ms).Autocomplete = .ok (out, c')) (hp : c'.Placeable = true)
    (hg : ∀ m ∈ lgMarkers c', m.GenPos = g)
    (hno : weightedPosSum (lgMarkers c') < U64) :
    ∃ lo hi, c'.Range = (some lo, some hi) ∧ lo.GenPos = hi.GenPos := by
  obtain ⟨c4, hpos, hr, _, _⟩ :=
    Autocomplete_placeable_steps (freshContig name ms) c' out rfl rfl h hp
  obtain ⟨lo, hi, hc', hcase⟩ := CalculateRange_of_positioned c4 c' hpos hr
  subst hc'
  have hg4 : ∀ m ∈ lgMarkers c4, m.GenPos = g := hg
  have hno4 : weightedPosSum (lgMarkers c4) < U64 := hno
  refine ⟨lo, hi, rfl, ?_⟩
  rcases hcase with ⟨_, _, hhi⟩ | ⟨_, hh, hl⟩
  · rw [hhi]
  · have hgen : c4.GenPos = g := by
      rw [hpos.2.2.2]
      exact posOf_of_same c4 g hg4 hno4 hpos.2.2.1
    have hpad : ∀ m ∈ paddedTop c4, m.GenPos = g := by
      intro m hm
      unfold paddedTop at hm
      split at hm
      · rcases List.mem_append.1 hm with hm | hm
        · exact hg4 m (Top_subset_lgMarkers c4 hpos.2.1 m hm)
        · rw [List.mem_singleton.1 hm]
          exact hgen
      · exact hg4 m (Top_subset_lgMarkers c4 hpos.2.1 m hm)
    have hperm := goSort_perm ByGenPos (paddedTop c4)
    have hlo : lo ∈ goSort ByGenPos (paddedTop c4) :=
      List.mem_of_mem_head? (by rw [hh]; exact rfl)
    have hhi : hi ∈ goSort ByGenPos (paddedTop c4) := List.mem_of_getLast?_eq_some hl
    rw [hpad lo (hperm.mem_iff.1 hlo), hpad hi (hperm.mem_iff.1 hhi)]

theorem Autocomplete_zero_width_witness :
    ∃ out c', zeroWidthExample.Autocomplete = .ok (out, c') ∧ c'.Placeable = true ∧
      (∀ m ∈ lgMarkers c', m.GenPos = 100) ∧ weightedPosSum (lgMarkers c') < U64 ∧
      ∃ lo hi, c'.Range = (some lo, some hi) ∧ lo.GenPos = hi.GenPos :=
  ⟨_, _, rfl, rfl, by decide, by decide,
    Autocomplete_zero_width "ctg1"
      [ mkMarker "m1" 10 100 3 "LG1" "ctg1", mkMarker "m2" 20 100 2 "LG1" "ctg1",
        mkMarker "m3" 30 900 1 "LG2" "ctg1" ] _ _ 100 rfl rfl (by decide) (by decide)⟩

/-! ## filterContigs and its total form -/

theorem derefGenPos_lo (c : Contig) (v : Nat) (h : derefGenPos c.Range.1 = .ok v) :
    v = loOf c := by
  unfold derefGenPos at h
  unfold loOf
  cases hr : c.Range.1 with
  | none => rw [hr] at h; simp at h
  | some m => rw [hr] at h; simp only [Except.ok.injEq] at h; exact h.symm

theorem derefGenPos_hi (c : Contig) (v : Nat) (h : derefGenPos c.Range.2 = .ok v) :
    v = hiOf c := by
  unfold derefGenPos at h
  unfold hiOf
  cases hr : c.Range.2 with
  | none => rw [hr] at h; simp at h
  | some m => rw [hr] at h; simp only [Except.ok.injEq] at h; exact h.symm

theorem derefGenPos_lo_of_set (c : Contig) (h : c.Range.1 ≠ none) :
    derefGenPos c.Range.1 = .ok (loOf c) := by
  unfold derefGenPos loOf
  cases hr : c.Range.1 with
  | none => exact absurd hr h
  | some m => rfl

theorem derefGenPos_hi_of_set (c : Contig) (h : c.Range.2 ≠ none) :
    derefGenPos c.Range.2 = .ok (hiOf c) := by
  unfold derefGenPos hiOf
  cases hr : c.Range.2 with
  | none => exact absurd hr h
  | some m => rfl

/-- A loop that returns gives the result of the loop over the total step. -/
theorem foldE_eq_foldl {σ α : Type} (f : σ → α → Except Fault σ) (g : σ → α → σ)
    (hfg : ∀ s x s', f s x = .ok s' → s' = g s x) (l : List α) (s s' : σ)
    (h : foldE f s l = .ok s') : s' = l.foldl g s := by
  induction l generalizing s with
  | nil =>
    simp only [foldE, Except.ok.injEq] at h
    exact h.symm
  | cons x xs ih =>
    unfold foldE at h
    cases hx : f s x with
    | error e => rw [hx] at h; simp at h
    | ok s1 =>
      rw [hx] at h
      simp only at h
      rw [List.foldl_cons, ← hfg s x s1 hx]
      exact ih s1 h

/-- A loop whose step returns as long as an invariant holds returns. -/
theorem foldE_ok_of_inv {σ α : Type} (f : σ → α → Except Fault σ) (g : σ → α → σ)
    (P : σ → Prop) (l : List α)
    (hstep : ∀ s x, P s → x ∈ l → f s x = .ok (g s x) ∧ P (g s x)) (s : σ) (hs : P s) :
    foldE f s l = .ok (l.foldl g s) ∧ P (l.foldl g s) := by
  induction l generalizing s with
  | nil => exact ⟨rfl, hs⟩
  | cons x xs ih =>
    obtain ⟨h1, h2⟩ := hstep s x hs (List.mem_cons_self _ _)
    unfold foldE
    rw [h1]
    simp only [List.foldl_cons]
    exact ih (fun s y hp hy => hstep s y hp (List.mem_cons_of_mem _ hy)) (g s x) h2

theorem bubbleE_eq_bubble {α : Type} (less : α → α → Except Fault Bool) (lt : α → α → Bool)
    (hl : ∀ a b v, less a b = .ok v → v = lt a b) (x : α) (l r : List α)
    (h : bubbleE less x l = .ok r) : r = bubble lt x l := by
  induction l generalizing r with
  | nil =>
    simp only [bubbleE, Except.ok.injEq] at h
    simp [bubble, h]
  | cons y ys ih =>
    unfold bubbleE at h
    unfold bubble
    cases hxy : less x y with
    | error e => rw [hxy] at h; simp at h
    | ok b =>
      have hb := hl x y b hxy
      rw [hxy] at h
      cases b with
      | true =>
        simp only at h
        cases hr : bubbleE less x ys with
        | error e => rw [hr] at h; simp at h
        | ok r' =>
          rw [hr] at h
          simp only [Except.ok.injEq] at h
          rw [← hb, if_pos rfl, ← h, ih r' hr]
      | false =>
        simp only [Except.ok.injEq] at h
        rw [← hb, ← h]
        simp

theorem goSortE_eq_goSort {α : Type} (less : α → α → Except Fault Bool) (lt : α → α → Bool)
    (hl : ∀ a b v, less a b = .ok v → v = lt a b) (l r : List α)
    (h : goSortE less l = .ok r) : r = goSort lt l := by
  unfold goSortE at h
  unfold goSort
  cases hf : foldE (fun revPrefix x => bubbleE less x revPrefix) [] l with
  | error e => rw [hf] at h; simp at h
  | ok r' =>
    rw [hf] at h
    simp only [Except.ok.injEq] at h
    rw [← h, foldE_eq_foldl _ (fun revPrefix x => bubble lt x revPrefix)
      (fun s x s' hs => bubbleE_eq_bubble less lt hl x s s' hs) l [] r' hf]

theorem bubbleE_ok {α : Type} (less : α → α → Except Fault Bool) (lt : α → α → Bool)
    (P : α → Prop) (hl : ∀ a b, P a → P b → less a b = .ok (lt a b)) (x : α) (l : List α)
    (hx : P x) (hP : ∀ a ∈ l, P a) : bubbleE less x l = .ok (bubble lt x l) := by
  induction l with
  | nil => rfl
  | cons y ys ih =>
    unfold bubbleE bubble
    rw [hl x y hx (hP y (List.mem_cons_self _ _))]
    cases hb : lt x y with
    | true =>
      simp only [if_true]
      rw [ih (fun a ha => hP a (List.mem_cons_of_mem _ ha))]
    | false => simp

theorem goSortE_ok {α : Type} (less : α → α → Except Fault Bool) (lt : α → α → Bool)
    (P : α → Prop) (hl : ∀ a b, P a → P b → less a b = .ok (lt a b)) (l : List α)
    (hP : ∀ a ∈ l, P a) : goSortE less l = .ok (goSort lt l) := by
  unfold goSortE goSort
  have := foldE_ok_of_inv (fun revPrefix x => bubbleE less x revPrefix)
    (fun revPrefix x => bubble lt x revPrefix) (fun acc => ∀ a ∈ acc, P a) l
    (fun s x hs hx => by
      refine ⟨bubbleE_ok less lt P hl x s (hP x hx) hs, ?_⟩
      intro a ha
      rcases List.mem_cons.1 ((bubble_perm lt x s).mem_iff.1 ha) with rfl | ha
      · exact hP _ hx
      · exact hs a ha)
    [] (by simp)
  rw [this.1]

theorem Less3_eq_lessP (p q : Contig) (v : Bool)
    (h : multiSorter.Less [decWeight, maxRange, name] p q = .ok v) : v = lessP p q := by
  unfold multiSorter.Less at h
  unfold lessP
  simp only [decWeight] at h
  by_cases h1 : p.AvgWeight > q.AvgWeight
  · simp only [h1, decide_True, Except.ok.injEq] at h
    simp [h1, ← h]
  · simp only [h1, decide_False] at h
    by_cases h2 : q.AvgWeight > p.AvgWeight
    · simp only [h2, decide_True, Except.ok.injEq] at h
      have h3 : ¬ p.AvgWeight = q.AvgWeight := by omega
      simp [h1, h3, ← h]
    · simp only [h2, decide_False] at h
      have h3 : p.AvgWeight = q.AvgWeight := by omega
      unfold multiSorter.Less at h
      unfold maxRange at h
      cases hp : derefGenPos p.Range.2 with
      | error e => rw [hp] at h; simp at h
      | ok g =>
        rw [hp] at h
        simp only [gt_iff_lt, lt_self_iff_false, decide_False] at h
        cases hq : derefGenPos q.Range.2 with
        | error e => rw [hq] at h; simp at h
        | ok g' =>
          rw [hq] at h
          simp only [multiSorter.Less, name, Except.ok.injEq] at h
          simp [h1, h3, ← h]

theorem Less3_ok (p q : Contig) (hp : p.Range.2 ≠ none) (hq : q.Range.2 ≠ none) :
    multiSorter.Less [decWeight, maxRange, name] p q = .ok (lessP p q) := by
  cases h : multiSorter.Less [decWeight, maxRange, name] p q with
  | ok v => rw [Less3_eq_lessP p q v h]
  | error e =>
    exfalso
    unfold multiSorter.Less at h
    simp only [decWeight] at h
    by_cases h1 : p.AvgWeight > q.AvgWeight
    · simp [h1] at h
    · simp only [h1, decide_False] at h
      by_cases h2 : q.AvgWeight > p.AvgWeight
      · simp [h2] at h
      · simp only [h2, decide_False] at h
        unfold multiSorter.Less at h
        unfold maxRange at h
        rw [derefGenPos_hi_of_set p hp, derefGenPos_hi_of_set q hq] at h
        simp [multiSorter.Less, name] at h

theorem innerStep_eq (group : String) (i : Nat) (st st' : FilterState) (c : Contig)
    (h : innerStep group i st c = .ok st') : st' = innerStepP group i st c := by
  unfold innerStep at h
  unfold innerStepP
  by_cases hb : c.Placeable = false ∨ c.LG ≠ group
  · have hb' : isBad group c := hb
    rw [if_pos hb] at h
    rw [if_pos hb']
    simp only [Except.ok.injEq] at h
    exact h.symm
  · have hb' : ¬ isBad group c := hb
    rw [if_neg hb] at h
    rw [if_neg hb']
    cases hhi : derefGenPos c.Range.2 with
    | error e => rw [hhi] at h; simp at h
    | ok hi =>
      cases hlo : derefGenPos c.Range.1 with
      | error e => rw [hhi, hlo] at h; simp at h
      | ok lo =>
        rw [hhi, hlo] at h
        simp only at h
        have e1 := derefGenPos_hi c hi hhi
        have e2 := derefGenPos_lo c lo hlo
        subst e1 e2
        by_cases hz : hiOf c = loOf c
        · rw [if_pos hz] at h ⊢
          simp only [Except.ok.injEq] at h
          exact h.symm
        · rw [if_neg hz] at h ⊢
          by_cases hd : st.tmpContig.Name = "dummy"
          · rw [if_pos hd] at h ⊢
            simp only [Except.ok.injEq] at h
            exact h.symm
          · rw [if_neg hd] at h ⊢
            by_cases hw : st.tmpContig.AvgWeight = c.AvgWeight
            · rw [if_pos hw] at h
              cases ht : derefGenPos st.tmpContig.Range.2 with
              | error e => rw [ht] at h; simp at h
              | ok thi =>
                rw [ht] at h
                simp only at h
                have e3 := derefGenPos_hi st.tmpContig thi ht
                subst e3
                by_cases hh : hiOf st.tmpContig = hiOf c
                · rw [if_pos hh] at h
                  rw [if_pos ⟨hw, hh⟩]
                  simp only [Except.ok.injEq] at h
                  exact h.symm
                · rw [if_neg hh] at h
                  rw [if_neg (fun hc => hh hc.2)]
                  simp only [Except.ok.injEq] at h
                  exact h.symm
            · rw [if_neg hw] at h
              rw [if_neg (fun hc => hw hc.1)]
              simp only [Except.ok.injEq] at h
              exact h.symm

theorem innerStep_ok (group : String) (i : Nat) (st : FilterState) (c : Contig)
    (hc : rangeSet c) (ht : st.tmpContig.Range.2 ≠ none) :
    innerStep group i st c = .ok (innerStepP group i st c) := by
  cases h : innerStep group i st c with
  | ok st' => rw [innerStep_eq group i st st' c h]
  | error e =>
    exfalso
    unfold innerStep at h
    rw [derefGenPos_hi_of_set c hc.2, derefGenPos_lo_of_set c hc.1,
      derefGenPos_hi_of_set _ ht] at h
    simp only at h
    repeat' split at h
    all_goals simp at h

theorem crossStep_eq (st st' : FilterState) (h : crossStep st = .ok st') :
    st' = crossStepP st := by
  unfold crossStep at h
  unfold crossStepP
  by_cases hd : st.tmpContig.Name = "dummy"
  · rw [if_pos hd] at h ⊢
    simp only [Except.ok.injEq] at h
    exact h.symm
  · rw [if_neg hd] at h ⊢
    cases hhi : derefGenPos st.tmpContig.Range.2 with
    | error e => rw [hhi] at h; simp at h
    | ok thi =>
      cases hci : derefGenPos st.contig.Range.2 with
      | error e => rw [hhi, hci] at h; simp at h
      | ok chi =>
        rw [hhi, hci] at h
        simp only at h
        have e1 := derefGenPos_hi _ thi hhi
        have e2 := derefGenPos_hi _ chi hci
        subst e1 e2
        simp only [ne_eq, hd, not_false_eq_true, if_true] at h
        by_cases h2 : hiOf st.tmpContig > hiOf st.contig
        · rw [if_pos h2] at h ⊢
          simp only [Except.ok.injEq] at h
          exact h.symm
        · rw [if_neg h2] at h ⊢
          by_cases h3 : st.tmpContig.AvgWeight < st.contig.AvgWeight
          · rw [if_pos h3] at h ⊢
            simp only [Except.ok.injEq] at h
            exact h.symm
          · rw [if_neg h3] at h ⊢
            by_cases h4 : st.tmpContig.AvgWeight > st.contig.AvgWeight
            · rw [if_pos h4] at h ⊢
              simp only [Except.ok.injEq] at h
              exact h.symm
            · rw [if_neg h4] at h ⊢
              have h5 : st.tmpContig.AvgWeight = st.contig.AvgWeight := by omega
              rw [if_pos h5] at h
              simp only [Except.ok.injEq] at h
              exact h.symm

theorem crossStep_ok (st : FilterState) (ht : st.tmpContig.Range.2 ≠ none)
    (hc : st.contig.Range.2 ≠ none) : crossStep st = .ok (crossStepP st) := by
  cases h : crossStep st with
  | ok st' => rw [crossStep_eq st st' h]
  | error e =>
    exfalso
    unfold crossStep at h
    rw [derefGenPos_hi_of_set _ ht, derefGenPos_hi_of_set _ hc] at h
    simp only at h
    repeat' split at h
    all_goals simp at h

/-! ## The buckets of buildMap -/

theorem bucketOf_nil (k : Nat) : bucketOf [] k = [] := rfl

theorem bucketOf_cons (e : Nat × List Contig) (M : List (Nat × List Contig)) (k : Nat) :
    bucketOf (e :: M) k = if e.1 = k then e.2 else bucketOf M k := by
  unfold bucketOf
  by_cases h : e.1 = k
  · simp [List.find?_cons, h]
  · simp [List.find?_cons, h]

theorem bucketOf_bucketAppend (M : List (Nat × List Contig)) (k k' : Nat) (c : Contig) :
    bucketOf (bucketAppend M k c) k' =
      if k' = k then bucketOf M k ++ [c] else bucketOf M k' := by
  induction M with
  | nil =>
    simp only [bucketAppend, bucketOf_cons, bucketOf_nil, List.nil_append]
    by_cases h : k = k'
    · simp [h]
    · have h' : ¬ k' = k := fun hh => h hh.symm
      simp [h, h']
  | cons e M ih =>
    obtain ⟨k0, b⟩ := e
    unfold bucketAppend
    by_cases h0 : k0 = k
    · simp only [h0, if_true, bucketOf_cons]
      by_cases h : k = k'
      · simp [h]
      · have h' : ¬ k' = k := fun hh => h hh.symm
        simp [h, h']
    · simp only [h0, if_false, bucketOf_cons, ih]
      by_cases h : k0 = k'
      · have h' : ¬ k' = k := fun hh => h0 (h.trans hh)
        simp [h, h']
      · simp [h]

theorem keys_bucketAppend (M : List (Nat × List Contig)) (k : Nat) (c : Contig) :
    (bucketAppend M k c).map (fun e => e.1) =
      if k ∈ M.map (fun e => e.1) then M.map (fun e => e.1)
      else M.map (fun e => e.1) ++ [k] := by
  induction M with
  | nil => simp [bucketAppend]
  | cons e M ih =>
    obtain ⟨k0, b⟩ := e
    unfold bucketAppend
    by_cases h0 : k0 = k
    · simp [h0]
    · have h0' : ¬ k = k0 := fun hh => h0 hh.symm
      simp only [h0, if_false, List.map_cons, ih, List.mem_cons, h0', false_or]
      split <;> simp

theorem bucketOf_foldl (key : Contig → Nat) (cs : List Contig) (M : List (Nat × List Contig))
    (k : Nat) :
    bucketOf (cs.foldl (fun M c => bucketAppend M (key c) c) M) k =
      bucketOf M k ++ cs.filter (fun c => decide (key c = k)) := by
  induction cs generalizing M with
  | nil => simp
  | cons c cs ih =>
    simp only [List.foldl_cons, ih, bucketOf_bucketAppend]
    by_cases h : key c = k
    · simp [List.filter_cons, h]
    · have h' : ¬ k = key c := fun hh => h hh.symm
      simp [List.filter_cons, h, h']

theorem keys_foldl (key : Contig → Nat) (cs : List Contig) (M : List (Nat × List Contig))
    (hM : (M.map (fun e => e.1)).Nodup) :
    ((cs.foldl (fun M c => bucketAppend M (key c) c) M).map (fun e => e.1)).Nodup ∧
    ∀ k, k ∈ (cs.foldl (fun M c => bucketAppend M (key c) c) M).map (fun e => e.1) ↔
      (k ∈ M.map (fun e => e.1) ∨ ∃ c ∈ cs, key c = k) := by
  induction cs generalizing M with
  | nil => simp [hM]
  | cons c cs ih =>
    simp only [List.foldl_cons]
    have hM' : ((bucketAppend M (key c) c).map (fun e => e.1)).Nodup := by
      rw [keys_bucketAppend]
      split
      · exact hM
      · rename_i hk
        exact List.Nodup.append hM (List.nodup_singleton _)
          (by simpa [List.disjoint_singleton] using hk)
    obtain ⟨h1, h2⟩ := ih _ hM'
    refine ⟨h1, fun k => ?_⟩
    rw [h2, keys_bucketAppend]
    constructor
    · rintro (h | ⟨x, hx, hxk⟩)
      · split at h
        · exact Or.inl h
        · rcases List.mem_append.1 h with h | h
          · exact Or.inl h
          · exact Or.inr ⟨c, List.mem_cons_self _ _, (List.mem_singleton.1 h).symm⟩
      · exact Or.inr ⟨x, List.mem_cons_of_mem _ hx, hxk⟩
    · rintro (h | ⟨x, hx, hxk⟩)
      · left
        split
        · exact h
        · exact List.mem_append_left _ h
      · rcases List.mem_cons.1 hx with rfl | hx
        · left
          split
          · rename_i hk
            rw [← hxk]
            exact hk
          · rw [← hxk]
            exact List.mem_append_right _ (List.mem_singleton_self _)
        · exact Or.inr ⟨x, hx, hxk⟩

/-- The bucket of a key holds the contigs with that key, in enumeration order. -/
theorem bucketOf_buildMapP (filtered : Bool) (cs : List Contig) (k : Nat) :
    bucketOf (buildMapP filtered cs) k = cs.filter (fun c => decide (keyOf filtered c = k)) := by
  unfold buildMapP
  rw [bucketOf_foldl (keyOf filtered) cs [] k]
  simp [bucketOf_nil]

/-- The keys of the buckets are pairwise distinct and are the keys of the
contigs. -/
theorem keys_buildMapP (filtered : Bool) (cs : List Contig) :
    ((buildMapP filtered cs).map (fun e => e.1)).Nodup ∧
    ∀ k, k ∈ (buildMapP filtered cs).map (fun e => e.1) ↔ ∃ c ∈ cs, keyOf filtered c = k := by
  unfold buildMapP
  obtain ⟨h1, h2⟩ := keys_foldl (keyOf filtered) cs [] (by simp)
  refine ⟨h1, fun k => ?_⟩
  rw [h2]
  simp

theorem buildMap_eq (CM : ContigMap) (d : List (Nat × List Contig))
    (h : CM.buildMap = .ok d) : d = buildMapP CM.Filtered CM.Contigs := by
  unfold ContigMap.buildMap at h
  unfold buildMapP
  by_cases hf : CM.Filtered = false
  · rw [if_pos hf] at h
    rw [hf]
    refine foldE_eq_foldl _ _ ?_ _ _ _ h
    intro M c M' hs
    cases hd : derefGenPos c.Range.1 with
    | error e => rw [hd] at hs; simp at hs
    | ok v =>
      rw [hd] at hs
      simp only [Except.ok.injEq] at hs
      rw [← hs, derefGenPos_lo c v hd]
      simp [keyOf]
  · rw [if_neg hf] at h
    have hf' : CM.Filtered = true := by simpa using hf
    rw [hf']
    refine foldE_eq_foldl _ _ ?_ _ _ _ h
    intro M c M' hs
    simp only [Except.ok.injEq] at hs
    rw [← hs]
    simp [keyOf]

theorem buildMap_ok (CM : ContigMap)
    (hr : CM.Filtered = false → ∀ c ∈ CM.Contigs, c.Range.1 ≠ none) :
    CM.buildMap = .ok (buildMapP CM.Filtered CM.Contigs) := by
  unfold ContigMap.buildMap buildMapP
  by_cases hf : CM.Filtered = false
  · rw [if_pos hf, hf]
    refine (foldE_ok_of_inv _ (fun M c => bucketAppend M (keyOf false c) c) (fun _ => True)
      CM.Contigs ?_ [] trivial).1
    intro M c _ hc
    rw [derefGenPos_lo_of_set c (hr hf c hc)]
    simp [keyOf]
  · rw [if_neg hf]
    have hf' : CM.Filtered = true := by simpa using hf
    rw [hf']
    refine (foldE_ok_of_inv _ (fun M c => bucketAppend M (keyOf true c) c) (fun _ => True)
      CM.Contigs ?_ [] trivial).1
    intro M c _ _
    simp [keyOf]

theorem bucketStep_eq (group : String) (d : List (Nat × List Contig)) (st st' : FilterState)
    (i : Nat) (h : bucketStep group d st i = .ok st') : st' = bucketStepP group d st i := by
  unfold bucketStep at h
  unfold bucketStepP innerLoopP
  cases hs : OrderedBy [decWeight, maxRange, name] (bucketOf d i) with
  | error e => rw [hs] at h; simp at h
  | ok l =>
    rw [hs] at h
    simp only at h
    have hl : l = goSort lessP (bucketOf d i) :=
      goSortE_eq_goSort _ lessP Less3_eq_lessP _ _ hs
    cases hf : foldE (innerStep group i) { st with tmpContig := dummyContig i } l with
    | error e => rw [hf] at h; simp at h
    | ok st1 =>
      rw [hf] at h
      simp only at h
      have h1 := foldE_eq_foldl _ (innerStepP group i)
        (fun s x s' hs => innerStep_eq group i s s' x hs) _ _ _ hf
      rw [crossStep_eq st1 st' h, h1, hl]

theorem innerStepP_range (group : String) (i : Nat) (st : FilterState) (c : Contig)
    (hc : c.Range.2 ≠ none) (ht : st.tmpContig.Range.2 ≠ none) :
    (innerStepP group i st c).tmpContig.Range.2 ≠ none ∧
    (innerStepP group i st c).contig = st.contig := by
  unfold innerStepP
  repeat' split
  all_goals first
    | exact ⟨ht, rfl⟩
    | exact ⟨hc, rfl⟩
    | exact ⟨by simp [dummyContig], rfl⟩

theorem crossStepP_contig (st : FilterState) :
    (crossStepP st).contig = st.contig ∨ (crossStepP st).contig = st.tmpContig := by
  unfold crossStepP
  repeat' split
  all_goals first
    | exact Or.inl rfl
    | exact Or.inr rfl

theorem bucketStep_ok (group : String) (d : List (Nat × List Contig)) (st : FilterState)
    (i : Nat) (hb : ∀ c ∈ bucketOf d i, rangeSet c) (hc : st.contig.Range.2 ≠ none) :
    bucketStep group d st i = .ok (bucketStepP group d st i) ∧
    (bucketStepP group d st i).contig.Range.2 ≠ none := by
  have hsort : OrderedBy [decWeight, maxRange, name] (bucketOf d i) =
      .ok (goSort lessP (bucketOf d i)) :=
    goSortE_ok _ lessP (fun c => c.Range.2 ≠ none) Less3_ok _ (fun c hc => (hb c hc).2)
  have hmem : ∀ c ∈ goSort lessP (bucketOf d i), rangeSet c :=
    fun c hc => hb c ((goSort_perm lessP _).mem_iff.1 hc)
  have hloop := foldE_ok_of_inv (innerStep group i) (innerStepP group i)
    (fun s => s.tmpContig.Range.2 ≠ none ∧ s.contig = st.contig)
    (goSort lessP (bucketOf d i))
    (fun s c hs hcl => by
      refine ⟨innerStep_ok group i s c (hmem c hcl) hs.1, ?_⟩
      obtain ⟨h1, h2⟩ := innerStepP_range group i s c (hmem c hcl).2 hs.1
      exact ⟨h1, h2.trans hs.2⟩)
    { st with tmpContig := dummyContig i } ⟨by simp [dummyContig], rfl⟩
  obtain ⟨hl1, hl2, hl3⟩ := hloop
  have hcross := crossStep_ok _ hl2 (by rw [hl3]; exact hc)
  constructor
  · unfold bucketStep
    rw [hsort]
    simp only
    rw [hl1]
    simp only
    rw [hcross]
    rfl
  · unfold bucketStepP innerLoopP
    rcases crossStepP_contig
      ((goSort lessP (bucketOf d i)).foldl (innerStepP group i)
        { st with tmpContig := dummyContig i }) with h | h
    · rw [h, hl3]; exact hc
    · rw [h]; exact hl2

/-- Whenever `filterContigs` returns, it returns the result of its total
form. -/
theorem filterContigs_eq (CM : ContigMap) (r : Nat × ContigMap)
    (h : CM.filterContigs = .ok r) : r = filterP CM := by
  unfold ContigMap.filterContigs at h
  unfold filterP filterLoopP
  cases hd : CM.buildMap with
  | error e => rw [hd] at h; simp at h
  | ok d =>
    rw [hd] at h
    simp only at h
    have hd' := buildMap_eq CM d hd
    subst hd'
    cases hf : foldE (bucketStep CM.Name (buildMapP CM.Filtered CM.Contigs))
        { Contigs := CM.Contigs, out := 0, tmpContig := initialContig,
          contig := initialContig }
        (goSort Uintarr ((buildMapP CM.Filtered CM.Contigs).map (fun e => e.1))) with
    | error e => rw [hf] at h; simp at h
    | ok st =>
      rw [hf] at h
      simp only [Except.ok.injEq] at h
      have hst := foldE_eq_foldl _ (bucketStepP CM.Name (buildMapP CM.Filtered CM.Contigs))
        (fun s x s' hs => bucketStep_eq CM.Name _ s s' x hs) _ _ _ hf
      rw [← h, hst]
      rfl

/-- When every contig of the group has both range endpoints set,
`filterContigs` returns. -/
theorem filterContigs_ok (CM : ContigMap) (hr : ∀ c ∈ CM.Contigs, rangeSet c) :
    CM.filterContigs = .ok (filterP CM) := by
  have hd := buildMap_ok CM (fun _ c hc => (hr c hc).1)
  have hloop := foldE_ok_of_inv (bucketStep CM.Name (buildMapP CM.Filtered CM.Contigs))
    (bucketStepP CM.Name (buildMapP CM.Filtered CM.Contigs))
    (fun s => s.contig.Range.2 ≠ none)
    (goSort Uintarr ((buildMapP CM.Filtered CM.Contigs).map (fun e => e.1)))
    (fun s i hs _ => by
      refine bucketStep_ok CM.Name _ s i ?_ hs
      intro c hc
      rw [bucketOf_buildMapP] at hc
      exact hr c (List.mem_filter.1 hc).1)
    (initialState CM.Contigs) (by simp [initialState, initialContig])
  unfold ContigMap.filterContigs
  rw [hd]
  simp only
  have hl := hloop.1
  unfold initialState at hl
  rw [hl]
  rfl

/-! ## The ordering of a bucket -/

/-- C20, as stated, fails: `maxRange` reads `c1.Range[1].GenPos`, so for two
contigs of equal weight whose range is not set it stops with a nil
dereference, and so does the three-key ordering, while the ordering by
weight and name decides the pair. -/
theorem maxRange_nil_counterexample :
    maxRange unrangedExample.1 unrangedExample.2 = .error .nilDereference ∧
    multiSorter.Less [decWeight, maxRange, name] unrangedExample.1 unrangedExample.2 =
      .error .nilDereference ∧
    multiSorter.Less [decWeight, name] unrangedExample.1 unrangedExample.2 = .ok true := by
  have h : "ctg1" < "ctg2" := by
    rw [String.lt_iff_toList_lt]
    decide
  refine ⟨rfl, rfl, ?_⟩
  simp [multiSorter.Less, decWeight, name, unrangedExample, NewContig, h]

/-- C20, amended. For contigs whose `Range[1]` is set, `maxRange(c1, c2)` is
false, and `OrderedBy(decWeight, maxRange, name)` decides the pair exactly as
`OrderedBy(decWeight, name)` does: average weight descending, then name
ascending. -/
theorem maxRange_noop (p q : Contig) (hp : p.Range.2 ≠ none) (hq : q.Range.2 ≠ none) :
    maxRange p q = .ok false ∧
    multiSorter.Less [decWeight, maxRange, name] p q =
      multiSorter.Less [decWeight, name] p q ∧
    multiSorter.Less [decWeight, name] p q = .ok (lessP p q) := by
  have h2 : multiSorter.Less [decWeight, name] p q = .ok (lessP p q) := by
    unfold multiSorter.Less lessP
    simp only [decWeight]
    by_cases h1 : p.AvgWeight > q.AvgWeight
    · simp [h1]
    · by_cases h2 : q.AvgWeight > p.AvgWeight
      · have h3 : ¬ p.AvgWeight = q.AvgWeight := by omega
        simp [h1, h2, h3]
      · have h3 : p.AvgWeight = q.AvgWeight := by omega
        simp [h1, h2, h3, multiSorter.Less, name]
  refine ⟨?_, ?_, h2⟩
  · unfold maxRange
    rw [derefGenPos_hi_of_set p hp]
    simp
  · rw [h2]
    exact Less3_ok p q hp hq

theorem maxRange_noop_witness :
    (mkContig "ctg1" 1 10 5 3 "LG1").Range.2 ≠ none ∧
    (mkContig "ctg2" 2 9 5 4 "LG1").Range.2 ≠ none ∧
    maxRange (mkContig "ctg1" 1 10 5 3 "LG1") (mkContig "ctg2" 2 9 5 4 "LG1") = .ok false ∧
    multiSorter.Less [decWeight, maxRange, name] (mkContig "ctg1" 1 10 5 3 "LG1")
        (mkContig "ctg2" 2 9 5 4 "LG1") =
      multiSorter.Less [decWeight, name] (mkContig "ctg1" 1 10 5 3 "LG1")
        (mkContig "ctg2" 2 9 5 4 "LG1") ∧
    multiSorter.Less [decWeight, name] (mkContig "ctg1" 1 10 5 3 "LG1")
        (mkContig "ctg2" 2 9 5 4 "LG1") =
      .ok (lessP (mkContig "ctg1" 1 10 5 3 "LG1") (mkContig "ctg2" 2 9 5 4 "LG1")) :=
  ⟨by decide, by decide,
    maxRange_noop (mkContig "ctg1" 1 10 5 3 "LG1") (mkContig "ctg2" 2 9 5 4 "LG1")
      (by decide) (by decide)⟩

/-! ## filterContigs on examples -/

/-- C16. Three nested contigs: `ctg1` and `ctg2` have equal weight and are both
removed, `ctg2` stays the representative to compare with, and the heavier
`ctg3` removes it once more. Two contigs are gone from `Contigs`, but
`filterContigs` returns 3. -/
theorem filterContigs_counts_stale_removal :
    ∃ CM', staleExample.filterContigs = .ok (3, CM') ∧
      CM'.Contigs.map (fun c => c.Name) = ["ctg3"] ∧
      staleExample.Contigs.length - CM'.Contigs.length = 2 :=
  ⟨_, rfl, rfl, rfl⟩

/-- C13. Two contigs with non-zero-width ranges share the range start 1; the
heavier one is named `dummy`. Both are still in `Contigs` after
`filterContigs`, which returns 0. -/
theorem filterContigs_keeps_two_in_bucket :
    dummyExample.Filtered = false ∧
    ∃ CM', dummyExample.filterContigs = .ok (0, CM') ∧
      CM'.Contigs.map (fun c => (c.Name, loOf c, hiOf c)) =
        [("dummy", 1, 5), ("ctg2", 1, 6)] :=
  ⟨rfl, _, rfl, rfl⟩

/-- C14, as stated, fails: `ctg2` (range 2..10) is kept after `ctg1` (range
1..5) and is then removed by the heavier `ctg3` (range 3..4), which is only
compared with `ctg2`. `ctg1` and `ctg3` remain, and `ctg3` starts later but
ends earlier. -/
theorem filterContigs_overlap_counterexample :
    overlapExample.Filtered = false ∧
    ∃ out CM', overlapExample.filterContigs = .ok (out, CM') ∧
      CM'.Contigs.map (fun c => (c.Name, loOf c, hiOf c)) =
        [("ctg1", 1, 5), ("ctg3", 3, 4)] :=
  ⟨rfl, _, _, rfl, rfl⟩

/-- Ranges that run backwards, which `CalculateRange` never sets: for two
contigs whose ranges run down to 0 the first representative is not above the
initial upper bound 0, so the placeholder is "removed" and counted. The
heavier `ctg1` is kept, but `filterContigs` returns 2. -/
theorem filterContigs_counts_placeholder :
    invertedExample.Filtered = false ∧
    invertedExample.Contigs.map (fun c => (c.Name, loOf c, hiOf c, c.AvgWeight)) =
      [("ctg1", 5, 0, 3), ("ctg2", 7, 0, 1)] ∧
    ∃ CM', invertedExample.filterContigs = .ok (2, CM') ∧
      CM'.Contigs.map (fun c => c.Name) = ["ctg1"] :=
  ⟨rfl, rfl, _, rfl, rfl⟩

/-! ## OrientMarkers on markers at distinct contig positions -/

theorem goSort_strict {α : Type} (key : α → Nat) (l : List α) (hn : (l.map key).Nodup) :
    (goSort (fun a b => decide (key a < key b)) l).Pairwise (fun a b => key a < key b) := by
  have hperm := goSort_perm (fun a b => decide (key a < key b)) l
  have hnd : ((goSort (fun a b => decide (key a < key b)) l).map key).Nodup :=
    (hperm.map key).nodup_iff.2 hn
  have hne : (goSort (fun a b => decide (key a < key b)) l).Pairwise
      (fun a b => key a ≠ key b) := by
    unfold List.Nodup at hnd
    exact List.pairwise_map.1 hnd
  exact ((goSort_sorted key l).and hne).imp (fun h => Nat.lt_of_le_of_ne h.1 h.2)

theorem adjacentPairs_mem (l : List Marker) (p : Marker × Marker) (h : p ∈ adjacentPairs l) :
    p.1 ∈ l ∧ p.2 ∈ l := by
  unfold adjacentPairs at h
  obtain ⟨a, b⟩ := p
  have := List.of_mem_zip h
  exact ⟨this.1, List.mem_of_mem_tail this.2⟩

theorem adjacentPairs_of_pairwise (S : Marker → Marker → Prop) (l : List Marker)
    (h : l.Pairwise S) : ∀ p ∈ adjacentPairs l, S p.1 p.2 := by
  induction l with
  | nil => intro p hp; simp [adjacentPairs] at hp
  | cons x t ih =>
    cases t with
    | nil => intro p hp; simp [adjacentPairs] at hp
    | cons y rest =>
      intro p hp
      rw [adjacentPairs_cons_cons] at hp
      have hx := List.pairwise_cons.1 h
      rcases List.mem_cons.1 hp with rfl | hp
      · exact hx.1 y (List.mem_cons_self _ _)
      · exact ih hx.2 p hp

theorem pairwise_of_adjacentPairs (S : Marker → Marker → Prop)
    (htrans : ∀ a b c, S a b → S b c → S a c) (l : List Marker)
    (h : ∀ p ∈ adjacentPairs l, S p.1 p.2) : l.Pairwise S := by
  induction l with
  | nil => exact List.Pairwise.nil
  | cons x t ih =>
    cases t with
    | nil => simp
    | cons y rest =>
      rw [adjacentPairs_cons_cons] at h
      have hxy : S x y := h (x, y) (List.mem_cons_self _ _)
      have ht : (y :: rest).Pairwise S := ih (fun p hp => h p (List.mem_cons_of_mem _ hp))
      refine List.pairwise_cons.2 ⟨?_, ht⟩
      intro z hz
      rcases List.mem_cons.1 hz with rfl | hz
      · exact hxy
      · exact htrans x y z hxy ((List.pairwise_cons.1 ht).1 z hz)

theorem pairwise_mem_cases {α : Type} (S : α → α → Prop) (l : List α) (h : l.Pairwise S)
    (a b : α) (ha : a ∈ l) (hb : b ∈ l) : a = b ∨ S a b ∨ S b a := by
  induction l with
  | nil => simp at ha
  | cons x t ih =>
    have hx := List.pairwise_cons.1 h
    rcases List.mem_cons.1 ha with ha' | ha'
    · rcases List.mem_cons.1 hb with hb' | hb'
      · exact Or.inl (ha'.trans hb'.symm)
      · exact Or.inr (Or.inl (ha' ▸ hx.1 b hb'))
    · rcases List.mem_cons.1 hb with hb' | hb'
      · exact Or.inr (Or.inr (hb' ▸ hx.1 a ha'))
      · exact ih hx.2 ha' hb'

/-- In a slice sorted strictly by `ConPos`, a transitive relation holds along
every adjacent pair exactly when it holds for every two markers taken in the
order of their contig positions. -/
theorem adjacent_iff_along (S : Marker → Marker → Prop)
    (htrans : ∀ a b c, S a b → S b c → S a c) (s : List Marker)
    (hs : s.Pairwise (fun a b => a.ConPos < b.ConPos)) :
    (∀ p ∈ adjacentPairs s, S p.1 p.2) ↔
      ∀ a ∈ s, ∀ b ∈ s, a.ConPos < b.ConPos → S a b := by
  constructor
  · intro h a ha b hb hab
    have hp := (pairwise_of_adjacentPairs S htrans s h).and hs
    rcases pairwise_mem_cases _ s hp a b ha hb with rfl | h1 | h1
    · exact absurd hab (Nat.lt_irrefl _)
    · exact h1.1
    · exact absurd hab (Nat.lt_asymm h1.2)
  · intro h
    apply adjacentPairs_of_pairwise
    exact hs.imp_of_mem (fun ha hb hab => h _ ha _ hb hab)

theorem agree_empty_eq (ss : List String) (hne : ∀ s ∈ ss, s ≠ "") (v : String)
    (hv : v ≠ "") : agree "" ss = (v, true) ↔ ss ≠ [] ∧ ∀ x ∈ ss, x = v := by
  cases ss with
  | nil =>
    simp only [agree, Prod.mk.injEq, and_true, ne_eq, not_true_eq_false, false_and, iff_false]
    exact fun h => hv h.symm
  | cons s t =>
    have hs : s ≠ "" := hne s (List.mem_cons_self _ _)
    have he : agree "" (s :: t) = agree s t := by simp [agree]
    rw [he, agree_of_ne_empty s t hs]
    by_cases hall : ∀ x ∈ t, x = s
    · rw [if_pos hall]
      constructor
      · intro h
        have hsv : s = v := congrArg Prod.fst h
        refine ⟨List.cons_ne_nil _ _, ?_⟩
        intro x hx
        rcases List.mem_cons.1 hx with rfl | hx
        · exact hsv
        · rw [hall x hx, hsv]
      · rintro ⟨_, h⟩
        rw [h s (List.mem_cons_self _ _)]
    · rw [if_neg hall]
      constructor
      · intro h
        exact absurd (congrArg Prod.snd h) (by simp)
      · rintro ⟨_, h⟩
        exfalso
        apply hall
        intro x hx
        rw [h x (List.mem_cons_of_mem _ hx), h s (List.mem_cons_self _ _)]

theorem agree_empty_eq_nil (ss : List String) (hne : ∀ s ∈ ss, s ≠ "") :
    agree "" ss = ("", true) ↔ ss = [] := by
  cases ss with
  | nil => simp [agree]
  | cons s t =>
    have hs : s ≠ "" := hne s (List.mem_cons_self _ _)
    have he : agree "" (s :: t) = agree s t := by simp [agree]
    rw [he, agree_of_ne_empty s t hs]
    split
    · simp [hs]
    · simp

theorem agree_empty_cases (ss : List String) (hpm : ∀ s ∈ ss, s = "+" ∨ s = "-") :
    agree "" ss = ("+", true) ∨ agree "" ss = ("-", true) ∨ agree "" ss = ("", true) ∨
      agree "" ss = ("", false) := by
  cases ss with
  | nil => simp [agree]
  | cons s t =>
    have hs : s ≠ "" := by
      rcases hpm s (List.mem_cons_self _ _) with h | h <;> rw [h] <;> decide
    have he : agree "" (s :: t) = agree s t := by simp [agree]
    rw [he, agree_of_ne_empty s t hs]
    split
    · rcases hpm s (List.mem_cons_self _ _) with h | h
      · left; rw [h]
      · right; left; rw [h]
    · right; right; right; rfl

theorem pairStrand_of_rising (p : Marker × Marker) (hc : p.1.ConPos < p.2.ConPos) :
    (pairStrand p = "+" ∨ pairStrand p = "-") ∧
    (informative p = true → (pairStrand p = "+" ↔ p.1.GenPos < p.2.GenPos)) ∧
    (informative p = true → (pairStrand p = "-" ↔ p.2.GenPos < p.1.GenPos)) := by
  have hsc : sign p.1.ConPos p.2.ConPos = "-" := by simp [sign, hc]
  unfold pairStrand informative
  rw [hsc]
  rcases Nat.lt_trichotomy p.1.GenPos p.2.GenPos with h | h | h
  · have hs : sign p.1.GenPos p.2.GenPos = "-" := by simp [sign, h]
    have h' : ¬ p.2.GenPos < p.1.GenPos := by omega
    rw [hs]
    simp [h, h']
  · have hs : sign p.1.GenPos p.2.GenPos = "" := (sign_eq_empty_iff _ _).2 h
    rw [hs]
    simp [h]
  · have hs : sign p.1.GenPos p.2.GenPos = "+" := by
      have h' : ¬ p.1.GenPos < p.2.GenPos := by omega
      simp [sign, h, h']
    have h' : ¬ p.1.GenPos < p.2.GenPos := by omega
    rw [hs]
    simp [h, h']

theorem strands_eq_nil_iff (s : List Marker) :
    strands s = [] ↔ ∀ p ∈ adjacentPairs s, p.1.GenPos = p.2.GenPos := by
  constructor
  · intro h p hp
    by_contra hne
    have : pairStrand p ∈ strands s :=
      (mem_strands s _).2 ⟨p, hp, by simp [informative, hne], rfl⟩
    rw [h] at this
    simp at this
  · intro h
    apply List.eq_nil_iff_forall_not_mem.2
    intro x hx
    obtain ⟨p, hp, hpi, _⟩ := (mem_strands s x).1 hx
    have := h p hp
    simp [informative, this] at hpi

theorem allEqual_of_adjacent (s : List Marker)
    (h : ∀ p ∈ adjacentPairs s, p.1.GenPos = p.2.GenPos) :
    ∀ a ∈ s, ∀ b ∈ s, a.GenPos = b.GenPos := by
  intro a ha b hb
  have hp := pairwise_of_adjacentPairs (fun a b => a.GenPos = b.GenPos)
    (fun _ _ _ h1 h2 => h1.trans h2) s h
  rcases pairwise_mem_cases _ s hp a b ha hb with h1 | h1 | h1
  · rw [h1]
  · exact h1
  · exact h1.symm

/-- One direction of travel: for a slice sorted strictly by `ConPos` and a
strand `v` that marks the adjacent pairs related by `lt`, the loop returns
`(v, true)` exactly when all markers are related by `lt` or equal along the
contig, with at least one pair related by `lt`. -/
theorem agree_direction (s : List Marker)
    (hs : s.Pairwise (fun a b => a.ConPos < b.ConPos)) (v : String) (hv : v ≠ "")
    (lt : Nat → Nat → Prop) (hirr : ∀ a, ¬ lt a a)
    (htrans : ∀ a b c, (a = b ∨ lt a b) → (b = c ∨ lt b c) → (a = c ∨ lt a c))
    (hstr : ∀ p ∈ adjacentPairs s, informative p = true →
      (pairStrand p = v ↔ lt p.1.GenPos p.2.GenPos)) :
    agree "" (strands s) = (v, true) ↔
      (∀ a ∈ s, ∀ b ∈ s, a.ConPos < b.ConPos → (a.GenPos = b.GenPos ∨ lt a.GenPos b.GenPos)) ∧
      ∃ a ∈ s, ∃ b ∈ s, a.ConPos < b.ConPos ∧ lt a.GenPos b.GenPos := by
  have hadj := adjacentPairs_of_pairwise _ s hs
  have halong := adjacent_iff_along
    (fun a b => a.GenPos = b.GenPos ∨ lt a.GenPos b.GenPos)
    (fun a b c h1 h2 => htrans a.GenPos b.GenPos c.GenPos h1 h2) s hs
  rw [agree_empty_eq _ (strands_ne_empty s) v hv]
  constructor
  · rintro ⟨hne, hall⟩
    constructor
    · apply halong.1
      intro p hp
      by_cases he : p.1.GenPos = p.2.GenPos
      · exact Or.inl he
      · right
        have hi : informative p = true := by simp [informative, he]
        have hm : pairStrand p ∈ strands s := (mem_strands s _).2 ⟨p, hp, hi, rfl⟩
        exact (hstr p hp hi).1 (hall _ hm)
    · obtain ⟨x, hx⟩ := List.exists_mem_of_ne_nil _ hne
      obtain ⟨p, hp, hi, hpx⟩ := (mem_strands s x).1 hx
      have hm := adjacentPairs_mem s p hp
      refine ⟨p.1, hm.1, p.2, hm.2, hadj p hp, ?_⟩
      exact (hstr p hp hi).1 (hpx.trans (hall x hx))
  · rintro ⟨hglob, a, ha, b, hb, _, hlt⟩
    have hadjle := halong.2 hglob
    constructor
    · intro hnil
      have heq := allEqual_of_adjacent s ((strands_eq_nil_iff s).1 hnil) a ha b hb
      rw [heq] at hlt
      exact hirr _ hlt
    · intro x hx
      obtain ⟨p, hp, hi, hpx⟩ := (mem_strands s x).1 hx
      rw [← hpx]
      apply (hstr p hp hi).2
      rcases hadjle p hp with h | h
      · simp [informative, h] at hi
      · exact h

/-- C19. For markers with pairwise distinct `ConPos`, `OrientMarkers` returns
`("+", true)` exactly when `GenPos` never decreases along increasing `ConPos`
and increases at least once, `("-", true)` exactly when it never increases
and decreases at least once, `("", true)` exactly when all `GenPos` are equal
(so also for fewer than two markers), and `("", false)` in every other
case. -/
theorem OrientMarkers_monotone (data : List Marker)
    (hd : (data.map (fun m => m.ConPos)).Nodup) :
    (OrientMarkers data = ("+", true) ↔
      (∀ a ∈ data, ∀ b ∈ data, a.ConPos < b.ConPos → a.GenPos ≤ b.GenPos) ∧
      ∃ a ∈ data, ∃ b ∈ data, a.ConPos < b.ConPos ∧ a.GenPos < b.GenPos) ∧
    (OrientMarkers data = ("-", true) ↔
      (∀ a ∈ data, ∀ b ∈ data, a.ConPos < b.ConPos → b.GenPos ≤ a.GenPos) ∧
      ∃ a ∈ data, ∃ b ∈ data, a.ConPos < b.ConPos ∧ b.GenPos < a.GenPos) ∧
    (OrientMarkers data = ("", true) ↔ ∀ a ∈ data, ∀ b ∈ data, a.GenPos = b.GenPos) ∧
    (OrientMarkers data = ("", false) ↔
      ¬ ((∀ a ∈ data, ∀ b ∈ data, a.ConPos < b.ConPos → a.GenPos ≤ b.GenPos) ∧
        ∃ a ∈ data, ∃ b ∈ data, a.ConPos < b.ConPos ∧ a.GenPos < b.GenPos) ∧
      ¬ ((∀ a ∈ data, ∀ b ∈ data, a.ConPos < b.ConPos → b.GenPos ≤ a.GenPos) ∧
        ∃ a ∈ data, ∃ b ∈ data, a.ConPos < b.ConPos ∧ b.GenPos < a.GenPos) ∧
      ¬ (∀ a ∈ data, ∀ b ∈ data, a.GenPos = b.GenPos)) := by
  have hperm : (goSort ByConPos data).Perm data := goSort_perm _ _
  have hs : (goSort ByConPos data).Pairwise (fun a b => a.ConPos < b.ConPos) :=
    goSort_strict (fun m : Marker => m.ConPos) data hd
  have hadj := adjacentPairs_of_pairwise _ _ hs
  have hres : OrientMarkers data = agree "" (strands (goSort ByConPos data)) := by
    unfold OrientMarkers
    rw [orientLoop_eq_agree]
  have hplus : OrientMarkers data = ("+", true) ↔
      (∀ a ∈ data, ∀ b ∈ data, a.ConPos < b.ConPos → a.GenPos ≤ b.GenPos) ∧
      ∃ a ∈ data, ∃ b ∈ data, a.ConPos < b.ConPos ∧ a.GenPos < b.GenPos := by
    rw [hres, agree_direction _ hs "+" (by decide) (fun a b => a < b)
      (fun a => Nat.lt_irrefl a) (fun a b c h1 h2 => by omega)
      (fun p hp hi => ((pairStrand_of_rising p (hadj p hp)).2.1 hi))]
    constructor
    · rintro ⟨h1, a, ha, b, hb, h2⟩
      refine ⟨fun x hx y hy hxy => ?_, a, hperm.mem_iff.1 ha, b, hperm.mem_iff.1 hb, h2⟩
      have := h1 x (hperm.mem_iff.2 hx) y (hperm.mem_iff.2 hy) hxy
      omega
    · rintro ⟨h1, a, ha, b, hb, h2⟩
      refine ⟨fun x hx y hy hxy => ?_, a, hperm.mem_iff.2 ha, b, hperm.mem_iff.2 hb, h2⟩
      have := h1 x (hperm.mem_iff.1 hx) y (hperm.mem_iff.1 hy) hxy
      omega
  have hminus : OrientMarkers data = ("-", true) ↔
      (∀ a ∈ data, ∀ b ∈ data, a.ConPos < b.ConPos → b.GenPos ≤ a.GenPos) ∧
      ∃ a ∈ data, ∃ b ∈ data, a.ConPos < b.ConPos ∧ b.GenPos < a.GenPos := by
    rw [hres, agree_direction _ hs "-" (by decide) (fun a b => b < a)
      (fun a => Nat.lt_irrefl a) (fun a b c h1 h2 => by omega)
      (fun p hp hi => ((pairStrand_of_rising p (hadj p hp)).2.2 hi))]
    constructor
    · rintro ⟨h1, a, ha, b, hb, h2⟩
      refine ⟨fun x hx y hy hxy => ?_, a, hperm.mem_iff.1 ha, b, hperm.mem_iff.1 hb, h2⟩
      have := h1 x (hperm.mem_iff.2 hx) y (hperm.mem_iff.2 hy) hxy
      omega
    · rintro ⟨h1, a, ha, b, hb, h2⟩
      refine ⟨fun x hx y hy hxy => ?_, a, hperm.mem_iff.2 ha, b, hperm.mem_iff.2 hb, h2⟩
      have := h1 x (hperm.mem_iff.1 hx) y (hperm.mem_iff.1 hy) hxy
      omega
  have hzero : OrientMarkers data = ("", true) ↔
      ∀ a ∈ data, ∀ b ∈ data, a.GenPos = b.GenPos := by
    rw [hres, agree_empty_eq_nil _ (strands_ne_empty _), strands_eq_nil_iff]
    constructor
    · intro h a ha b hb
      exact allEqual_of_adjacent _ h a (hperm.mem_iff.2 ha) b (hperm.mem_iff.2 hb)
    · intro h p hp
      have hm := adjacentPairs_mem _ p hp
      exact h _ (hperm.mem_iff.1 hm.1) _ (hperm.mem_iff.1 hm.2)
  refine ⟨hplus, hminus, hzero, ?_⟩
  have hcases := agree_empty_cases (strands (goSort ByConPos data)) (by
    intro x hx
    obtain ⟨p, hp, _, hpx⟩ := (mem_strands _ x).1 hx
    rw [← hpx]
    exact (pairStrand_of_rising p (hadj p hp)).1)
  rw [← hres] at hcases
  rw [← hplus, ← hminus, ← hzero]
  constructor
  · intro h
    rw [h]
    refine ⟨?_, ?_, ?_⟩ <;> simp
  · rintro ⟨h1, h2, h3⟩
    rcases hcases with h | h | h | h
    · exact absurd h h1
    · exact absurd h h2
    · exact absurd h h3
    · exact h

theorem OrientMarkers_monotone_witness :
    (distinctExample.map (fun m => m.ConPos)).Nodup ∧
    (OrientMarkers distinctExample = ("", false) ↔
      ¬ ((∀ a ∈ distinctExample, ∀ b ∈ distinctExample,
            a.ConPos < b.ConPos → a.GenPos ≤ b.GenPos) ∧
        ∃ a ∈ distinctExample, ∃ b ∈ distinctExample,
          a.ConPos < b.ConPos ∧ a.GenPos < b.GenPos) ∧
      ¬ ((∀ a ∈ distinctExample, ∀ b ∈ distinctExample,
            a.ConPos < b.ConPos → b.GenPos ≤ a.GenPos) ∧
        ∃ a ∈ distinctExample, ∃ b ∈ distinctExample,
          a.ConPos < b.ConPos ∧ b.GenPos < a.GenPos) ∧
      ¬ (∀ a ∈ distinctExample, ∀ b ∈ distinctExample, a.GenPos = b.GenPos)) ∧
    OrientMarkers distinctExample = ("", false) :=
  ⟨by decide, (OrientMarkers_monotone distinctExample (by decide)).2.2.2, by decide⟩

/-! ## What filterContigs removes -/

theorem mem_mapDelete (M : List Contig) (n : String) (x : Contig) :
    x ∈ mapDelete M n ↔ x ∈ M ∧ x.Name ≠ n := by
  unfold mapDelete
  simp [List.mem_filter]

theorem innerStepP_mem (group : String) (i : Nat) (st : FilterState) (c x : Contig)
    (h : x ∈ (innerStepP group i st c).Contigs) :
    x ∈ st.Contigs ∧ (isBad group c → x.Name ≠ c.Name) := by
  unfold innerStepP at h
  split at h
  · rw [mem_mapDelete] at h
    exact ⟨h.1, fun _ => h.2⟩
  · rename_i hb
    split at h
    · exact ⟨h, fun hb' => absurd hb' hb⟩
    · split at h
      · exact ⟨h, fun hb' => absurd hb' hb⟩
      · split at h
        · rw [mem_mapDelete, mem_mapDelete] at h
          exact ⟨h.1.1, fun hb' => absurd hb' hb⟩
        · rw [mem_mapDelete] at h
          exact ⟨h.1, fun hb' => absurd hb' hb⟩

theorem crossStepP_mem (st : FilterState) (x : Contig) (h : x ∈ (crossStepP st).Contigs) :
    x ∈ st.Contigs := by
  unfold crossStepP at h
  repeat' split at h
  all_goals first
    | exact h
    | exact ((mem_mapDelete _ _ _).1 h).1
    | exact ((mem_mapDelete _ _ _).1 ((mem_mapDelete _ _ _).1 h).1).1

theorem foldl_innerStepP_mem (group : String) (i : Nat) (l : List Contig) (st : FilterState)
    (x : Contig) (h : x ∈ (l.foldl (innerStepP group i) st).Contigs) :
    x ∈ st.Contigs ∧ ∀ c ∈ l, isBad group c → x.Name ≠ c.Name := by
  induction l generalizing st with
  | nil => exact ⟨h, by simp⟩
  | cons c l ih =>
    simp only [List.foldl_cons] at h
    obtain ⟨h1, h2⟩ := ih _ h
    obtain ⟨h3, h4⟩ := innerStepP_mem group i st c x h1
    refine ⟨h3, ?_⟩
    intro c' hc'
    rcases List.mem_cons.1 hc' with rfl | hc'
    · exact h4
    · exact h2 c' hc'

theorem bucketStepP_mem (group : String) (d : List (Nat × List Contig)) (st : FilterState)
    (i : Nat) (x : Contig) (h : x ∈ (bucketStepP group d st i).Contigs) :
    x ∈ st.Contigs ∧ ∀ c ∈ bucketOf d i, isBad group c → x.Name ≠ c.Name := by
  unfold bucketStepP innerLoopP at h
  obtain ⟨h1, h2⟩ := foldl_innerStepP_mem group i _ _ x (crossStepP_mem _ x h)
  exact ⟨h1, fun c hc => h2 c ((goSort_perm lessP _).mem_iff.2 hc)⟩

theorem foldl_bucketStepP_mem (group : String) (d : List (Nat × List Contig))
    (ks : List Nat) (st : FilterState) (x : Contig)
    (h : x ∈ (ks.foldl (bucketStepP group d) st).Contigs) :
    x ∈ st.Contigs ∧ ∀ k ∈ ks, ∀ c ∈ bucketOf d k, isBad group c → x.Name ≠ c.Name := by
  induction ks generalizing st with
  | nil => exact ⟨h, by simp⟩
  | cons k ks ih =>
    simp only [List.foldl_cons] at h
    obtain ⟨h1, h2⟩ := ih _ h
    obtain ⟨h3, h4⟩ := bucketStepP_mem group d st k x h1
    refine ⟨h3, ?_⟩
    intro k' hk'
    rcases List.mem_cons.1 hk' with rfl | hk'
    · exact h4
    · exact h2 k' hk'

/-- The sorted keys are the keys of the contigs, each once, in ascending
order. -/
theorem sortedKeys_spec (filtered : Bool) (cs : List Contig) :
    (goSort Uintarr ((buildMapP filtered cs).map (fun e => e.1))).Pairwise (fun a b => a < b) ∧
    ∀ k, k ∈ goSort Uintarr ((buildMapP filtered cs).map (fun e => e.1)) ↔
      ∃ c ∈ cs, keyOf filtered c = k := by
  obtain ⟨hnd, hmem⟩ := keys_buildMapP filtered cs
  constructor
  · exact goSort_strict (fun k : Nat => k) _ (by simpa using hnd)
  · intro k
    rw [(goSort_perm Uintarr _).mem_iff]
    exact hmem k

theorem mem_bucketOf_buildMapP (filtered : Bool) (cs : List Contig) (c : Contig) (k : Nat) :
    c ∈ bucketOf (buildMapP filtered cs) k ↔ c ∈ cs ∧ keyOf filtered c = k := by
  rw [bucketOf_buildMapP]
  simp [List.mem_filter]

/-- Every contig left by the loop was in the group and is not one that the
first case of the loop drops. -/
theorem filterLoopP_mem (CM : ContigMap) (x : Contig) (h : x ∈ (filterLoopP CM).Contigs) :
    x ∈ CM.Contigs ∧ ¬ isBad CM.Name x := by
  unfold filterLoopP at h
  obtain ⟨h1, h2⟩ := foldl_bucketStepP_mem _ _ _ _ x h
  have hx : x ∈ CM.Contigs := h1
  refine ⟨hx, fun hb => ?_⟩
  have hk := ((sortedKeys_spec CM.Filtered CM.Contigs).2 (keyOf CM.Filtered x)).2 ⟨x, hx, rfl⟩
  exact h2 _ hk x ((mem_bucketOf_buildMapP _ _ _ _).2 ⟨hx, rfl⟩) hb rfl

/-! ## Zero-width contigs stay -/

theorem name_inj (cs : List Contig) (hn : (cs.map (fun c => c.Name)).Nodup) (a b : Contig)
    (ha : a ∈ cs) (hb : b ∈ cs) (h : a.Name = b.Name) : a = b :=
  List.inj_on_of_nodup_map hn ha hb h

theorem innerStepP_keeps (group : String) (i : Nat) (cs : List Contig) (z c : Contig)
    (st : FilterState) (hn : (cs.map (fun c => c.Name)).Nodup) (hz : z ∈ cs)
    (hzg : ¬ isBad group z) (hzw : hiOf z = loOf z) (hc : c ∈ cs) (h : Keeps cs z st) :
    Keeps cs z (innerStepP group i st c) := by
  obtain ⟨h1, h2, h3⟩ := h
  have hdel : ∀ y, y ∈ cs → (isBad group y ∨ hiOf y ≠ loOf y) → z.Name ≠ y.Name := by
    intro y hy hy' hname
    have := name_inj cs hn z y hz hy hname
    subst this
    rcases hy' with h | h
    · exact hzg h
    · exact h hzw
  unfold innerStepP
  split
  · rename_i hb
    exact ⟨(mem_mapDelete _ _ _).2 ⟨h1, hdel c hc (Or.inl hb)⟩, h2, h3⟩
  · split
    · exact ⟨h1, h2, h3⟩
    · rename_i hnz
      split
      · exact ⟨h1, Or.inr ⟨hc, hnz⟩, h3⟩
      · rename_i hd
        have ht : st.tmpContig ∈ cs ∧ hiOf st.tmpContig ≠ loOf st.tmpContig := by
          rcases h2 with h | h
          · exact absurd h hd
          · exact h
        split
        · refine ⟨?_, Or.inl rfl, h3⟩
          exact (mem_mapDelete _ _ _).2 ⟨(mem_mapDelete _ _ _).2
            ⟨h1, hdel _ ht.1 (Or.inr ht.2)⟩, hdel c hc (Or.inr hnz)⟩
        · exact ⟨(mem_mapDelete _ _ _).2 ⟨h1, hdel c hc (Or.inr hnz)⟩, h2, h3⟩

theorem crossStepP_keeps (cs : List Contig) (z : Contig) (st : FilterState)
    (hn : (cs.map (fun c => c.Name)).Nodup) (hz : z ∈ cs)
    (hzw : hiOf z = loOf z) (hord : ∀ c ∈ cs, loOf c ≤ hiOf c) (h : Keeps cs z st) :
    Keeps cs z (crossStepP st) := by
  obtain ⟨h1, h2, h3⟩ := h
  have hdel : ∀ y, y ∈ cs → hiOf y ≠ loOf y → z.Name ≠ y.Name := by
    intro y hy hy' hname
    have := name_inj cs hn z y hz hy hname
    subst this
    exact hy' hzw
  unfold crossStepP
  split
  · exact ⟨h1, h2, h3⟩
  · rename_i hd
    have ht : st.tmpContig ∈ cs ∧ hiOf st.tmpContig ≠ loOf st.tmpContig := by
      rcases h2 with h | h
      · exact absurd h hd
      · exact h
    split
    · exact ⟨h1, h2, Or.inr ht⟩
    · rename_i hgt
      have hc : st.contig ∈ cs ∧ hiOf st.contig ≠ loOf st.contig := by
        rcases h3 with h | h
        · exfalso
          rw [h] at hgt
          have h0 : hiOf initialContig = 0 := rfl
          have := hord _ ht.1
          have := ht.2
          omega
        · exact h
      split
      · exact ⟨(mem_mapDelete _ _ _).2 ⟨h1, hdel _ ht.1 ht.2⟩, h2, h3⟩
      · split
        · exact ⟨(mem_mapDelete _ _ _).2 ⟨h1, hdel _ hc.1 hc.2⟩, h2, Or.inr ht⟩
        · exact ⟨(mem_mapDelete _ _ _).2 ⟨(mem_mapDelete _ _ _).2
            ⟨h1, hdel _ ht.1 ht.2⟩, hdel _ hc.1 hc.2⟩, h2, Or.inr ht⟩

theorem foldl_innerStepP_keeps (group : String) (i : Nat) (cs : List Contig) (z : Contig)
    (hn : (cs.map (fun c => c.Name)).Nodup) (hz : z ∈ cs) (hzg : ¬ isBad group z)
    (hzw : hiOf z = loOf z) (l : List Contig) (hl : ∀ c ∈ l, c ∈ cs) (st : FilterState)
    (h : Keeps cs z st) : Keeps cs z (l.foldl (innerStepP group i) st) := by
  induction l generalizing st with
  | nil => exact h
  | cons c l ih =>
    simp only [List.foldl_cons]
    exact ih (fun c' hc' => hl c' (List.mem_cons_of_mem _ hc')) _
      (innerStepP_keeps group i cs z c st hn hz hzg hzw (hl c (List.mem_cons_self _ _)) h)

theorem filterLoopP_keeps (CM : ContigMap) (z : Contig)
    (hn : (CM.Contigs.map (fun c => c.Name)).Nodup) (hz : z ∈ CM.Contigs)
    (hzg : ¬ isBad CM.Name z) (hzw : hiOf z = loOf z)
    (hord : ∀ c ∈ CM.Contigs, loOf c ≤ hiOf c) : z ∈ (filterLoopP CM).Contigs := by
  have key : ∀ (ks : List Nat) (st : FilterState),
      (z ∈ st.Contigs ∧ (st.contig = initialContig ∨
        (st.contig ∈ CM.Contigs ∧ hiOf st.contig ≠ loOf st.contig))) →
      Keeps CM.Contigs z
        (ks.foldl (bucketStepP CM.Name (buildMapP CM.Filtered CM.Contigs)) st) ∨
      (ks = [] ∧ z ∈ st.Contigs) := by
    intro ks
    induction ks with
    | nil => intro st h; exact Or.inr ⟨rfl, h.1⟩
    | cons k ks ih =>
      intro st h
      left
      simp only [List.foldl_cons]
      have hstep : Keeps CM.Contigs z
          (bucketStepP CM.Name (buildMapP CM.Filtered CM.Contigs) st k) := by
        unfold bucketStepP innerLoopP
        apply crossStepP_keeps CM.Contigs z _ hn hz hzw hord
        apply foldl_innerStepP_keeps CM.Name k CM.Contigs z hn hz hzg hzw
        · intro c hc
          have := (goSort_perm lessP _).mem_iff.1 hc
          exact ((mem_bucketOf_buildMapP _ _ _ _).1 this).1
        · exact ⟨h.1, Or.inl rfl, h.2⟩
      rcases ih _ ⟨hstep.1, hstep.2.2⟩ with h' | ⟨h', _⟩
      · exact h'
      · subst h'
        exact hstep
  unfold filterLoopP
  rcases key _ (initialState CM.Contigs) ⟨hz, Or.inl rfl⟩ with h | ⟨h, _⟩
  · exact h.1
  · rw [h]
    exact hz

/-- C11. In a group whose contigs all have their range set with
`Range[0].GenPos <= Range[1].GenPos`, `filterContigs` returns, and every
contig that is placeable, has the group's name as `LG` and has a zero-width
range is still in `Contigs` afterwards. -/
theorem filterContigs_keeps_zero_width (CM : ContigMap) (z : Contig)
    (hn : (CM.Contigs.map (fun c => c.Name)).Nodup)
    (hr : ∀ c ∈ CM.Contigs, rangeSet c ∧ loOf c ≤ hiOf c)
    (hz : z ∈ CM.Contigs) (hp : z.Placeable = true) (hl : z.LG = CM.Name)
    (hzw : loOf z = hiOf z) :
    ∃ out CM', CM.filterContigs = .ok (out, CM') ∧ z ∈ CM'.Contigs := by
  refine ⟨(filterP CM).1, (filterP CM).2, filterContigs_ok CM (fun c hc => (hr c hc).1), ?_⟩
  have hzg : ¬ isBad CM.Name z := by
    unfold isBad
    simp [hp, hl]
  exact filterLoopP_keeps CM z hn hz hzg hzw.symm (fun c hc => (hr c hc).2)

/-! ## The representative of a bucket -/

theorem innerStepP_contig (group : String) (i : Nat) (st : FilterState) (c : Contig) :
    (innerStepP group i st c).contig = st.contig := by
  unfold innerStepP
  repeat' split
  all_goals rfl

theorem foldl_innerStepP_contig (group : String) (i : Nat) (l : List Contig)
    (st : FilterState) : (l.foldl (innerStepP group i) st).contig = st.contig := by
  induction l generalizing st with
  | nil => rfl
  | cons c l ih =>
    simp only [List.foldl_cons]
    rw [ih, innerStepP_contig]

/-- Among the contigs of a bucket handled so far, only the current
representative can be a kept contig with a non-zero-width range, as long as
no contig bears the placeholder's name. -/
theorem foldl_innerStepP_rep (group : String) (i : Nat) (l done : List Contig)
    (st : FilterState) (hl : ∀ c ∈ l, c.Name ≠ "dummy") (hdone : ∀ c ∈ done, c.Name ≠ "dummy")
    (h : ∀ c ∈ done, ¬ isBad group c → hiOf c ≠ loOf c → c ∈ st.Contigs → c = st.tmpContig) :
    ∀ c ∈ done ++ l, ¬ isBad group c → hiOf c ≠ loOf c →
      c ∈ (l.foldl (innerStepP group i) st).Contigs →
      c = (l.foldl (innerStepP group i) st).tmpContig := by
  induction l generalizing done st with
  | nil => simpa using h
  | cons x l ih =>
    have hx : x.Name ≠ "dummy" := hl x (List.mem_cons_self _ _)
    have hstep : ∀ c ∈ done ++ [x], ¬ isBad group c → hiOf c ≠ loOf c →
        c ∈ (innerStepP group i st x).Contigs → c = (innerStepP group i st x).tmpContig := by
      intro c hc hg hw hm
      have hcases : c ∈ done ∨ c = x := by
        rcases List.mem_append.1 hc with h1 | h1
        · exact Or.inl h1
        · exact Or.inr (List.mem_singleton.1 h1)
      unfold innerStepP at hm ⊢
      split at hm
      · rename_i hb
        rw [if_pos hb]
        rcases hcases with h1 | h1
        · exact h c h1 hg hw ((mem_mapDelete _ _ _).1 hm).1
        · exact absurd (h1 ▸ hb) hg
      · rename_i hb
        rw [if_neg hb]
        split at hm
        · rename_i hz
          rw [if_pos hz]
          rcases hcases with h1 | h1
          · exact h c h1 hg hw hm
          · exact absurd (h1 ▸ hz) hw
        · rename_i hz
          rw [if_neg hz]
          split at hm
          · rename_i hd
            rw [if_pos hd]
            rcases hcases with h1 | h1
            · have := h c h1 hg hw hm
              exact absurd (this ▸ hd) (hdone c h1)
            · exact h1
          · rename_i hd
            rw [if_neg hd]
            split at hm
            · rename_i ht
              rw [if_pos ht]
              rw [mem_mapDelete, mem_mapDelete] at hm
              rcases hcases with h1 | h1
              · have := h c h1 hg hw hm.1.1
                exact absurd (congrArg Contig.Name this) hm.1.2
              · exact absurd (congrArg Contig.Name h1) hm.2
            · rename_i ht
              rw [if_neg ht]
              rw [mem_mapDelete] at hm
              rcases hcases with h1 | h1
              · exact h c h1 hg hw hm.1
              · exact absurd (congrArg Contig.Name h1) hm.2
    have := ih (done ++ [x]) (innerStepP group i st x)
      (fun c hc => hl c (List.mem_cons_of_mem _ hc))
      (fun c hc => by
        rcases List.mem_append.1 hc with h1 | h1
        · exact hdone c h1
        · rw [List.mem_singleton.1 h1]; exact hx)
      hstep
    simpa using this

theorem innerLoopP_rep (group : String) (i : Nat) (l : List Contig) (st : FilterState)
    (hl : ∀ c ∈ l, c.Name ≠ "dummy") :
    ∀ c ∈ l, ¬ isBad group c → hiOf c ≠ loOf c → c ∈ (innerLoopP group i st l).Contigs →
      c = (innerLoopP group i st l).tmpContig := by
  have := foldl_innerStepP_rep group i l [] { st with tmpContig := dummyContig i } hl
    (by simp) (by simp)
  simpa [innerLoopP] using this

theorem crossStepP_kept (st : FilterState) (hd : st.tmpContig.Name ≠ "dummy")
    (h : st.tmpContig ∈ (crossStepP st).Contigs) :
    (crossStepP st).contig = st.tmpContig ∧
    (st.contig ∈ (crossStepP st).Contigs → hiOf st.contig < hiOf st.tmpContig) := by
  unfold crossStepP at h ⊢
  rw [if_neg hd] at h ⊢
  split
  · rename_i h2
    exact ⟨rfl, fun _ => h2⟩
  · rename_i h2
    rw [if_neg h2] at h
    split
    · rename_i h3
      rw [if_pos h3] at h
      exact absurd rfl ((mem_mapDelete _ _ _).1 h).2
    · rename_i h3
      rw [if_neg h3] at h
      split
      · refine ⟨rfl, fun hc => ?_⟩
        exact absurd rfl ((mem_mapDelete _ _ _).1 hc).2
      · rename_i h4
        rw [if_neg h4] at h
        exact absurd rfl ((mem_mapDelete _ _ _).1 ((mem_mapDelete _ _ _).1 h).1).2

/-- Two neighbours of a strictly ascending list stand side by side. -/
theorem sorted_adjacent (ks : List Nat) (hs : ks.Pairwise (fun a b => a < b)) (a b : Nat)
    (ha : a ∈ ks) (hb : b ∈ ks) (hab : a < b) (hno : ∀ k ∈ ks, ¬ (a < k ∧ k < b)) :
    ∃ pre post, ks = pre ++ a :: b :: post := by
  induction ks with
  | nil => simp at ha
  | cons x t ih =>
    have hx := List.pairwise_cons.1 hs
    by_cases hxa : x = a
    · subst hxa
      have hbt : b ∈ t := by
        rcases List.mem_cons.1 hb with h | h
        · omega
        · exact h
      cases t with
      | nil => simp at hbt
      | cons y t' =>
        have hxy : x < y := hx.1 y (List.mem_cons_self _ _)
        have hyb : y ≤ b := by
          rcases List.mem_cons.1 hbt with h | h
          · omega
          · exact Nat.le_of_lt ((List.pairwise_cons.1 hx.2).1 b h)
        have : y = b := by
          by_contra hne
          exact hno y (List.mem_cons_of_mem _ (List.mem_cons_self _ _)) ⟨hxy, by omega⟩
        subst this
        exact ⟨[], t', rfl⟩
    · have hat : a ∈ t := by
        rcases List.mem_cons.1 ha with h | h
        · exact absurd h.symm hxa
        · exact h
      have hbt : b ∈ t := by
        rcases List.mem_cons.1 hb with h | h
        · have := hx.1 a hat
          omega
        · exact h
      obtain ⟨pre, post, hpp⟩ := ih hx.2 hat hbt
        (fun k hk => hno k (List.mem_cons_of_mem _ hk))
      exact ⟨x :: pre, post, by rw [hpp]; rfl⟩

theorem foldl_bucketStepP_subset (group : String) (d : List (Nat × List Contig))
    (ks : List Nat) (st : FilterState) (x : Contig)
    (h : x ∈ (ks.foldl (bucketStepP group d) st).Contigs) : x ∈ st.Contigs :=
  (foldl_bucketStepP_mem group d ks st x h).1

theorem innerLoopP_contig (group : String) (i : Nat) (st : FilterState) (l : List Contig) :
    (innerLoopP group i st l).contig = st.contig := by
  unfold innerLoopP
  rw [foldl_innerStepP_contig]

/-- The contig with a non-zero-width range that a bucket keeps is the
representative kept before when the next bucket is handled. -/
theorem bucketStepP_kept (group : String) (d : List (Nat × List Contig)) (st : FilterState)
    (i : Nat) (x : Contig) (hd : ∀ c ∈ bucketOf d i, c.Name ≠ "dummy")
    (hx : x ∈ bucketOf d i) (hg : ¬ isBad group x) (hw : hiOf x ≠ loOf x)
    (hm : x ∈ (bucketStepP group d st i).Contigs) :
    (bucketStepP group d st i).contig = x ∧
    (st.contig ∈ (bucketStepP group d st i).Contigs → hiOf st.contig < hiOf x) := by
  have hperm := goSort_perm lessP (bucketOf d i)
  have hl : ∀ c ∈ goSort lessP (bucketOf d i), c.Name ≠ "dummy" :=
    fun c hc => hd c (hperm.mem_iff.1 hc)
  unfold bucketStepP at hm ⊢
  have hrep := innerLoopP_rep group i (goSort lessP (bucketOf d i)) st hl x
    (hperm.mem_iff.2 hx) hg hw (crossStepP_mem _ x hm)
  have hname : (innerLoopP group i st (goSort lessP (bucketOf d i))).tmpContig.Name ≠ "dummy" := by
    rw [← hrep]
    exact hd x hx
  have hm' : (innerLoopP group i st (goSort lessP (bucketOf d i))).tmpContig ∈
      (crossStepP (innerLoopP group i st (goSort lessP (bucketOf d i)))).Contigs := by
    rw [← hrep]
    exact hm
  obtain ⟨h1, h2⟩ := crossStepP_kept _ hname hm'
  rw [innerLoopP_contig, ← hrep] at h2
  rw [← hrep] at h1
  exact ⟨h1, h2⟩

/-- C14, as amended. `filterContigs` compares the representative of a bucket
only with the representative kept just before it. After `filterContigs` on a
not-yet-filtered group without a contig named `dummy`, two remaining contigs
with non-zero-width ranges whose range starts are neighbours (no contig of
the group starts strictly between them) do not overlap: the one that starts
later has the strictly larger upper bound. -/
theorem filterContigs_neighbours (CM CM' : ContigMap) (out : Nat) (A B : Contig)
    (h : CM.filterContigs = .ok (out, CM')) (hf : CM.Filtered = false)
    (hd : ∀ c ∈ CM.Contigs, c.Name ≠ "dummy")
    (hA : A ∈ CM'.Contigs) (hB : B ∈ CM'.Contigs)
    (hAw : hiOf A ≠ loOf A) (hBw : hiOf B ≠ loOf B) (hAB : loOf A < loOf B)
    (hno : ∀ c ∈ CM.Contigs, ¬ (loOf A < loOf c ∧ loOf c < loOf B)) :
    hiOf A < hiOf B := by
  have hr := filterContigs_eq CM _ h
  have hC : CM'.Contigs = (filterLoopP CM).Contigs := by
    have := congrArg (fun r => r.2.Contigs) hr
    exact this
  rw [hC] at hA hB
  obtain ⟨hAcs, hAg⟩ := filterLoopP_mem CM A hA
  obtain ⟨hBcs, hBg⟩ := filterLoopP_mem CM B hB
  obtain ⟨hsorted, hkeys⟩ := sortedKeys_spec CM.Filtered CM.Contigs
  have hkey : ∀ c, keyOf CM.Filtered c = loOf c := by
    intro c
    simp [keyOf, hf]
  have hka := (hkeys (loOf A)).2 ⟨A, hAcs, hkey A⟩
  have hkb := (hkeys (loOf B)).2 ⟨B, hBcs, hkey B⟩
  obtain ⟨pre, post, hks⟩ := sorted_adjacent _ hsorted (loOf A) (loOf B) hka hkb hAB
    (fun k hk => by
      obtain ⟨c, hc, hck⟩ := (hkeys k).1 hk
      rw [← hck, hkey c]
      exact hno c hc)
  unfold filterLoopP at hA hB
  rw [hks, List.foldl_append, List.foldl_cons, List.foldl_cons] at hA hB
  have hA2 := foldl_bucketStepP_subset _ _ _ _ A hA
  have hB2 := foldl_bucketStepP_subset _ _ _ _ B hB
  have hA1 := (bucketStepP_mem _ _ _ _ A hA2).1
  have hdb : ∀ k, ∀ c ∈ bucketOf (buildMapP CM.Filtered CM.Contigs) k, c.Name ≠ "dummy" :=
    fun k c hc => hd c ((mem_bucketOf_buildMapP _ _ _ _).1 hc).1
  have hAb : A ∈ bucketOf (buildMapP CM.Filtered CM.Contigs) (loOf A) :=
    (mem_bucketOf_buildMapP _ _ _ _).2 ⟨hAcs, hkey A⟩
  have hBb : B ∈ bucketOf (buildMapP CM.Filtered CM.Contigs) (loOf B) :=
    (mem_bucketOf_buildMapP _ _ _ _).2 ⟨hBcs, hkey B⟩
  obtain ⟨hc1, _⟩ := bucketStepP_kept CM.Name _ _ (loOf A) A (hdb _) hAb hAg hAw hA1
  obtain ⟨_, hc2⟩ := bucketStepP_kept CM.Name _ _ (loOf B) B (hdb _) hBb hBg hBw hB2
  rw [hc1] at hc2
  exact hc2 hA2

/-- After `filterContigs` on a not-yet-filtered group without a contig named
`dummy`, no two remaining contigs with non-zero-width ranges have the same
range start. -/
theorem filterContigs_one_per_bucket (CM CM' : ContigMap) (out : Nat) (A B : Contig)
    (h : CM.filterContigs = .ok (out, CM')) (hf : CM.Filtered = false)
    (hd : ∀ c ∈ CM.Contigs, c.Name ≠ "dummy")
    (hA : A ∈ CM'.Contigs) (hB : B ∈ CM'.Contigs)
    (hAw : hiOf A ≠ loOf A) (hBw : hiOf B ≠ loOf B) (hAB : loOf A = loOf B) : A = B := by
  have hr := filterContigs_eq CM _ h
  have hC : CM'.Contigs = (filterLoopP CM).Contigs := by
    have := congrArg (fun r => r.2.Contigs) hr
    exact this
  rw [hC] at hA hB
  obtain ⟨hAcs, hAg⟩ := filterLoopP_mem CM A hA
  obtain ⟨hBcs, hBg⟩ := filterLoopP_mem CM B hB
  obtain ⟨_, hkeys⟩ := sortedKeys_spec CM.Filtered CM.Contigs
  have hkey : ∀ c, keyOf CM.Filtered c = loOf c := by
    intro c
    simp [keyOf, hf]
  have hka := (hkeys (loOf A)).2 ⟨A, hAcs, hkey A⟩
  obtain ⟨pre, post, hks⟩ := List.append_of_mem hka
  unfold filterLoopP at hA hB
  rw [hks, List.foldl_append, List.foldl_cons] at hA hB
  have hA1 := foldl_bucketStepP_subset _ _ _ _ A hA
  have hB1 := foldl_bucketStepP_subset _ _ _ _ B hB
  have hdb : ∀ c ∈ bucketOf (buildMapP CM.Filtered CM.Contigs) (loOf A), c.Name ≠ "dummy" :=
    fun c hc => hd c ((mem_bucketOf_buildMapP _ _ _ _).1 hc).1
  have hAb : A ∈ bucketOf (buildMapP CM.Filtered CM.Contigs) (loOf A) :=
    (mem_bucketOf_buildMapP _ _ _ _).2 ⟨hAcs, hkey A⟩
  have hBb : B ∈ bucketOf (buildMapP CM.Filtered CM.Contigs) (loOf A) :=
    (mem_bucketOf_buildMapP _ _ _ _).2 ⟨hBcs, (hkey B).trans hAB.symm⟩
  obtain ⟨hc1, _⟩ := bucketStepP_kept CM.Name _ _ (loOf A) A hdb hAb hAg hAw hA1
  obtain ⟨hc2, _⟩ := bucketStepP_kept CM.Name _ _ (loOf A) B hdb hBb hBg hBw hB1
  exact hc1.symm.trans hc2

/-! ## The buckets partition the contigs -/

theorem flatten_bucketAppend (M : List (Nat × List Contig)) (k : Nat) (c : Contig) :
    (((bucketAppend M k c).map (fun e => e.2)).flatten).Perm
      (c :: (M.map (fun e => e.2)).flatten) := by
  induction M with
  | nil => simp [bucketAppend]
  | cons e M ih =>
    obtain ⟨k0, b⟩ := e
    unfold bucketAppend
    by_cases h : k0 = k
    · simp only [h, if_true, List.map_cons, List.flatten_cons, List.append_assoc]
      exact List.perm_middle
    · simp only [h, if_false, List.map_cons, List.flatten_cons]
      exact ((List.perm_append_left_iff b).2 ih).trans List.perm_middle

theorem flatten_foldl_bucketAppend (key : Contig → Nat) (cs : List Contig)
    (M : List (Nat × List Contig)) :
    (((cs.foldl (fun M c => bucketAppend M (key c) c) M).map (fun e => e.2)).flatten).Perm
      ((M.map (fun e => e.2)).flatten ++ cs) := by
  induction cs generalizing M with
  | nil => simp
  | cons c cs ih =>
    simp only [List.foldl_cons]
    refine (ih _).trans ?_
    refine ((flatten_bucketAppend M (key c) c).append_right cs).trans ?_
    exact List.perm_middle.symm

theorem bucketOf_self (d : List (Nat × List Contig)) (hd : (d.map (fun e => e.1)).Nodup) :
    ∀ e ∈ d, bucketOf d e.1 = e.2 := by
  induction d with
  | nil => simp
  | cons e0 d ih =>
    have hnd : e0.1 ∉ d.map (fun e => e.1) ∧ (d.map (fun e => e.1)).Nodup :=
      List.nodup_cons.1 hd
    intro e he
    rw [bucketOf_cons]
    rcases List.mem_cons.1 he with rfl | he
    · simp
    · have hne : ¬ e0.1 = e.1 := by
        intro h
        apply hnd.1
        rw [h]
        exact List.mem_map.2 ⟨e, he, rfl⟩
      rw [if_neg hne]
      exact ih hnd.2 e he

/-- The buckets taken in the order of the sorted keys hold every contig
exactly once. -/
theorem buckets_perm (filtered : Bool) (cs : List Contig) :
    (((goSort Uintarr ((buildMapP filtered cs).map (fun e => e.1))).map
      (bucketOf (buildMapP filtered cs))).flatten).Perm cs := by
  have hnd := (keys_buildMapP filtered cs).1
  have h1 : ((goSort Uintarr ((buildMapP filtered cs).map (fun e => e.1))).map
      (bucketOf (buildMapP filtered cs))).Perm
      (((buildMapP filtered cs).map (fun e => e.1)).map (bucketOf (buildMapP filtered cs))) :=
    (goSort_perm Uintarr _).map _
  have h2 : ((buildMapP filtered cs).map (fun e => e.1)).map (bucketOf (buildMapP filtered cs)) =
      (buildMapP filtered cs).map (fun e => e.2) := by
    rw [List.map_map]
    apply List.map_congr_left
    intro e he
    exact bucketOf_self _ hnd e he
  rw [h2] at h1
  refine h1.flatten.trans ?_
  have := flatten_foldl_bucketAppend (keyOf filtered) cs []
  simpa [buildMapP] using this

/-! ## WriteMap -/

theorem foldl_append_string (f : Contig → String) (l : List Contig) (h : String) :
    l.foldl (fun out c => out ++ f c) h = h ++ String.join (l.map f) := by
  induction l generalizing h with
  | nil => simp [String.join]
  | cons c l ih =>
    simp only [List.foldl_cons, List.map_cons, ih]
    have hj : ∀ (s : String) (ss : List String),
        ss.foldl (fun r x => r ++ x) s = s ++ ss.foldl (fun r x => r ++ x) "" := by
      intro s ss
      induction ss generalizing s with
      | nil => simp
      | cons x xs ihx =>
        simp only [List.foldl_cons, String.empty_append]
        rw [ihx (s ++ x), ihx x, String.append_assoc]
    unfold String.join
    simp only [List.foldl_cons, String.empty_append]
    rw [hj (f c), String.append_assoc]

/-- C17. `WriteMap` returns the header with the group's name and the count
returned by `filterContigs`, followed by one record `Name \t GenPos \t
Orientation` per contig remaining after filtering, the records being in
non-decreasing order of `GenPos`. -/
theorem WriteMap_records (CM CM' : ContigMap) (text : String)
    (h : CM.WriteMap = .ok (text, CM')) :
    ∃ (deleted : Nat) (order : List Contig), CM.filterContigs = .ok (deleted, CM') ∧
      order.Perm CM'.Contigs ∧
      order.Pairwise (fun a b => a.GenPos ≤ b.GenPos) ∧
      text = "### LG: " ++ CM.Name ++ "\n### Deleted Sequences: " ++ toString deleted ++ "\n" ++
        String.join (order.map recordLine) := by
  unfold ContigMap.WriteMap at h
  cases hf : CM.filterContigs with
  | error e => rw [hf] at h; simp at h
  | ok r =>
    obtain ⟨deleted, CM1⟩ := r
    rw [hf] at h
    simp only at h
    cases hb : CM1.buildMap with
    | error e => rw [hb] at h; simp at h
    | ok finalMap =>
      rw [hb] at h
      simp only [Except.ok.injEq, Prod.mk.injEq] at h
      obtain ⟨htext, hCM⟩ := h
      subst hCM
      have hfp := filterContigs_eq CM _ hf
      have hname : CM1.Name = CM.Name := by
        have := congrArg (fun r => r.2.Name) hfp
        exact this
      have hfilt : CM1.Filtered = true := by
        have := congrArg (fun r => r.2.Filtered) hfp
        exact this
      have hmap := buildMap_eq CM1 finalMap hb
      rw [hfilt] at hmap
      subst hmap
      refine ⟨deleted, ((goSort Uintarr ((buildMapP true CM1.Contigs).map (fun e => e.1))).map
        (bucketOf (buildMapP true CM1.Contigs))).flatten, rfl, buckets_perm true CM1.Contigs,
        ?_, ?_⟩
      · obtain ⟨hsorted, _⟩ := sortedKeys_spec true CM1.Contigs
        rw [List.pairwise_flatten]
        constructor
        · intro l hl
          obtain ⟨k, _, rfl⟩ := List.mem_map.1 hl
          have hall : ∀ c ∈ bucketOf (buildMapP true CM1.Contigs) k, c.GenPos = k := by
            intro c hc
            have := ((mem_bucketOf_buildMapP _ _ _ _).1 hc).2
            simpa [keyOf] using this
          have htriv : (bucketOf (buildMapP true CM1.Contigs) k).Pairwise (fun _ _ => True) :=
            List.pairwise_of_forall (fun _ _ => trivial)
          exact htriv.imp_of_mem (fun ha hb _ => by rw [hall _ ha, hall _ hb])
        · rw [List.pairwise_map]
          refine hsorted.imp ?_
          intro k1 k2 hk x hx y hy
          have h1 := ((mem_bucketOf_buildMapP _ _ _ _).1 hx).2
          have h2 := ((mem_bucketOf_buildMapP _ _ _ _).1 hy).2
          simp only [keyOf, Bool.true_eq_false, if_false] at h1 h2
          omega
      · rw [← htext, hname, ← foldl_append_string, List.foldl_flatten, List.foldl_map]

theorem WriteMap_records_witness :
    ∃ text CM', writeExample.WriteMap = .ok (text, CM') ∧
      text = "### LG: LG1\n### Deleted Sequences: 0\nctg2\t4\t+\nctg3\t4\t+\nctg1\t30\t+\n" ∧
      ∃ (deleted : Nat) (order : List Contig), writeExample.filterContigs = .ok (deleted, CM') ∧
        order.Perm CM'.Contigs ∧
        order.Pairwise (fun a b => a.GenPos ≤ b.GenPos) ∧
        text = "### LG: " ++ writeExample.Name ++ "\n### Deleted Sequences: " ++
          toString deleted ++ "\n" ++ String.join (order.map recordLine) :=
  ⟨_, _, rfl, by decide, WriteMap_records writeExample _ _ rfl⟩

/-! ## A group of two overlapping contigs -/

theorem bucketStepP_singleton (group : String) (d : List (Nat × List Contig))
    (st : FilterState) (i : Nat) (c : Contig) (hb : bucketOf d i = [c])
    (hg : ¬ isBad group c) (hw : hiOf c ≠ loOf c) :
    bucketStepP group d st i = crossStepP { st with tmpContig := c } := by
  unfold bucketStepP innerLoopP
  rw [hb]
  have hs : goSort lessP [c] = [c] := rfl
  rw [hs]
  simp only [List.foldl_cons, List.foldl_nil]
  unfold innerStepP
  rw [if_neg hg, if_neg hw]
  have hd : (dummyContig i).Name = "dummy" := rfl
  simp [hd]

theorem sortedKeys_two (A B : Contig) (cs : List Contig)
    (hcs : cs = [A, B] ∨ cs = [B, A]) (hlo : loOf A < loOf B) :
    goSort Uintarr ((buildMapP false cs).map (fun e => e.1)) = [loOf A, loOf B] ∧
    bucketOf (buildMapP false cs) (loOf A) = [A] ∧
    bucketOf (buildMapP false cs) (loOf B) = [B] := by
  have h1 : ¬ loOf A = loOf B := by omega
  have h2 : ¬ loOf B = loOf A := by omega
  have h3 : ¬ loOf B < loOf A := by omega
  rcases hcs with h | h
  · subst h
    refine ⟨?_, ?_, ?_⟩
    · simp [buildMapP, bucketAppend, keyOf, h1, goSort, bubble, Uintarr, h3]
    · rw [bucketOf_buildMapP]
      simp [keyOf, List.filter_cons, h2]
    · rw [bucketOf_buildMapP]
      simp [keyOf, List.filter_cons, h1]
  · subst h
    refine ⟨?_, ?_, ?_⟩
    · simp [buildMapP, bucketAppend, keyOf, h2, goSort, bubble, Uintarr, hlo]
    · rw [bucketOf_buildMapP]
      simp [keyOf, List.filter_cons, h2]
    · rw [bucketOf_buildMapP]
      simp [keyOf, List.filter_cons, h1]

theorem mapDelete_two (A B : Contig) (cs : List Contig)
    (hcs : cs = [A, B] ∨ cs = [B, A]) (hname : A.Name ≠ B.Name) :
    mapDelete cs B.Name = [A] ∧ mapDelete cs A.Name = [B] ∧
    mapDelete (mapDelete cs B.Name) A.Name = [] := by
  have hname' : B.Name ≠ A.Name := fun h => hname h.symm
  rcases hcs with h | h <;> subst h <;> simp [mapDelete, List.filter_cons, hname, hname']

/-- C15. A not-yet-filtered group holds exactly two contigs `A` and `B` with
distinct names other than `dummy`, both placeable with the group's name as
`LG`, with their ranges set and of non-zero width, where `A` starts before
`B` and `B` ends no later than `A`; the range of `A` is in order,
`Range[0].GenPos <= Range[1].GenPos`, as is every range that `CalculateRange`
sets. Then `filterContigs` returns, keeps exactly the contig of strictly
greater `AvgWeight` and returns 1, and for equal weights it removes both and
returns 2. -/
theorem filterContigs_two_contigs (CM : ContigMap) (A B : Contig)
    (hf : CM.Filtered = false) (hcs : CM.Contigs = [A, B] ∨ CM.Contigs = [B, A])
    (hname : A.Name ≠ B.Name) (hAd : A.Name ≠ "dummy") (hBd : B.Name ≠ "dummy")
    (hAp : A.Placeable = true ∧ A.LG = CM.Name) (hBp : B.Placeable = true ∧ B.LG = CM.Name)
    (hAr : rangeSet A) (hBr : rangeSet B)
    (hAw : hiOf A ≠ loOf A) (hBw : hiOf B ≠ loOf B)
    (hlo : loOf A < loOf B) (hhi : hiOf B ≤ hiOf A) (hord : loOf A ≤ hiOf A) :
    (B.AvgWeight < A.AvgWeight →
      CM.filterContigs = .ok (1, { CM with Contigs := [A], Filtered := true })) ∧
    (A.AvgWeight < B.AvgWeight →
      CM.filterContigs = .ok (1, { CM with Contigs := [B], Filtered := true })) ∧
    (A.AvgWeight = B.AvgWeight →
      CM.filterContigs = .ok (2, { CM with Contigs := [], Filtered := true })) := by
  have hpos : 0 < hiOf A := by omega
  have hok : CM.filterContigs = .ok (filterP CM) := by
    apply filterContigs_ok
    intro c hc
    rcases hcs with h | h <;> rw [h] at hc <;> simp at hc <;> rcases hc with rfl | rfl <;>
      assumption
  have hAg : ¬ isBad CM.Name A := by unfold isBad; simp [hAp.1, hAp.2]
  have hBg : ¬ isBad CM.Name B := by unfold isBad; simp [hBp.1, hBp.2]
  obtain ⟨hk, hbA, hbB⟩ := sortedKeys_two A B CM.Contigs hcs hlo
  obtain ⟨hdB, hdA, hdAB⟩ := mapDelete_two A B CM.Contigs hcs hname
  have h0 : hiOf initialContig = 0 := rfl
  have hnot : ¬ hiOf B > hiOf A := by omega
  -- the state after the first bucket
  have hloop : filterLoopP CM =
      crossStepP { Contigs := CM.Contigs, out := 0, tmpContig := B, contig := A } := by
    unfold filterLoopP
    rw [hf, hk]
    simp only [List.foldl_cons, List.foldl_nil]
    rw [bucketStepP_singleton CM.Name _ _ _ A hbA hAg hAw]
    have h1 : crossStepP { initialState CM.Contigs with tmpContig := A } =
        { Contigs := CM.Contigs, out := 0, tmpContig := A, contig := A } := by
      unfold crossStepP
      simp [hAd, h0, hpos, initialState]
    rw [h1, bucketStepP_singleton CM.Name _ _ _ B hbB hBg hBw]
  have hres : filterP CM =
      ((crossStepP { Contigs := CM.Contigs, out := 0, tmpContig := B, contig := A }).out,
        { CM with
          Contigs :=
            (crossStepP { Contigs := CM.Contigs, out := 0, tmpContig := B, contig := A }).Contigs,
          Filtered := true }) := by
    unfold filterP
    rw [hloop]
  rw [hok, hres]
  refine ⟨fun hw => ?_, fun hw => ?_, fun hw => ?_⟩
  · have e : crossStepP { Contigs := CM.Contigs, out := 0, tmpContig := B, contig := A } =
        { Contigs := [A], out := 1, tmpContig := B, contig := A } := by
      unfold crossStepP
      simp [hBd, hnot, hw, hdB]
    rw [e]
  · have hw' : ¬ B.AvgWeight < A.AvgWeight := by omega
    have e : crossStepP { Contigs := CM.Contigs, out := 0, tmpContig := B, contig := A } =
        { Contigs := [B], out := 1, tmpContig := B, contig := B } := by
      unfold crossStepP
      simp [hBd, hnot, hw, hw', hdA]
    rw [e]
  · have hw1 : ¬ B.AvgWeight < A.AvgWeight := by omega
    have hw2 : ¬ A.AvgWeight < B.AvgWeight := by omega
    have e : crossStepP { Contigs := CM.Contigs, out := 0, tmpContig := B, contig := A } =
        { Contigs := [], out := 2, tmpContig := B, contig := B } := by
      unfold crossStepP
      simp [hBd, hnot, hw1, hw2, hdAB]
    rw [e]

/-! ## Instances of the filter theorems -/

theorem filterContigs_keeps_zero_width_witness :
    (zeroExample.Contigs.map (fun c => c.Name)).Nodup ∧
    (∀ c ∈ zeroExample.Contigs, rangeSet c ∧ loOf c ≤ hiOf c) ∧
    mkContig "ctg0" 4 4 2 4 "LG1" ∈ zeroExample.Contigs ∧
    ∃ out CM', zeroExample.filterContigs = .ok (out, CM') ∧
      mkContig "ctg0" 4 4 2 4 "LG1" ∈ CM'.Contigs :=
  ⟨by decide, by decide, by decide,
    filterContigs_keeps_zero_width zeroExample (mkContig "ctg0" 4 4 2 4 "LG1")
      (by decide) (by decide) (by decide) rfl rfl rfl⟩

theorem filterContigs_neighbours_witness :
    ∃ out CM', neighbourExample.filterContigs = .ok (out, CM') ∧
      mkContig "ctg1" 1 5 1 3 "LG1" ∈ CM'.Contigs ∧
      mkContig "ctg2" 2 10 3 4 "LG1" ∈ CM'.Contigs ∧
      hiOf (mkContig "ctg1" 1 5 1 3 "LG1") < hiOf (mkContig "ctg2" 2 10 3 4 "LG1") :=
  ⟨_, _, rfl, by decide, by decide,
    filterContigs_neighbours neighbourExample _ _ (mkContig "ctg1" 1 5 1 3 "LG1")
      (mkContig "ctg2" 2 10 3 4 "LG1") rfl rfl (by decide) (by decide) (by decide)
      (by decide) (by decide) (by decide) (by decide)⟩

theorem filterContigs_two_contigs_witness :
    (pairExample 5 3).filterContigs =
      .ok (1, { pairExample 5 3 with
        Contigs := [mkContig "ctg1" 1 10 5 3 "LG1"], Filtered := true }) ∧
    (pairExample 3 5).filterContigs =
      .ok (1, { pairExample 3 5 with
        Contigs := [mkContig "ctg2" 2 9 5 4 "LG1"], Filtered := true }) ∧
    (pairExample 3 3).filterContigs =
      .ok (2, { pairExample 3 3 with Contigs := [], Filtered := true }) :=
  ⟨(filterContigs_two_contigs (pairExample 5 3) (mkContig "ctg1" 1 10 5 3 "LG1")
      (mkContig "ctg2" 2 9 3 4 "LG1") rfl (Or.inl rfl) (by decide) (by decide) (by decide)
      (by decide) (by decide) (by decide) (by decide) (by decide) (by decide) (by decide)
      (by decide) (by decide)).1 (by decide),
    (filterContigs_two_contigs (pairExample 3 5) (mkContig "ctg1" 1 10 3 3 "LG1")
      (mkContig "ctg2" 2 9 5 4 "LG1") rfl (Or.inl rfl) (by decide) (by decide) (by decide)
      (by decide) (by decide) (by decide) (by decide) (by decide) (by decide) (by decide)
      (by decide) (by decide)).2.1 (by decide),
    (filterContigs_two_contigs (pairExample 3 3) (mkContig "ctg1" 1 10 3 3 "LG1")
      (mkContig "ctg2" 2 9 3 4 "LG1") rfl (Or.inl rfl) (by decide) (by decide) (by decide)
      (by decide) (by decide) (by decide) (by decide) (by decide) (by decide) (by decide)
      (by decide) (by decide)).2.2 (by decide)⟩

/-! ## The order of a bucket -/

theorem lessP_iff (a b : Contig) :
    lessP a b = true ↔
      a.AvgWeight > b.AvgWeight ∨ (a.AvgWeight = b.AvgWeight ∧ a.Name < b.Name) := by
  unfold lessP
  simp

theorem lessP_false_iff (a b : Contig) :
    lessP a b = false ↔
      a.AvgWeight < b.AvgWeight ∨ (a.AvgWeight = b.AvgWeight ∧ b.Name ≤ a.Name) := by
  rw [← Bool.not_eq_true, lessP_iff]
  constructor
  · intro h
    rcases Nat.lt_trichotomy a.AvgWeight b.AvgWeight with h1 | h1 | h1
    · exact Or.inl h1
    · right
      refine ⟨h1, not_lt.1 (fun hn => h (Or.inr ⟨h1, hn⟩))⟩
    · exact absurd (Or.inl h1) h
  · rintro (h | ⟨h1, h2⟩) (h' | ⟨h3, h4⟩)
    · omega
    · omega
    · omega
    · exact absurd h4 (not_lt.2 h2)

theorem lessP_asymm (a b : Contig) (h : lessP a b = true) : lessP b a = false := by
  rw [lessP_iff] at h
  rw [lessP_false_iff]
  rcases h with h | ⟨h1, h2⟩
  · exact Or.inl h
  · exact Or.inr ⟨h1.symm, le_of_lt h2⟩

theorem lessP_negtrans (a b c : Contig) (h1 : lessP a b = false) (h2 : lessP b c = false) :
    lessP a c = false := by
  rw [lessP_false_iff] at h1 h2 ⊢
  rcases h1 with h1 | ⟨h1, h1'⟩ <;> rcases h2 with h2 | ⟨h2, h2'⟩
  · left; omega
  · left; omega
  · left; omega
  · right
    exact ⟨h1.trans h2, le_trans h2' h1'⟩

theorem lessP_total (a b : Contig) (h : a.Name ≠ b.Name) :
    lessP a b = true ∨ lessP b a = true := by
  rw [lessP_iff, lessP_iff]
  rcases Nat.lt_trichotomy a.AvgWeight b.AvgWeight with h1 | h1 | h1
  · exact Or.inr (Or.inl h1)
  · rcases lt_trichotomy a.Name b.Name with h2 | h2 | h2
    · exact Or.inl (Or.inr ⟨h1, h2⟩)
    · exact absurd h2 h
    · exact Or.inr (Or.inr ⟨h1.symm, h2⟩)
  · exact Or.inl (Or.inl h1)

theorem bubble_sorted_of_order {α : Type} (lt : α → α → Bool)
    (hasym : ∀ a b, lt a b = true → lt b a = false)
    (hneg : ∀ a b c, lt a b = false → lt b c = false → lt a c = false)
    (x : α) (l : List α) (h : l.Pairwise (fun a b => lt a b = false)) :
    (bubble lt x l).Pairwise (fun a b => lt a b = false) := by
  induction l with
  | nil => simp [bubble]
  | cons y ys ih =>
    unfold bubble
    have hy := List.pairwise_cons.1 h
    cases hxy : lt x y with
    | true =>
      simp only [if_true]
      refine List.pairwise_cons.2 ⟨?_, ih hy.2⟩
      intro a ha
      rcases List.mem_cons.1 ((bubble_perm lt x ys).mem_iff.1 ha) with rfl | ha
      · exact hasym _ _ hxy
      · exact hy.1 a ha
    | false =>
      simp only [Bool.false_eq_true, if_false]
      refine List.pairwise_cons.2 ⟨?_, h⟩
      intro a ha
      rcases List.mem_cons.1 ha with rfl | ha
      · exact hxy
      · exact hneg _ _ _ hxy (hy.1 a ha)

theorem goSort_sorted_of_order {α : Type} (lt : α → α → Bool)
    (hasym : ∀ a b, lt a b = true → lt b a = false)
    (hneg : ∀ a b c, lt a b = false → lt b c = false → lt a c = false) (l : List α) :
    (goSort lt l).Pairwise (fun a b => lt b a = false) := by
  unfold goSort
  rw [List.pairwise_reverse]
  have key : ∀ (data acc : List α), acc.Pairwise (fun a b => lt a b = false) →
      (data.foldl (fun revPrefix x => bubble lt x revPrefix) acc).Pairwise
        (fun a b => lt a b = false) := by
    intro data
    induction data with
    | nil => intro acc h; exact h
    | cons x xs ih =>
      intro acc h
      simp only [List.foldl_cons]
      exact ih _ (bubble_sorted_of_order lt hasym hneg x acc h)
  exact key l [] List.Pairwise.nil

/-- A bucket whose contigs have pairwise distinct names is sorted strictly:
each contig comes before every contig that follows it in the order. -/
theorem goSort_lessP_strict (l : List Contig) (hn : (l.map (fun c => c.Name)).Nodup) :
    (goSort lessP l).Pairwise (fun a b => lessP a b = true) := by
  have hperm := goSort_perm lessP l
  have hnd : ((goSort lessP l).map (fun c => c.Name)).Nodup :=
    (hperm.map _).nodup_iff.2 hn
  have hne : (goSort lessP l).Pairwise (fun a b => a.Name ≠ b.Name) := by
    unfold List.Nodup at hnd
    exact List.pairwise_map.1 hnd
  refine ((goSort_sorted_of_order lessP lessP_asymm lessP_negtrans l).and hne).imp ?_
  intro a b h
  rcases lessP_total a b h.2 with h1 | h1
  · exact h1
  · rw [h.1] at h1
    exact absurd h1 (by decide)

theorem lessP_sorted_unique (l₁ l₂ : List Contig) (hp : l₁.Perm l₂)
    (h1 : l₁.Pairwise (fun a b => lessP a b = true))
    (h2 : l₂.Pairwise (fun a b => lessP a b = true)) : l₁ = l₂ := by
  have anti : IsAntisymm Contig (fun a b => lessP a b = true) :=
    ⟨fun a b hab hba => by
      rw [lessP_asymm a b hab] at hba
      exact absurd hba (by decide)⟩
  exact List.eq_of_perm_of_sorted hp h1 h2

/-- Sorting a part of a bucket gives that part of the sorted bucket. -/
theorem goSort_lessP_filter (l : List Contig) (hn : (l.map (fun c => c.Name)).Nodup)
    (p : Contig → Bool) : goSort lessP (l.filter p) = (goSort lessP l).filter p := by
  apply lessP_sorted_unique
  · exact (goSort_perm lessP _).trans ((goSort_perm lessP l).filter p).symm
  · apply goSort_lessP_strict
    exact hn.sublist ((List.filter_sublist l).map _)
  · exact (goSort_lessP_strict l hn).filter p

/-! ## Dropped contigs are counted on their own -/

theorem mapDelete_filter (M : List Contig) (n : String) (p : Contig → Bool) :
    (mapDelete M n).filter p = mapDelete (M.filter p) n := by
  unfold mapDelete
  rw [List.filter_filter, List.filter_filter]
  apply List.filter_congr
  intro x _
  exact Bool.and_comm _ _

theorem mapDelete_bad (group : String) (cs M : List Contig)
    (hn : (cs.map (fun c => c.Name)).Nodup) (hM : ∀ x ∈ M, x ∈ cs) (c : Contig) (hc : c ∈ cs)
    (hb : isBad group c) : (mapDelete M c.Name).filter (isGood group) = M.filter (isGood group) := by
  unfold mapDelete
  rw [List.filter_filter]
  apply List.filter_congr
  intro x hx
  by_cases hg : isGood group x = true
  · have hne : x.Name ≠ c.Name := by
      intro hname
      have := name_inj cs hn x c (hM x hx) hc hname
      subst this
      simp [isGood, hb] at hg
    simp [hg, hne]
  · simp [hg]

theorem innerStepP_sameKept (group : String) (i : Nat) (cs : List Contig)
    (hn : (cs.map (fun c => c.Name)).Nodup) (s1 s2 : FilterState) (c : Contig) (hc : c ∈ cs)
    (h : SameKept group cs s1 s2) :
    (isBad group c →
      SameKept group cs (innerStepP group i s1 c) s2 ∧
      (innerStepP group i s1 c).out = s1.out + 1) ∧
    (¬ isBad group c →
      SameKept group cs (innerStepP group i s1 c) (innerStepP group i s2 c) ∧
      (innerStepP group i s1 c).out + s2.out = (innerStepP group i s2 c).out + s1.out) := by
  obtain ⟨hC, hco, ht, hsub⟩ := h
  constructor
  · intro hb
    unfold innerStepP
    rw [if_pos hb]
    refine ⟨⟨?_, hco, ht, ?_⟩, rfl⟩
    · rw [hC]
      exact (mapDelete_bad group cs s1.Contigs hn hsub c hc hb).symm
    · intro x hx
      exact hsub x ((mem_mapDelete _ _ _).1 hx).1
  · intro hg
    unfold innerStepP
    rw [if_neg hg, if_neg hg, ht]
    have hsub1 : ∀ n, ∀ x ∈ mapDelete s1.Contigs n, x ∈ cs :=
      fun n x hx => hsub x ((mem_mapDelete _ _ _).1 hx).1
    have hsub2 : ∀ n m, ∀ x ∈ mapDelete (mapDelete s1.Contigs n) m, x ∈ cs :=
      fun n m x hx => hsub1 n x ((mem_mapDelete _ _ _).1 hx).1
    split
    · exact ⟨⟨hC, hco, ht, hsub⟩, Nat.add_comm _ _⟩
    · split
      · exact ⟨⟨hC, hco, rfl, hsub⟩, Nat.add_comm _ _⟩
      · split
        · refine ⟨⟨?_, hco, rfl, hsub2 _ _⟩, ?_⟩
          · simp only [hC, mapDelete_filter]
          · simp only
            omega
        · refine ⟨⟨?_, hco, rfl, hsub1 _⟩, ?_⟩
          · simp only [hC, mapDelete_filter]
          · simp only
            omega

theorem foldl_innerStepP_sameKept (group : String) (i : Nat) (cs : List Contig)
    (hn : (cs.map (fun c => c.Name)).Nodup) (l : List Contig) (hl : ∀ c ∈ l, c ∈ cs)
    (s1 s2 : FilterState) (h : SameKept group cs s1 s2) :
    SameKept group cs (l.foldl (innerStepP group i) s1)
      ((l.filter (isGood group)).foldl (innerStepP group i) s2) ∧
    (l.foldl (innerStepP group i) s1).out + s2.out =
      ((l.filter (isGood group)).foldl (innerStepP group i) s2).out + s1.out +
        l.countP (fun c => !isGood group c) := by
  induction l generalizing s1 s2 with
  | nil => exact ⟨h, by simp; omega⟩
  | cons c l ih =>
    have hc := hl c (List.mem_cons_self _ _)
    have hl' : ∀ c ∈ l, c ∈ cs := fun c hc => hl c (List.mem_cons_of_mem _ hc)
    obtain ⟨hbad, hgood⟩ := innerStepP_sameKept group i cs hn s1 s2 c hc h
    by_cases hb : isBad group c
    · obtain ⟨h1, h2⟩ := hbad hb
      obtain ⟨h3, h4⟩ := ih hl' _ _ h1
      have hg : isGood group c = false := by simp [isGood, hb]
      simp only [List.foldl_cons, List.filter_cons, hg, Bool.false_eq_true, if_false,
        List.countP_cons, Bool.not_false, if_true]
      refine ⟨h3, ?_⟩
      omega
    · obtain ⟨h1, h2⟩ := hgood hb
      obtain ⟨h3, h4⟩ := ih hl' _ _ h1
      have hg : isGood group c = true := by simp [isGood, hb]
      simp only [List.foldl_cons, List.filter_cons, hg, if_true, List.countP_cons,
        Bool.not_true, Bool.false_eq_true, if_false]
      refine ⟨h3, ?_⟩
      omega

theorem crossStepP_sameKept (group : String) (cs : List Contig) (s1 s2 : FilterState)
    (h : SameKept group cs s1 s2) :
    SameKept group cs (crossStepP s1) (crossStepP s2) ∧
    (crossStepP s1).out + s2.out = (crossStepP s2).out + s1.out := by
  obtain ⟨hC, hco, ht, hsub⟩ := h
  have hsub1 : ∀ n, ∀ x ∈ mapDelete s1.Contigs n, x ∈ cs :=
    fun n x hx => hsub x ((mem_mapDelete _ _ _).1 hx).1
  have hsub2 : ∀ n m, ∀ x ∈ mapDelete (mapDelete s1.Contigs n) m, x ∈ cs :=
    fun n m x hx => hsub1 n x ((mem_mapDelete _ _ _).1 hx).1
  unfold crossStepP
  rw [ht, hco]
  split
  · exact ⟨⟨hC, hco, ht, hsub⟩, Nat.add_comm _ _⟩
  · split
    · exact ⟨⟨hC, rfl, rfl, hsub⟩, Nat.add_comm _ _⟩
    · split
      · refine ⟨⟨?_, rfl, rfl, hsub1 _⟩, ?_⟩
        · simp only [hC, mapDelete_filter]
        · simp only
          omega
      · split
        · refine ⟨⟨?_, rfl, rfl, hsub1 _⟩, ?_⟩
          · simp only [hC, mapDelete_filter]
          · simp only
            omega
        · refine ⟨⟨?_, rfl, rfl, hsub2 _ _⟩, ?_⟩
          · simp only [hC, mapDelete_filter]
          · simp only
            omega

theorem strict_sorted_ext (l₁ l₂ : List Nat) (h1 : l₁.Pairwise (fun a b => a < b))
    (h2 : l₂.Pairwise (fun a b => a < b)) (hmem : ∀ k, k ∈ l₁ ↔ k ∈ l₂) : l₁ = l₂ := by
  have n1 : l₁.Nodup := h1.imp (fun h => Nat.ne_of_lt h)
  have n2 : l₂.Nodup := h2.imp (fun h => Nat.ne_of_lt h)
  have hp : l₁.Perm l₂ := (List.perm_ext_iff_of_nodup n1 n2).2 hmem
  have anti : IsAntisymm Nat (fun a b => a < b) :=
    ⟨fun a b hab hba => absurd hab (Nat.lt_asymm hba)⟩
  exact List.eq_of_perm_of_sorted hp h1 h2

theorem bucketOf_good (group : String) (filtered : Bool) (cs : List Contig) (k : Nat) :
    bucketOf (buildMapP filtered (cs.filter (isGood group))) k =
      (bucketOf (buildMapP filtered cs) k).filter (isGood group) := by
  rw [bucketOf_buildMapP, bucketOf_buildMapP, List.filter_filter, List.filter_filter]
  apply List.filter_congr
  intro x _
  exact Bool.and_comm _ _

theorem sortedKeys_good (group : String) (filtered : Bool) (cs : List Contig) :
    goSort Uintarr ((buildMapP filtered (cs.filter (isGood group))).map (fun e => e.1)) =
      (goSort Uintarr ((buildMapP filtered cs).map (fun e => e.1))).filter
        (fun k => !(bucketOf (buildMapP filtered (cs.filter (isGood group))) k).isEmpty) := by
  obtain ⟨hs1, hm1⟩ := sortedKeys_spec filtered cs
  obtain ⟨hs2, hm2⟩ := sortedKeys_spec filtered (cs.filter (isGood group))
  apply strict_sorted_ext _ _ hs2 (hs1.filter _)
  intro k
  rw [hm2, List.mem_filter, hm1]
  constructor
  · rintro ⟨c, hc, hk⟩
    refine ⟨⟨c, (List.mem_filter.1 hc).1, hk⟩, ?_⟩
    have : c ∈ bucketOf (buildMapP filtered (cs.filter (isGood group))) k :=
      (mem_bucketOf_buildMapP _ _ _ _).2 ⟨hc, hk⟩
    cases hb : bucketOf (buildMapP filtered (cs.filter (isGood group))) k with
    | nil => rw [hb] at this; simp at this
    | cons x xs => simp
  · rintro ⟨_, hne⟩
    cases hb : bucketOf (buildMapP filtered (cs.filter (isGood group))) k with
    | nil => rw [hb] at hne; simp at hne
    | cons x xs =>
      have hx : x ∈ bucketOf (buildMapP filtered (cs.filter (isGood group))) k := by
        rw [hb]
        exact List.mem_cons_self _ _
      obtain ⟨h1, h2⟩ := (mem_bucketOf_buildMapP _ _ _ _).1 hx
      exact ⟨x, h1, h2⟩

/-- One bucket in the two runs: with and without the contigs that the first
case of the loop drops. -/
theorem bucketStepP_sameKept (group : String) (filtered : Bool) (cs : List Contig)
    (hn : (cs.map (fun c => c.Name)).Nodup) (s1 s2 : FilterState) (k : Nat)
    (hC : s2.Contigs = s1.Contigs.filter (isGood group)) (hco : s2.contig = s1.contig)
    (hsub : ∀ x ∈ s1.Contigs, x ∈ cs) :
    ∃ t2, (t2 = if (bucketOf (buildMapP filtered (cs.filter (isGood group))) k).isEmpty then s2
        else bucketStepP group (buildMapP filtered (cs.filter (isGood group))) s2 k) ∧
      t2.Contigs = (bucketStepP group (buildMapP filtered cs) s1 k).Contigs.filter
        (isGood group) ∧
      t2.contig = (bucketStepP group (buildMapP filtered cs) s1 k).contig ∧
      (∀ x ∈ (bucketStepP group (buildMapP filtered cs) s1 k).Contigs, x ∈ cs) ∧
      (bucketStepP group (buildMapP filtered cs) s1 k).out + s2.out =
        t2.out + s1.out +
          (bucketOf (buildMapP filtered cs) k).countP (fun c => !isGood group c) := by
  have hbsub : ∀ c ∈ bucketOf (buildMapP filtered cs) k, c ∈ cs :=
    fun c hc => ((mem_bucketOf_buildMapP _ _ _ _).1 hc).1
  have hbn : ((bucketOf (buildMapP filtered cs) k).map (fun c => c.Name)).Nodup := by
    rw [bucketOf_buildMapP]
    exact hn.sublist ((List.filter_sublist cs).map _)
  have hperm := goSort_perm lessP (bucketOf (buildMapP filtered cs) k)
  have hsort : goSort lessP (bucketOf (buildMapP filtered (cs.filter (isGood group))) k) =
      (goSort lessP (bucketOf (buildMapP filtered cs) k)).filter (isGood group) := by
    rw [bucketOf_good, goSort_lessP_filter _ hbn]
  have h0 : SameKept group cs { s1 with tmpContig := dummyContig k }
      { s2 with tmpContig := dummyContig k } := ⟨hC, hco, rfl, hsub⟩
  obtain ⟨h1, h2⟩ := foldl_innerStepP_sameKept group k cs hn
    (goSort lessP (bucketOf (buildMapP filtered cs) k))
    (fun c hc => hbsub c (hperm.mem_iff.1 hc)) _ _ h0
  obtain ⟨h3, h4⟩ := crossStepP_sameKept group cs _ _ h1
  have hcount : (goSort lessP (bucketOf (buildMapP filtered cs) k)).countP
      (fun c => !isGood group c) =
      (bucketOf (buildMapP filtered cs) k).countP (fun c => !isGood group c) :=
    hperm.countP_eq _
  rw [hcount] at h2
  simp only at h2
  by_cases he : (bucketOf (buildMapP filtered (cs.filter (isGood group))) k).isEmpty = true
  · have hnil : bucketOf (buildMapP filtered (cs.filter (isGood group))) k = [] :=
      List.isEmpty_iff.1 he
    have hfn : (goSort lessP (bucketOf (buildMapP filtered cs) k)).filter (isGood group) = [] := by
      rw [← hsort, hnil]
      rfl
    rw [hfn] at h1 h2 h3 h4
    simp only [List.foldl_nil] at h1 h2 h3 h4
    have hcr : crossStepP { s2 with tmpContig := dummyContig k } =
        { s2 with tmpContig := dummyContig k } := by
      unfold crossStepP
      simp [dummyContig]
    rw [hcr] at h3 h4
    refine ⟨s2, by rw [if_pos he], ?_, ?_, ?_, ?_⟩
    · exact h3.1
    · exact h3.2.1
    · exact h3.2.2.2
    · unfold bucketStepP innerLoopP
      simp only at h4
      omega
  · refine ⟨bucketStepP group (buildMapP filtered (cs.filter (isGood group))) s2 k,
      by rw [if_neg he], ?_, ?_, ?_, ?_⟩
    · unfold bucketStepP innerLoopP
      rw [hsort]
      exact h3.1
    · unfold bucketStepP innerLoopP
      rw [hsort]
      exact h3.2.1
    · exact h3.2.2.2
    · unfold bucketStepP innerLoopP
      rw [hsort]
      omega

/-- The loop over the buckets in the two runs. -/
theorem foldl_bucketStepP_sameKept (group : String) (filtered : Bool) (cs : List Contig)
    (hn : (cs.map (fun c => c.Name)).Nodup) (ks : List Nat) (s1 s2 : FilterState)
    (hC : s2.Contigs = s1.Contigs.filter (isGood group)) (hco : s2.contig = s1.contig)
    (hsub : ∀ x ∈ s1.Contigs, x ∈ cs) :
    ((ks.filter (fun k =>
        !(bucketOf (buildMapP filtered (cs.filter (isGood group))) k).isEmpty)).foldl
      (bucketStepP group (buildMapP filtered (cs.filter (isGood group)))) s2).Contigs =
      (ks.foldl (bucketStepP group (buildMapP filtered cs)) s1).Contigs.filter (isGood group) ∧
    (ks.foldl (bucketStepP group (buildMapP filtered cs)) s1).out + s2.out =
      ((ks.filter (fun k =>
        !(bucketOf (buildMapP filtered (cs.filter (isGood group))) k).isEmpty)).foldl
      (bucketStepP group (buildMapP filtered (cs.filter (isGood group)))) s2).out + s1.out +
        ((ks.map (bucketOf (buildMapP filtered cs))).flatten).countP
          (fun c => !isGood group c) := by
  induction ks generalizing s1 s2 with
  | nil => exact ⟨hC, by simp; omega⟩
  | cons k ks ih =>
    obtain ⟨t2, ht, h1, h2, h3, h4⟩ :=
      bucketStepP_sameKept group filtered cs hn s1 s2 k hC hco hsub
    obtain ⟨i1, i2⟩ := ih _ t2 h1 h2 h3
    have hfold : ((k :: ks).filter (fun k =>
        !(bucketOf (buildMapP filtered (cs.filter (isGood group))) k).isEmpty)).foldl
        (bucketStepP group (buildMapP filtered (cs.filter (isGood group)))) s2 =
        (ks.filter (fun k =>
          !(bucketOf (buildMapP filtered (cs.filter (isGood group))) k).isEmpty)).foldl
        (bucketStepP group (buildMapP filtered (cs.filter (isGood group)))) t2 := by
      by_cases he : (bucketOf (buildMapP filtered (cs.filter (isGood group))) k).isEmpty = true
      · rw [if_pos he] at ht
        rw [List.filter_cons_of_neg (by simp [he]), ht]
      · rw [if_neg he] at ht
        rw [List.filter_cons_of_pos (by simp [he]), List.foldl_cons, ht]
    rw [hfold]
    refine ⟨i1, ?_⟩
    simp only [List.foldl_cons, List.map_cons, List.flatten_cons, List.countP_append]
    omega

/-- The whole loop in the two runs: the contigs left are the same, and the
first run counts one more for each contig that its first case drops. -/
theorem filterLoopP_sameKept (CM : ContigMap)
    (hn : (CM.Contigs.map (fun c => c.Name)).Nodup) :
    (filterLoopP { CM with Contigs := CM.Contigs.filter (isGood CM.Name) }).Contigs =
      (filterLoopP CM).Contigs ∧
    (filterLoopP CM).out =
      (filterLoopP { CM with Contigs := CM.Contigs.filter (isGood CM.Name) }).out +
        CM.Contigs.countP (fun c => !isGood CM.Name c) := by
  obtain ⟨h1, h2⟩ := foldl_bucketStepP_sameKept CM.Name CM.Filtered CM.Contigs hn
    (goSort Uintarr ((buildMapP CM.Filtered CM.Contigs).map (fun e => e.1)))
    (initialState CM.Contigs) (initialState (CM.Contigs.filter (isGood CM.Name)))
    rfl rfl (fun x hx => hx)
  rw [← sortedKeys_good] at h1 h2
  rw [(buckets_perm CM.Filtered CM.Contigs).countP_eq] at h2
  have hall : (filterLoopP CM).Contigs.filter (isGood CM.Name) = (filterLoopP CM).Contigs := by
    apply List.filter_eq_self.2
    intro x hx
    have := (filterLoopP_mem CM x hx).2
    simp [isGood, this]
  constructor
  · unfold filterLoopP at hall ⊢
    rw [← hall]
    exact h1
  · unfold filterLoopP
    simp only [initialState] at h2
    simp only [initialState]
    omega

/-! ## Unplaceable contigs and contigs of another group -/

/-- A loop stops with the panic of its body at an element on which the body
always panics, when the body knows no other panic. -/
theorem foldE_error_of_mem {σ α : Type} (f : σ → α → Except Fault σ) (e : Fault)
    (hE : ∀ s x e', f s x = .error e' → e' = e) (l : List α) (x : α) (hx : x ∈ l)
    (hf : ∀ s, f s x = .error e) (s : σ) : foldE f s l = .error e := by
  induction l generalizing s with
  | nil => simp at hx
  | cons y ys ih =>
    unfold foldE
    cases hy : f s y with
    | error e' => rw [hE s y e' hy]
    | ok s' =>
      simp only
      rcases List.mem_cons.1 hx with h | h
      · rw [← h, hf s] at hy
        simp at hy
      · exact ih h s'

/-- On a not-yet-filtered group `buildMap` reads `c.Range[0].GenPos` of every
contig: one nil `Range[0]` makes `filterContigs` stop with a nil dereference. -/
theorem filterContigs_nil_range (CM : ContigMap) (hf : CM.Filtered = false) (c : Contig)
    (hc : c ∈ CM.Contigs) (hr : c.Range.1 = none) :
    CM.filterContigs = .error .nilDereference := by
  have hb : CM.buildMap = .error .nilDereference := by
    unfold ContigMap.buildMap
    rw [if_pos hf]
    apply foldE_error_of_mem _ _ _ _ c hc
    · intro M
      simp [hr, derefGenPos]
    · intro M x e' h
      cases hx : x.Range.1 with
      | none =>
        simp only [hx, derefGenPos] at h
        injection h with h
        exact h.symm
      | some m => simp [hx, derefGenPos] at h
  unfold ContigMap.filterContigs
  rw [hb]

/-- C12, as stated, fails: `CalculateRange` returns early on an unplaceable
contig, so a contig that `Autocomplete` leaves unplaceable has both `Range`
entries nil. In a not-yet-filtered group `buildMap` reads `c.Range[0].GenPos`
of every contig, and `filterContigs` stops with a nil dereference: the contig
is neither removed nor counted. -/
theorem filterContigs_unplaceable_counterexample :
    ∃ out c', conflictExample.Autocomplete = .ok (out, c') ∧
      c'.Placeable = false ∧ c'.LG = "LG1" ∧ c'.Range = (none, none) ∧
      (groupOf "LG1" [c']).Filtered = false ∧ (groupOf "LG1" [c']).Contigs = [c'] ∧
      (groupOf "LG1" [c']).filterContigs = .error .nilDereference :=
  ⟨_, _, rfl, rfl, rfl, rfl, rfl, rfl, rfl⟩

/-- C12, amended. Whenever `filterContigs` returns, every contig left in
`Contigs` was in the group before, is placeable and has the group's name as
`LG`. For a group with distinct contig names in which every contig has both
`Range` entries set, `filterContigs` returns both on the group and on the
group without its contigs that are unplaceable or of another `LG`; the two
runs leave the same contigs, and the count of the first run is the count of
the second plus the number of those contigs. On a not-yet-filtered group that
holds a contig whose `Range[0]` is nil, `filterContigs` does not return: it
stops with a nil dereference. -/
theorem filterContigs_drops_unplaceable (CM : ContigMap) :
    (∀ out CM', CM.filterContigs = .ok (out, CM') →
      ∀ c ∈ CM'.Contigs, c ∈ CM.Contigs ∧ c.Placeable = true ∧ c.LG = CM.Name) ∧
    ((CM.Contigs.map (fun c => c.Name)).Nodup → (∀ c ∈ CM.Contigs, rangeSet c) →
      ∃ (out out₀ : Nat) (CM' CM₀ : ContigMap),
        CM.filterContigs = .ok (out, CM') ∧
        ContigMap.filterContigs
          { CM with Contigs := CM.Contigs.filter (isGood CM.Name) } = .ok (out₀, CM₀) ∧
        CM'.Contigs = CM₀.Contigs ∧
        out = out₀ + CM.Contigs.countP (fun c => !isGood CM.Name c)) ∧
    (CM.Filtered = false → (∃ c ∈ CM.Contigs, c.Range.1 = none) →
      CM.filterContigs = .error .nilDereference) := by
  refine ⟨?_, ?_, ?_⟩
  · intro out CM' h c hc
    have e := filterContigs_eq CM _ h
    have e2 : CM' = (filterP CM).2 := congrArg Prod.snd e
    rw [e2] at hc
    obtain ⟨h1, h2⟩ := filterLoopP_mem CM c hc
    unfold isBad at h2
    refine ⟨h1, ?_, ?_⟩
    · cases hp : c.Placeable with
      | true => rfl
      | false => exact absurd (Or.inl hp) h2
    · by_contra hl
      exact h2 (Or.inr hl)
  · intro hn hr
    obtain ⟨h1, h2⟩ := filterLoopP_sameKept CM hn
    refine ⟨_, _, _, _, filterContigs_ok CM hr,
      filterContigs_ok { CM with Contigs := CM.Contigs.filter (isGood CM.Name) }
        (fun c hc => hr c (List.mem_filter.1 hc).1), ?_, ?_⟩
    · exact h1.symm
    · exact h2
  · rintro hf ⟨c, hc, hr⟩
    exact filterContigs_nil_range CM hf c hc hr

theorem filterContigs_drops_unplaceable_witness :
    (dropExample.Contigs.map (fun c => c.Name)).Nodup ∧
    (∀ c ∈ dropExample.Contigs, rangeSet c) ∧
    dropExample.Contigs.countP (fun c => !isGood dropExample.Name c) = 2 ∧
    ∃ (out out₀ : Nat) (CM' CM₀ : ContigMap),
      dropExample.filterContigs = .ok (out, CM') ∧
      ContigMap.filterContigs
        { dropExample with
          Contigs := dropExample.Contigs.filter (isGood dropExample.Name) } =
        .ok (out₀, CM₀) ∧
      CM'.Contigs = CM₀.Contigs ∧
      out = out₀ + dropExample.Contigs.countP (fun c => !isGood dropExample.Name c) :=
  ⟨by decide, by decide, by decide,
    (filterContigs_drops_unplaceable dropExample).2.1 (by decide) (by decide)⟩

/-! ## The order of enumeration -/

theorem sortedKeys_perm (filtered : Bool) (cs₁ cs₂ : List Contig) (hp : cs₁.Perm cs₂) :
    goSort Uintarr ((buildMapP filtered cs₁).map (fun e => e.1)) =
      goSort Uintarr ((buildMapP filtered cs₂).map (fun e => e.1)) := by
  obtain ⟨hs1, hm1⟩ := sortedKeys_spec filtered cs₁
  obtain ⟨hs2, hm2⟩ := sortedKeys_spec filtered cs₂
  apply strict_sorted_ext _ _ hs1 hs2
  intro k
  rw [hm1, hm2]
  constructor
  · rintro ⟨c, hc, hk⟩
    exact ⟨c, hp.mem_iff.1 hc, hk⟩
  · rintro ⟨c, hc, hk⟩
    exact ⟨c, hp.mem_iff.2 hc, hk⟩

theorem sortedBucket_perm (filtered : Bool) (cs₁ cs₂ : List Contig) (hp : cs₁.Perm cs₂)
    (hn : (cs₁.map (fun c => c.Name)).Nodup) (k : Nat) :
    goSort lessP (bucketOf (buildMapP filtered cs₁) k) =
      goSort lessP (bucketOf (buildMapP filtered cs₂) k) := by
  have hn2 : (cs₂.map (fun c => c.Name)).Nodup := (hp.map _).nodup_iff.1 hn
  apply lessP_sorted_unique
  · rw [bucketOf_buildMapP, bucketOf_buildMapP]
    exact (goSort_perm lessP _).trans ((hp.filter _).trans (goSort_perm lessP _).symm)
  · apply goSort_lessP_strict
    rw [bucketOf_buildMapP]
    exact hn.sublist ((List.filter_sublist cs₁).map _)
  · apply goSort_lessP_strict
    rw [bucketOf_buildMapP]
    exact hn2.sublist ((List.filter_sublist cs₂).map _)

theorem mapDelete_perm (M₁ M₂ : List Contig) (h : M₁.Perm M₂) (n : String) :
    (mapDelete M₁ n).Perm (mapDelete M₂ n) :=
  h.filter _

theorem innerStepP_perm (group : String) (i : Nat) (s1 s2 : FilterState) (c : Contig)
    (h : SameUpToOrder s1 s2) :
    SameUpToOrder (innerStepP group i s1 c) (innerStepP group i s2 c) := by
  obtain ⟨hC, ho, ht, hco⟩ := h
  unfold innerStepP
  rw [ht, ho]
  repeat' split
  · exact ⟨mapDelete_perm _ _ hC _, rfl, rfl, hco⟩
  · exact ⟨hC, ho, ht, hco⟩
  · exact ⟨hC, rfl, rfl, hco⟩
  · exact ⟨mapDelete_perm _ _ (mapDelete_perm _ _ hC _) _, rfl, rfl, hco⟩
  · exact ⟨mapDelete_perm _ _ hC _, rfl, rfl, hco⟩

theorem crossStepP_perm (s1 s2 : FilterState) (h : SameUpToOrder s1 s2) :
    SameUpToOrder (crossStepP s1) (crossStepP s2) := by
  obtain ⟨hC, ho, ht, hco⟩ := h
  unfold crossStepP
  rw [ht, ho, hco]
  repeat' split
  · exact ⟨hC, ho, ht, hco⟩
  · exact ⟨hC, rfl, rfl, rfl⟩
  · exact ⟨mapDelete_perm _ _ hC _, rfl, rfl, rfl⟩
  · exact ⟨mapDelete_perm _ _ hC _, rfl, rfl, rfl⟩
  · exact ⟨mapDelete_perm _ _ (mapDelete_perm _ _ hC _) _, rfl, rfl, rfl⟩

theorem foldl_innerStepP_perm (group : String) (i : Nat) (l : List Contig)
    (s1 s2 : FilterState) (h : SameUpToOrder s1 s2) :
    SameUpToOrder (l.foldl (innerStepP group i) s1) (l.foldl (innerStepP group i) s2) := by
  induction l generalizing s1 s2 with
  | nil => exact h
  | cons c l ih => exact ih _ _ (innerStepP_perm group i s1 s2 c h)

theorem bucketStepP_perm (group : String) (filtered : Bool) (cs₁ cs₂ : List Contig)
    (hp : cs₁.Perm cs₂) (hn : (cs₁.map (fun c => c.Name)).Nodup) (k : Nat)
    (s1 s2 : FilterState) (h : SameUpToOrder s1 s2) :
    SameUpToOrder (bucketStepP group (buildMapP filtered cs₁) s1 k)
      (bucketStepP group (buildMapP filtered cs₂) s2 k) := by
  unfold bucketStepP innerLoopP
  rw [sortedBucket_perm filtered cs₁ cs₂ hp hn k]
  apply crossStepP_perm
  apply foldl_innerStepP_perm
  exact ⟨h.1, h.2.1, rfl, h.2.2.2⟩

theorem foldl_bucketStepP_perm (group : String) (filtered : Bool) (cs₁ cs₂ : List Contig)
    (hp : cs₁.Perm cs₂) (hn : (cs₁.map (fun c => c.Name)).Nodup) (ks : List Nat)
    (s1 s2 : FilterState) (h : SameUpToOrder s1 s2) :
    SameUpToOrder (ks.foldl (bucketStepP group (buildMapP filtered cs₁)) s1)
      (ks.foldl (bucketStepP group (buildMapP filtered cs₂)) s2) := by
  induction ks generalizing s1 s2 with
  | nil => exact h
  | cons k ks ih => exact ih _ _ (bucketStepP_perm group filtered cs₁ cs₂ hp hn k s1 s2 h)

/-- The loop of `filterContigs` on two enumerations of the same contigs. -/
theorem filterLoopP_perm (CM₁ CM₂ : ContigMap) (hN : CM₁.Name = CM₂.Name)
    (hF : CM₁.Filtered = CM₂.Filtered) (hP : CM₁.Contigs.Perm CM₂.Contigs)
    (hn : (CM₁.Contigs.map (fun c => c.Name)).Nodup) :
    SameUpToOrder (filterLoopP CM₁) (filterLoopP CM₂) := by
  unfold filterLoopP
  rw [← hN, ← hF, ← sortedKeys_perm CM₁.Filtered _ _ hP]
  apply foldl_bucketStepP_perm _ _ _ _ hP hn
  exact ⟨hP, rfl, rfl, rfl⟩

/-! ## The order of insertion -/

theorem contigSet_perm (l : List Contig) (hl : (l.map (fun c => c.Name)).Nodup) (c : Contig) :
    (contigSet l c).Perm (c :: mapDelete l c.Name) := by
  induction l with
  | nil => exact List.Perm.refl _
  | cons x xs ih =>
    have hx := List.nodup_cons.1 (by simpa using hl :
      (x.Name :: xs.map (fun c => c.Name)).Nodup)
    unfold contigSet mapDelete
    by_cases h : x.Name = c.Name
    · rw [if_pos h, List.filter_cons_of_neg (by simp [h])]
      rw [List.filter_eq_self.2]
      intro y hy
      have : y.Name ≠ c.Name := by
        intro hyc
        apply hx.1
        rw [h, ← hyc]
        exact List.mem_map_of_mem _ hy
      simpa using this
    · rw [if_neg h, List.filter_cons_of_pos (by simpa using h)]
      exact ((ih hx.2).cons x).trans (List.Perm.swap _ _ _)

theorem contigSet_nodup (l : List Contig) (hl : (l.map (fun c => c.Name)).Nodup) (c : Contig) :
    ((contigSet l c).map (fun c => c.Name)).Nodup := by
  rw [((contigSet_perm l hl c).map _).nodup_iff, List.map_cons, List.nodup_cons]
  constructor
  · intro h
    obtain ⟨y, hy, hyc⟩ := List.mem_map.1 h
    exact ((mem_mapDelete _ _ _).1 hy).2 hyc
  · exact hl.sublist ((List.filter_sublist l).map _)

/-- After the assignments `(*C)[c.Name] = c` for contigs with distinct names the
map holds these contigs and the earlier entries under other names. -/
theorem foldl_contigSet_perm (cs l : List Contig) (hl : (l.map (fun c => c.Name)).Nodup)
    (hn : (cs.map (fun c => c.Name)).Nodup) :
    (cs.foldl contigSet l).Perm
      (cs ++ l.filter (fun x => decide (x.Name ∉ cs.map (fun c => c.Name)))) := by
  induction cs generalizing l with
  | nil => simp
  | cons c cs ih =>
    have hc := List.nodup_cons.1 (by simpa using hn :
      (c.Name :: cs.map (fun c => c.Name)).Nodup)
    simp only [List.foldl_cons]
    refine (ih (contigSet l c) (contigSet_nodup l hl c) hc.2).trans ?_
    refine (((contigSet_perm l hl c).filter _).append_left cs).trans ?_
    rw [List.filter_cons_of_pos (by simpa using hc.1)]
    refine List.perm_middle.trans ?_
    rw [List.cons_append]
    apply List.Perm.cons
    apply List.Perm.append_left
    unfold mapDelete
    rw [List.filter_filter]
    apply List.Perm.of_eq
    apply List.filter_congr
    intro x _
    by_cases h1 : x.Name = c.Name <;> simp [h1]

/-- Adding the same contigs, with distinct names, in two orders gives the same
entries. -/
theorem AddContigs_perm (CM : ContigMap) (cs₁ cs₂ : List Contig) (hp : cs₁.Perm cs₂)
    (hl : (CM.Contigs.map (fun c => c.Name)).Nodup)
    (hn : (cs₁.map (fun c => c.Name)).Nodup) :
    (CM.AddContigs cs₁).Contigs.Perm (CM.AddContigs cs₂).Contigs := by
  have hn2 : (cs₂.map (fun c => c.Name)).Nodup := (hp.map _).nodup_iff.1 hn
  unfold ContigMap.AddContigs
  refine (foldl_contigSet_perm cs₁ _ hl hn).trans
    (List.Perm.trans ?_ (foldl_contigSet_perm cs₂ _ hl hn2).symm)
  have hf : CM.Contigs.filter (fun x => decide (x.Name ∉ cs₁.map (fun c => c.Name))) =
      CM.Contigs.filter (fun x => decide (x.Name ∉ cs₂.map (fun c => c.Name))) := by
    apply List.filter_congr
    intro x _
    have := (hp.map (fun c => c.Name)).mem_iff (a := x.Name)
    simp only [this]
  rw [hf]
  exact hp.append_right _

/-- C21. Take two groups with the same name and the same `Filtered` flag whose
maps hold the same contigs, with pairwise distinct names, enumerated in
different orders (as they are after `AddContigs` in different orders, see
`AddContigs_perm`). Whenever `filterContigs` returns on both, it returns the
same count and leaves the same contigs; when all ranges are set, it returns on
both. -/
theorem filterContigs_order_independent (CM₁ CM₂ : ContigMap) (hN : CM₁.Name = CM₂.Name)
    (hF : CM₁.Filtered = CM₂.Filtered) (hP : CM₁.Contigs.Perm CM₂.Contigs)
    (hn : (CM₁.Contigs.map (fun c => c.Name)).Nodup) :
    (∀ (out₁ out₂ : Nat) (CM₁' CM₂' : ContigMap),
      CM₁.filterContigs = .ok (out₁, CM₁') → CM₂.filterContigs = .ok (out₂, CM₂') →
      out₁ = out₂ ∧ CM₁'.Contigs.Perm CM₂'.Contigs) ∧
    ((∀ c ∈ CM₁.Contigs, rangeSet c) →
      ∃ (out : Nat) (CM₁' CM₂' : ContigMap),
        CM₁.filterContigs = .ok (out, CM₁') ∧ CM₂.filterContigs = .ok (out, CM₂') ∧
        CM₁'.Contigs.Perm CM₂'.Contigs) := by
  obtain ⟨hC, ho, _, _⟩ := filterLoopP_perm CM₁ CM₂ hN hF hP hn
  constructor
  · intro out₁ out₂ CM₁' CM₂' h1 h2
    have e1 := filterContigs_eq CM₁ _ h1
    have e2 := filterContigs_eq CM₂ _ h2
    have a1 : out₁ = (filterP CM₁).1 := congrArg Prod.fst e1
    have a2 : out₂ = (filterP CM₂).1 := congrArg Prod.fst e2
    have b1 : CM₁' = (filterP CM₁).2 := congrArg Prod.snd e1
    have b2 : CM₂' = (filterP CM₂).2 := congrArg Prod.snd e2
    rw [a1, a2, b1, b2]
    exact ⟨ho, hC⟩
  · intro hr
    have h1 := filterContigs_ok CM₁ hr
    have h2 := filterContigs_ok CM₂ (fun c hc => hr c (hP.mem_iff.2 hc))
    refine ⟨(filterP CM₁).1, (filterP CM₁).2, (filterP CM₂).2, h1, ?_, hC⟩
    rw [h2]
    have : (filterP CM₂).1 = (filterP CM₁).1 := ho.symm
    rw [← this]

theorem filterContigs_order_independent_witness :
    (groupOf "LG1" sharedBucketExample).Contigs ≠
      (groupOf "LG1" sharedBucketExample.reverse).Contigs ∧
    ((groupOf "LG1" sharedBucketExample).Contigs.map (fun c => c.Name)).Nodup ∧
    (∀ c ∈ (groupOf "LG1" sharedBucketExample).Contigs, rangeSet c) ∧
    ∃ (out : Nat) (CM₁' CM₂' : ContigMap),
      (groupOf "LG1" sharedBucketExample).filterContigs = .ok (out, CM₁') ∧
      (groupOf "LG1" sharedBucketExample.reverse).filterContigs = .ok (out, CM₂') ∧
      CM₁'.Contigs.Perm CM₂'.Contigs :=
  ⟨by decide, by decide, by decide,
    (filterContigs_order_independent (groupOf "LG1" sharedBucketExample)
      (groupOf "LG1" sharedBucketExample.reverse) rfl rfl
      (AddContigs_perm _ _ _ (List.reverse_perm _).symm (by decide) (by decide))
      (by decide)).2 (by decide)⟩

/-! ## Autocomplete runs to its end -/

/-- The loop of `Top` keeps markers of one weight, the greatest seen so far. -/
theorem foldl_topStep_max (l : List Marker) (st : List Marker × Nat)
    (hinv : ∀ m ∈ st.1, m.Weight = st.2) :
    (∀ m ∈ (l.foldl topStep st).1, m.Weight = (l.foldl topStep st).2) ∧
    st.2 ≤ (l.foldl topStep st).2 ∧ ∀ x ∈ l, x.Weight ≤ (l.foldl topStep st).2 := by
  induction l generalizing st with
  | nil => exact ⟨hinv, Nat.le_refl _, by simp⟩
  | cons y ys ih =>
    simp only [List.foldl_cons]
    have hstep : (∀ m ∈ (topStep st y).1, m.Weight = (topStep st y).2) ∧
        st.2 ≤ (topStep st y).2 ∧ y.Weight ≤ (topStep st y).2 := by
      unfold topStep
      split
      · rename_i h
        refine ⟨?_, Nat.le_of_lt h, Nat.le_refl _⟩
        intro m hm
        rw [List.mem_singleton.1 hm]
      · split
        · rename_i h1 h2
          refine ⟨?_, Nat.le_refl _, Nat.le_of_eq h2⟩
          intro m hm
          rcases List.mem_append.1 hm with hm | hm
          · exact hinv m hm
          · rw [List.mem_singleton.1 hm]
            exact h2
        · rename_i h1 h2
          exact ⟨hinv, Nat.le_refl _, by omega⟩
    obtain ⟨i1, i2, i3⟩ := ih (topStep st y) hstep.1
    refine ⟨i1, Nat.le_trans hstep.2.1 i2, ?_⟩
    intro x hx
    rcases List.mem_cons.1 hx with rfl | hx
    · exact Nat.le_trans hstep.2.2 i2
    · exact i3 x hx

/-- A top marker is at least as heavy as every marker `Top` looked at. -/
theorem Top_weight_max (c : Contig) (m x : Marker) (hm : m ∈ c.Top)
    (hx : x ∈ topCandidates c) : x.Weight ≤ m.Weight := by
  rw [Top_eq] at hm
  obtain ⟨h1, _, h3⟩ := foldl_topStep_max (topCandidates c) ([], 0) (by simp)
  rw [h1 m hm]
  exact h3 x hx

theorem weight_le_weightSum (l : List Marker) (m : Marker) (h : m ∈ l) :
    m.Weight ≤ weightSum l := by
  unfold weightSum
  exact List.single_le_sum (fun _ _ => Nat.zero_le _) _ (List.mem_map_of_mem _ h)

theorem weightSum_filter_le (l : List Marker) (p : Marker → Bool) :
    weightSum (l.filter p) ≤ weightSum l := by
  unfold weightSum
  induction l with
  | nil => simp
  | cons x xs ih =>
    by_cases hx : p x = true
    · simp only [List.filter_cons_of_pos hx, List.map_cons, List.sum_cons]
      omega
    · simp only [List.filter_cons_of_neg hx, List.map_cons, List.sum_cons]
      omega

/-- After the map position has been computed `CalculateRange` finds a top
marker to index. -/
theorem CalculateRange_ok_of_positioned (c : Contig) (h : Positioned c) :
    ∃ c', c.CalculateRange = .ok c' := by
  have hp := h.1
  unfold Contig.CalculateRange
  simp only [hp, Bool.true_eq_false, if_false, ensureLG_of_settled c hp h.2.1,
    ensureMapPos_of_positioned c h]
  by_cases h1 : genPosCount c.Markers = 1
  · rw [if_pos h1]
    exact ⟨_, rfl⟩
  · rw [if_neg h1]
    have hpad : (if c.Top.length = 1 then c.Top ++ [synthetic 0 c.GenPos c.MaxWeight]
        else c.Top) = paddedTop c := rfl
    rw [hpad]
    have hlg := lgMarkers_ne_nil_of_weight c h.2.2.1
    have htop : c.Top ≠ [] := by
      apply Top_ne_nil
      unfold topCandidates
      split
      · intro h0
        apply hlg
        unfold lgMarkers
        rw [h0]
        rfl
      · exact hlg
    have hne : paddedTop c ≠ [] := by
      unfold paddedTop
      split
      · simp
      · exact htop
    have hs : goSort ByGenPos (paddedTop c) ≠ [] := by
      intro h0
      have hperm := goSort_perm ByGenPos (paddedTop c)
      rw [h0] at hperm
      exact hne hperm.nil_eq.symm
    cases hh : (goSort ByGenPos (paddedTop c)).head? with
    | none => exact absurd (List.head?_eq_none_iff.1 hh) hs
    | some lo =>
      cases hl : (goSort ByGenPos (paddedTop c)).getLast? with
      | none => exact absurd (List.getLast?_eq_none_iff.1 hl) hs
      | some hi => exact ⟨_, rfl⟩

/-- C22, as stated, fails: the total weight is a `uint64` sum. A fresh contig
with two markers of `LG1`, each of weight `2 ^ 63`, has markers of positive
weight, but the total wraps to 0 and `Autocomplete` stops in `CalculateMapPos`
with an integer division by zero. -/
theorem Autocomplete_wraparound_counterexample :
    wrapExample.Markers ≠ [] ∧
    (∃ m ∈ wrapExample.Markers, 0 < m.Weight) ∧
    (∀ m ∈ wrapExample.Markers, m.Weight < U64) ∧
    wrapExample.AssignLG.2.CalculateMapPos = .error .divideByZero ∧
    wrapExample.Autocomplete = .error .divideByZero :=
  ⟨by decide, by decide, by decide, rfl, rfl⟩

/-- C22, amended. For every freshly constructed contig (`NewContig`, the name,
then `AddMarkers`) that has a marker of positive `Weight` and whose markers
have a total `Weight` below `2 ^ 64`, `Autocomplete` runs to its end: no
division by zero in `CalculateMapPos`, `CalculateAvgWeight` or `CentrePos`, and
no index into an empty list of top markers in `CalculateRange`. -/
theorem Autocomplete_returns (name : String) (ms : List Marker)
    (hw : ∃ m ∈ (freshContig name ms).Markers, 0 < m.Weight)
    (hs : weightSum (freshContig name ms).Markers < U64) :
    ∃ out c', (freshContig name ms).Autocomplete = .ok (out, c') := by
  by_cases hp1 : (freshContig name ms).AssignLG.2.Placeable = true
  · obtain ⟨lg, hloop, hc1⟩ := AssignLG_of_placeable (freshContig name ms) rfl hp1
    have hs1 : Settled (freshContig name ms).AssignLG.2 := by
      rw [hc1]
      by_cases hl : lg = ""
      · right
        have : ({ freshContig name ms with Placeable := true, LG := lg } : Contig).Top =
            (freshContig name ms).Top := by
          unfold Contig.Top
          have hlg : (freshContig name ms).LG = "" := rfl
          simp [hl, hlg]
        rw [this, hloop, hl]
      · left
        exact hl
    -- the divisor of `CalculateMapPos` is the weight of at least one top marker
    obtain ⟨x, hx, hxw⟩ := hw
    have hcand : topCandidates (freshContig name ms) = (freshContig name ms).Markers := rfl
    have htop : (freshContig name ms).Top ≠ [] := by
      apply Top_ne_nil
      rw [hcand]
      exact List.ne_nil_of_mem hx
    obtain ⟨m, hmt, hml⟩ := (assignLoop_empty _ _ hloop).2 htop
    have hmw : x.Weight ≤ m.Weight :=
      Top_weight_max (freshContig name ms) m x hmt (by rw [hcand]; exact hx)
    have hmm : m ∈ lgMarkers (freshContig name ms).AssignLG.2 := by
      rw [hc1]
      unfold lgMarkers
      exact List.mem_filter.2
        ⟨Top_mem_markers (freshContig name ms) m hmt, by simpa using hml⟩
    have hle : weightSum (lgMarkers (freshContig name ms).AssignLG.2) ≤
        weightSum (freshContig name ms).Markers := by
      rw [hc1]
      unfold lgMarkers
      exact weightSum_filter_le _ _
    have hge := weight_le_weightSum _ m hmm
    have hwne : weightSum (lgMarkers (freshContig name ms).AssignLG.2) % U64 ≠ 0 := by
      rw [Nat.mod_eq_of_lt (Nat.lt_of_le_of_lt hle hs)]
      omega
    -- the steps
    have h1 := CalculateMapPos_of_settled _ hp1 hs1
    rw [if_neg hwne] at h1
    have hpos2 := Positioned_setGenPos _ hp1 hs1 hwne
    obtain ⟨a, ha, hpos3⟩ := CalculateAvgWeight_of_positioned _ hpos2
    obtain ⟨r, c4, ho, _⟩ := Orient_of_positioned _ hpos3
    by_cases hp4 : c4.Placeable = true
    · obtain ⟨hpos4, _⟩ := Positioned_after_Orient _ c4 r hpos3 ho hp4
      obtain ⟨c5, h4⟩ := CalculateRange_ok_of_positioned c4 hpos4
      obtain ⟨out, hout⟩ := Autocomplete_ok_of_steps _ _ _ _ _ _ _ _ h1 ha ho h4
      exact ⟨out, c5, hout⟩
    · have hf : c4.Placeable = false := by simpa using hp4
      have h4 := CalculateRange_of_not_placeable c4 hf
      obtain ⟨out, hout⟩ := Autocomplete_ok_of_steps _ _ _ _ _ _ _ _ h1 ha ho h4
      exact ⟨out, c4, hout⟩
  · have hf : (freshContig name ms).AssignLG.2.Placeable = false := by simpa using hp1
    have hlg1 := AssignLG_LG_of_not_placeable _ hf
    have he : (freshContig name ms).AssignLG.2.ensureLG = (freshContig name ms).AssignLG.2 :=
      ensureLG_of_ne _ (by rw [hlg1]; decide)
    obtain ⟨out, c', ho, _⟩ :=
      Autocomplete_of_not_placeable (freshContig name ms) (by rw [he]; exact hf)
    exact ⟨out, c', ho⟩

theorem Autocomplete_returns_witness :
    (∃ m ∈ averageExampleFresh.Markers, 0 < m.Weight) ∧
    weightSum averageExampleFresh.Markers < U64 ∧
    ∃ out c', averageExampleFresh.Autocomplete = .ok (out, c') :=
  ⟨by decide, by decide,
    Autocomplete_returns "ctg1"
      [ mkMarker "m1" 10 100 2 "LG1" "ctg1", mkMarker "m2" 20 200 3 "LG1" "ctg1" ]
      (by decide) (by decide)⟩

/-! ## OrientMarkers on every sorted slice -/

/-- C1. `OrientMarkers` sorts the markers by `ConPos` ascending and then runs
its loop on the sorted slice. For every slice `sorted` that the sort may leave
(every permutation of the input in ascending `ConPos`, whatever the order
among markers of equal `ConPos`): the adjacent pairs of `sorted` are pairs of
input markers in ascending `ConPos`; the loop returns `("", false)` exactly
when two informative adjacent pairs of `sorted` have different local strands;
and otherwise it returns `(strand, true)`, where `strand` is the strand shared
by every informative pair, or `""` when no pair is informative. -/
theorem OrientMarkers_conflict_iff (data sorted : List Marker)
    (hs : SortedByConPos data sorted) :
    (∀ p ∈ adjacentPairs sorted, p.1 ∈ data ∧ p.2 ∈ data ∧ p.1.ConPos ≤ p.2.ConPos) ∧
    (orientLoop "" sorted = ("", false) ↔
      ∃ p ∈ adjacentPairs sorted, ∃ q ∈ adjacentPairs sorted,
        informative p = true ∧ informative q = true ∧ pairStrand p ≠ pairStrand q) ∧
    (orientLoop "" sorted ≠ ("", false) →
      (orientLoop "" sorted).2 = true ∧
      (∀ p ∈ adjacentPairs sorted, informative p = true →
        (orientLoop "" sorted).1 = pairStrand p) ∧
      ((∀ p ∈ adjacentPairs sorted, informative p = false) →
        (orientLoop "" sorted).1 = "")) := by
  refine ⟨?_, (orientLoop_conflict_iff sorted).1, (orientLoop_conflict_iff sorted).2⟩
  intro p hp
  obtain ⟨h1, h2⟩ := adjacentPairs_mem sorted p hp
  exact ⟨hs.1.mem_iff.1 h1, hs.1.mem_iff.1 h2,
    adjacentPairs_of_pairwise (fun a b => a.ConPos ≤ b.ConPos) sorted hs.2 p hp⟩

theorem OrientMarkers_conflict_iff_witness :
    SortedByConPos reversalExample tieOrderExample ∧
    tieOrderExample ≠ goSort ByConPos reversalExample ∧
    OrientMarkers reversalExample = ("-", true) ∧
    orientLoop "" tieOrderExample = ("", false) ∧
    (∀ p ∈ adjacentPairs tieOrderExample,
      p.1 ∈ reversalExample ∧ p.2 ∈ reversalExample ∧ p.1.ConPos ≤ p.2.ConPos) ∧
    (orientLoop "" tieOrderExample = ("", false) ↔
      ∃ p ∈ adjacentPairs tieOrderExample, ∃ q ∈ adjacentPairs tieOrderExample,
        informative p = true ∧ informative q = true ∧ pairStrand p ≠ pairStrand q) ∧
    (orientLoop "" tieOrderExample ≠ ("", false) →
      (orientLoop "" tieOrderExample).2 = true ∧
      (∀ p ∈ adjacentPairs tieOrderExample, informative p = true →
        (orientLoop "" tieOrderExample).1 = pairStrand p) ∧
      ((∀ p ∈ adjacentPairs tieOrderExample, informative p = false) →
        (orientLoop "" tieOrderExample).1 = "")) :=
  ⟨⟨(List.Perm.swap _ _ _).cons _, by decide⟩, by decide, by decide, by decide,
    OrientMarkers_conflict_iff reversalExample tieOrderExample
      ⟨(List.Perm.swap _ _ _).cons _, by decide⟩⟩

end ContigMapping
